import Mathlib

/-!
# Olive node graph: time remapping, hashing, invalidation and route counting

A shallow embedding of `app/node/node.cpp`, `app/node/block/clip/clip.cpp`,
`app/common/timerange.h`, `app/task/project/save/save.cpp`, `app/node/value.h`,
`app/node/graph.h`, `app/dialog/speedduration/speedduration.cpp` and
`app/widget/timelinewidget/timelinewidget.cpp`.

* C++ object pointers (`Node*`, `NodeInput*`) are natural numbers; the heap of
  nodes is a function from node pointers to node records.
* `rational` is `ℚ`: exact fractions with a positive denominator, reduced.
* `QByteArray` is `List UInt8`; `QCryptographicHash::addData` appends to the
  accumulated byte sequence, of which the digest is a function.
* Recursion along the edges of the graph takes a fuel argument; the theorems show
  that on an acyclic graph enough fuel always gives a result.
-/

namespace Olive

/-! ## Time -/

/-- The exact fraction type `rational` of the sources. -/
abbrev rational := ℚ

/-- A `TimeRange` holds `in_` and `out_`; its length is derived (`out_ - in_`). -/
structure TimeRange where
  in_ : rational
  out_ : rational
  deriving DecidableEq

/-- Modelled from the spec: the constructor `TimeRange(in, out)` of `timerange.cpp`
(absent; only `timerange.h` is present). It normalizes: when constructed
reversed, the endpoints are swapped. -/
def TimeRange.make (i o : rational) : TimeRange :=
  if o < i then { in_ := o, out_ := i } else { in_ := i, out_ := o }

/-- The derived length of a range. -/
def TimeRange.length (r : TimeRange) : rational := r.out_ - r.in_

/-! ## Parameters, edges, nodes -/

/-- Address of a `Node` object. -/
abbrev NodePtr := Nat

/-- Address of a `NodeInput` object. -/
abbrev InputPtr := Nat

/-- The accumulated bytes of a `QCryptographicHash` (and `QByteArray` values). -/
abbrev Bytes := List UInt8

/-- The data-type tag of a parameter (`NodeParam::DataType`). The sources under study
name `kNone`, `kBuffer` and `kFootage`; the declaration itself is in `param.h`
(absent), the other tags follow the closed set listed by the specification. -/
inductive DataType where
  | kNone
  | kNumber
  | kColor
  | kText
  | kBuffer
  | kFootage
  | kOther (tag : Nat)
  deriving DecidableEq, Repr

/-- The kind of a footage stream (`Stream::Type`); `Node::Hash` tests for `kVideo`
and `kImage`. -/
inductive StreamType where
  | kUnknown
  | kVideo
  | kAudio
  | kData
  | kSubtitle
  | kAttachment
  | kImage
  deriving DecidableEq, Repr

/-- What `Node::Hash` reads through a non-null `StreamPtr`: one field per getter
chain of the source. -/
structure Stream where
  /-- The result of `stream->type()`. -/
  type : StreamType
  /-- The result of `stream->index()`. -/
  index : Int
  /-- The result of `stream->footage()->filename()`. -/
  footage_filename : String
  /-- The result of `stream->footage()->timestamp().toString()`. -/
  footage_timestamp : String
  /-- The result of `footage()->project()->color_manager()->GetConfigFilename()`. -/
  color_config_filename : String
  /-- The result of `image_stream->colorspace()`. -/
  colorspace : String
  /-- The result of `image_stream->premultiplied_alpha()`. -/
  premultiplied_alpha : Bool
  /-- The result of `static_cast<VideoStream*>(stream)->start_time()`. -/
  start_time : Int
  deriving DecidableEq

/-- A `NodeEdge`: it joins the output of `output_node` to the input object `input`,
whose parent node is `input_node`. The same edge is recorded in the edge list of
both of its endpoints. -/
structure NodeEdge where
  /-- The result of `edge->output()->parentNode()`. -/
  output_node : NodePtr
  /-- The result of `edge->input()`. -/
  input : InputPtr
  /-- The result of `edge->input()->parentNode()`. -/
  input_node : NodePtr
  deriving DecidableEq, Repr

/-- A `NodeInput`. `get_value_at_time` and `standard_stream` are the results of the
getters `get_value_at_time(t)` and `get_standard_value().value<StreamPtr>()`
(`none` is the null pointer) of `input.cpp` (absent). An array input
(`NodeInputArray`, `IsArray()`) is an input with sub-parameters; a plain input has none. -/
inductive NodeInput (QVariant : Type) where
  | mk (ptr : InputPtr) (id : String) (data_type : DataType)
      (get_value_at_time : rational → QVariant) (standard_stream : Option Stream)
      (edges : List NodeEdge) (sub_params : List (NodeInput QVariant))

namespace NodeInput

variable {QVariant : Type}

/-- The address of the input object (pointer identity). -/
def ptr : NodeInput QVariant → InputPtr
  | mk p _ _ _ _ _ _ => p

/-- The parameter id. -/
def id : NodeInput QVariant → String
  | mk _ i _ _ _ _ _ => i

/-- The data-type tag. -/
def data_type : NodeInput QVariant → DataType
  | mk _ _ d _ _ _ _ => d

/-- The value of the input at a time (keyframes resolved). -/
def get_value_at_time : NodeInput QVariant → rational → QVariant
  | mk _ _ _ v _ _ _ => v

/-- The stream held by the standard value, if any. -/
def standard_stream : NodeInput QVariant → Option Stream
  | mk _ _ _ _ s _ _ => s

/-- The edges attached to the input. -/
def edges : NodeInput QVariant → List NodeEdge
  | mk _ _ _ _ _ e _ => e

/-- The sub-parameters of an array input. -/
def sub_params : NodeInput QVariant → List (NodeInput QVariant)
  | mk _ _ _ _ _ _ s => s

/-- Modelled from the spec: `NodeParam::is_connected` (`param.cpp` is absent): an
input is connected when it has an edge. -/
def is_connected (i : NodeInput QVariant) : Bool := !i.edges.isEmpty

/-- Modelled from the spec: `NodeInput::get_connected_node` (`input.cpp` is absent):
the parent node of the output at the other end of the input's single edge, null
when there is none. -/
def get_connected_node (i : NodeInput QVariant) : Option NodePtr :=
  i.edges.head?.map NodeEdge.output_node

end NodeInput

mutual
/-- The helper `GetInputsIncludingArraysInternal(array, list)`: the inputs it appends
to `list` for the array `array`. -/
def GetInputsIncludingArraysInternal {QVariant : Type} :
    NodeInput QVariant → List (NodeInput QVariant)
  | .mk _ _ _ _ _ _ subs => GetInputsIncludingArraysInternal.loop subs
/-- The `foreach` of `GetInputsIncludingArraysInternal` over the sub-parameters. -/
def GetInputsIncludingArraysInternal.loop {QVariant : Type} :
    List (NodeInput QVariant) → List (NodeInput QVariant)
  | [] => []
  | input :: rest =>
    input :: (GetInputsIncludingArraysInternal input ++ GetInputsIncludingArraysInternal.loop rest)
end

/-- A `NodeOutput`: an output parameter and the edges that leave it (fan-out). -/
structure NodeOutput where
  id : String
  edges : List NodeEdge
  deriving DecidableEq

/-- A `NodeParam` is an input (`NodeParam::kInput`) or an output (`NodeParam::kOutput`). -/
inductive NodeParam (QVariant : Type) where
  | input (i : NodeInput QVariant)
  | output (o : NodeOutput)

/-- The state of a `ClipBlock` that the functions under study read: the texture input
created by its constructor, and the two conversions `Block::SequenceToMediaTime` and
`Block::MediaToSequenceTime` of `block.cpp` (absent), taken as they are. -/
structure ClipBlock (QVariant : Type) where
  texture_input_ : NodeInput QVariant
  SequenceToMediaTime : rational → rational
  MediaToSequenceTime : rational → rational

/-- The dynamic type of a node object: a node with the default behaviour of `Node`,
or a `ClipBlock`, which overrides `InvalidateCache`, `InputTimeAdjustment`,
`OutputTimeAdjustment` and `Hash`. -/
inductive NodeKind (QVariant : Type) where
  | node
  | clip (c : ClipBlock QVariant)

/-- A `Node` object: the result of its virtual `id()`, its dynamic type, its parameter
list `params_` and its primary output `output_` (which the constructor also adds to
`params_`). -/
structure Node (QVariant : Type) where
  id : String
  kind : NodeKind QVariant
  params_ : List (NodeParam QVariant)
  output_ : NodeOutput

/-- The heap: the node object found at each node address. -/
abbrev Heap (QVariant : Type) := NodePtr → Node QVariant

section Queries

variable {QVariant : Type}

/-- The list built by `Node::GetInputsIncludingArrays`. -/
def Node.GetInputsIncludingArrays (n : Node QVariant) : List (NodeInput QVariant) :=
  n.params_.flatMap fun param =>
    match param with
    | .input input => input :: GetInputsIncludingArraysInternal input
    | .output _ => []

/-- The list returned by `Node::GetInputsToHash`. -/
def Node.GetInputsToHash (n : Node QVariant) : List (NodeInput QVariant) :=
  n.GetInputsIncludingArrays

/-- The list returned by `Node::GetOutputs`: the single primary output. -/
def Node.GetOutputs (n : Node QVariant) : List NodeOutput := [n.output_]

/-! ## Time remapping -/

/-- The default `Node::InputTimeAdjustment`: no time adjustment at all. -/
def Node.InputTimeAdjustment (_input : InputPtr) (input_time : TimeRange) : TimeRange :=
  input_time

/-- The default `Node::OutputTimeAdjustment`: no time adjustment at all. -/
def Node.OutputTimeAdjustment (_input : InputPtr) (input_time : TimeRange) : TimeRange :=
  input_time

/-- Modelled from the spec: `Block::InputTimeAdjustment`; `block.cpp` is absent and
`Block` is taken to inherit the time-transparent default of `Node`. -/
def Block.InputTimeAdjustment (input : InputPtr) (input_time : TimeRange) : TimeRange :=
  Node.InputTimeAdjustment input input_time

/-- The override `ClipBlock::InputTimeAdjustment`. -/
def ClipBlock.InputTimeAdjustment (c : ClipBlock QVariant) (input : InputPtr)
    (input_time : TimeRange) : TimeRange :=
  if input = c.texture_input_.ptr then
    TimeRange.make (c.SequenceToMediaTime input_time.in_) (c.SequenceToMediaTime input_time.out_)
  else
    Block.InputTimeAdjustment input input_time

/-- The override `ClipBlock::OutputTimeAdjustment`; as in the source, the fall-through
case calls `Block::InputTimeAdjustment`. -/
def ClipBlock.OutputTimeAdjustment (c : ClipBlock QVariant) (input : InputPtr)
    (input_time : TimeRange) : TimeRange :=
  if input = c.texture_input_.ptr then
    TimeRange.make (c.MediaToSequenceTime input_time.in_) (c.MediaToSequenceTime input_time.out_)
  else
    Block.InputTimeAdjustment input input_time

/-- A virtual call of `InputTimeAdjustment` on a node object. -/
def InputTimeAdjustment (n : Node QVariant) (input : InputPtr) (input_time : TimeRange) :
    TimeRange :=
  match n.kind with
  | .node => Node.InputTimeAdjustment input input_time
  | .clip c => c.InputTimeAdjustment input input_time

/-- A virtual call of `OutputTimeAdjustment` on a node object. -/
def OutputTimeAdjustment (n : Node QVariant) (input : InputPtr) (input_time : TimeRange) :
    TimeRange :=
  match n.kind with
  | .node => Node.OutputTimeAdjustment input input_time
  | .clip c => c.OutputTimeAdjustment input input_time

end Queries

/-! ## Hashing -/

/-- The bytes of `QString::toUtf8`. -/
def toUtf8 (s : String) : Bytes := s.data.flatMap String.utf8EncodeChar

/-- The decimal digits of a natural number, most significant first. -/
def decimalDigits (n : Nat) : List Nat :=
  if n = 0 then [0] else (Nat.digits 10 n).reverse

/-- The string of `QString::number` for an integer: a minus sign for negative numbers and
the decimal digits. -/
def QString.number (n : Int) : String :=
  String.mk ((if n < 0 then [(45 : Nat)] else []) ++ (decimalDigits n.natAbs).map (· + 48)
    |>.map Char.ofNat)

/-- The string of `QStringLiteral("%1/%2").arg(a, b)`. -/
def QString.arg2 (a b : String) : String := a ++ "/" ++ b

section Hashing

variable {QVariant : Type}

/-- The footage exception of `Node::Hash` for one input: the accumulator after the block
`if (input->data_type() == NodeParam::kFootage) ...`. -/
def Node.Hash.footage (input : NodeInput QVariant) (input_time : rational) (hash : Bytes) :
    Bytes :=
  if input.data_type = DataType.kFootage then
    match input.standard_stream with
    | none => hash
    | some stream =>
      -- Footage filename, last modified date, stream index
      let hash := hash ++ toUtf8 stream.footage_filename
      let hash := hash ++ toUtf8 stream.footage_timestamp
      let hash := hash ++ toUtf8 (QString.number stream.index)
      let hash :=
        if stream.type = StreamType.kImage ∨ stream.type = StreamType.kVideo then
          -- Current color config and space, alpha associated setting
          let hash := hash ++ toUtf8 stream.color_config_filename
          let hash := hash ++ toUtf8 stream.colorspace
          hash ++ toUtf8 (QString.number (if stream.premultiplied_alpha then 1 else 0))
        else hash
      -- Footage timestamp
      if stream.type = StreamType.kVideo then
        let hash := hash ++ toUtf8 (QString.arg2 (QString.number input_time.num)
          (QString.number input_time.den))
        hash ++ toUtf8 (QString.number stream.start_time)
      else hash
  else hash

/-- The `foreach (NodeInput* input, inputs)` of `Node::Hash`. `HashOf` is the virtual call
`node->Hash(hash, time)` on another node, `adjust` the virtual `InputTimeAdjustment` of
this node, `ValueToBytes` is `NodeParam::ValueToBytes` (`param.cpp` is absent). The result
is the accumulator after the loop, `none` when a call did not return. -/
def Node.Hash.loop (ValueToBytes : DataType → QVariant → Bytes)
    (HashOf : NodePtr → Bytes → rational → Option Bytes)
    (adjust : InputPtr → TimeRange → TimeRange) (time : rational) :
    List (NodeInput QVariant) → Bytes → Option Bytes
  | [], hash => some hash
  | input :: rest, hash =>
    -- For a single frame, we only care about one of the times
    let input_time := (adjust input.ptr (TimeRange.make time time)).in_
    let traversed : Option Bytes :=
      if input.is_connected then
        -- Traverse down this edge
        match input.get_connected_node with
        | some connected => HashOf connected hash input_time
        | none => none
      else
        -- Grab the value at this time
        some (hash ++ ValueToBytes input.data_type (input.get_value_at_time input_time))
    match traversed with
    | none => none
    | some hash => Node.Hash.loop ValueToBytes HashOf adjust time rest
        (Node.Hash.footage input input_time hash)

/-- The default `Node::Hash(hash, time)`: the accumulator when the call returns. -/
def Node.Hash (ValueToBytes : DataType → QVariant → Bytes)
    (HashOf : NodePtr → Bytes → rational → Option Bytes) (n : Node QVariant)
    (hash : Bytes) (time : rational) : Option Bytes :=
  -- Add this Node's ID
  let hash := hash ++ toUtf8 n.id
  Node.Hash.loop ValueToBytes HashOf (Olive.InputTimeAdjustment n) time n.GetInputsToHash hash

/-- The override `ClipBlock::Hash(hash, time)`. -/
def ClipBlock.Hash (HashOf : NodePtr → Bytes → rational → Option Bytes)
    (c : ClipBlock QVariant) (hash : Bytes) (time : rational) : Option Bytes :=
  if c.texture_input_.is_connected then
    let t := (c.InputTimeAdjustment c.texture_input_.ptr (TimeRange.make time time)).in_
    match c.texture_input_.get_connected_node with
    | some connected => HashOf connected hash t
    | none => none
  else some hash

/-- A virtual call `node->Hash(hash, time)` on the node at address `n`, with a bound
`fuel` on the depth of the recursion; `none` when the bound is reached. -/
def Hash (ValueToBytes : DataType → QVariant → Bytes) (g : Heap QVariant) :
    Nat → NodePtr → Bytes → rational → Option Bytes
  | 0, _, _, _ => none
  | fuel + 1, n, hash, time =>
    match (g n).kind with
    | .node => Node.Hash ValueToBytes (Hash ValueToBytes g fuel) (g n) hash time
    | .clip c => c.Hash (Hash ValueToBytes g fuel) hash time

/-- The bytes that a call of `Hash` on node `n` at `time` feeds a fresh accumulator. -/
def HashBytes (ValueToBytes : DataType → QVariant → Bytes) (g : Heap QVariant)
    (fuel : Nat) (n : NodePtr) (time : rational) : Bytes :=
  (Hash ValueToBytes g fuel n [] time).getD []

/-- The inputs through which the hashing of a node descends into other nodes. -/
def Node.hashedInputs (n : Node QVariant) : List (NodeInput QVariant) :=
  match n.kind with
  | .node => n.GetInputsToHash
  | .clip c => [c.texture_input_]

/-- The graph is acyclic along the inputs that hashing follows: `rank` decreases from a
node to every node connected to one of these inputs. -/
def HashAcyclic (g : Heap QVariant) (rank : NodePtr → Nat) : Prop :=
  ∀ n, ∀ input ∈ (g n).hashedInputs, ∀ c, input.get_connected_node = some c → rank c < rank n

/-- The bytes one input adds in the loop of `Node::Hash`, when the call on a connected
node `c` at time `t` feeds the bytes `F c t`. -/
def Node.Hash.contribution (ValueToBytes : DataType → QVariant → Bytes)
    (F : NodePtr → rational → Bytes) (adjust : InputPtr → TimeRange → TimeRange)
    (time : rational) (input : NodeInput QVariant) : Bytes :=
  (match input.get_connected_node with
    | some c => F c (adjust input.ptr (TimeRange.make time time)).in_
    | none => ValueToBytes input.data_type
        (input.get_value_at_time (adjust input.ptr (TimeRange.make time time)).in_)) ++
  Node.Hash.footage input (adjust input.ptr (TimeRange.make time time)).in_ []

/-- The bytes a call of `Hash` on node `n` feeds, when the call on a connected node `c`
at time `t` feeds the bytes `F c t`. -/
def HashSpec (ValueToBytes : DataType → QVariant → Bytes) (g : Heap QVariant)
    (F : NodePtr → rational → Bytes) (n : NodePtr) (time : rational) : Bytes :=
  match (g n).kind with
  | .node =>
    toUtf8 (g n).id ++ (g n).GetInputsToHash.flatMap
      (Node.Hash.contribution ValueToBytes F (InputTimeAdjustment (g n)) time)
  | .clip c =>
    match c.texture_input_.get_connected_node with
    | some m => F m (c.InputTimeAdjustment c.texture_input_.ptr (TimeRange.make time time)).in_
    | none => []

end Hashing

/-- The character codes of `QString::number`. -/
def numberCodes (n : Int) : List Nat :=
  (if n < 0 then [(45 : Nat)] else []) ++ (decimalDigits n.natAbs).map (· + 48)

/-- The bytes `Node::Hash` feeds for the time of a video stream. -/
def timeBytes (t : rational) : Bytes :=
  toUtf8 (QString.arg2 (QString.number t.num) (QString.number t.den))

/-- A byte sequence with holes: `some b` is a literal segment, `none` is a hole. -/
abbrev Template := List (Option Bytes)

/-- The bytes of a template whose holes are all filled with `x`. -/
def Template.fill (x : Bytes) (c : Template) : Bytes := c.flatMap fun seg => seg.getD x

/-- The number of holes of a template. -/
def Template.holes (c : Template) : Nat := (c.filter Option.isNone).length

section HashTemplates

variable {QVariant : Type}

/-- The bytes of the footage exception as a template whose hole is the time of a video
stream. -/
def Node.Hash.footageTemplate (input : NodeInput QVariant) : Template :=
  if input.data_type = DataType.kFootage then
    match input.standard_stream with
    | none => []
    | some stream =>
      [some (toUtf8 stream.footage_filename ++ toUtf8 stream.footage_timestamp ++
        toUtf8 (QString.number stream.index) ++
        (if stream.type = StreamType.kImage ∨ stream.type = StreamType.kVideo then
          toUtf8 stream.color_config_filename ++ toUtf8 stream.colorspace ++
            toUtf8 (QString.number (if stream.premultiplied_alpha then 1 else 0))
        else []))] ++
      (if stream.type = StreamType.kVideo then
        [none, some (toUtf8 (QString.number stream.start_time))]
      else [])
  else []

/-- Two input objects agree on what hashing reads of an input apart from its value: the
address, the data type, the edges and the stream of the standard value. -/
def NodeInput.SameShape (i i' : NodeInput QVariant) : Prop :=
  i'.ptr = i.ptr ∧ i'.data_type = i.data_type ∧ i'.edges = i.edges ∧
    i'.standard_stream = i.standard_stream

/-- The heap `g'` is the heap `g` after the value of the unconnected input at address `p`
of the node `N` was changed, everything else in the graph unchanged: the value of that
input serializes to `x` before and to `y` after the change, at every time. -/
structure ValueChanged (ValueToBytes : DataType → QVariant → Bytes) (g g' : Heap QVariant)
    (N : NodePtr) (p : InputPtr) (x y : Bytes) : Prop where
  id_eq : ∀ n, (g' n).id = (g n).id
  kind_eq : ∀ n,
    match (g n).kind, (g' n).kind with
    | .node, .node => True
    | .clip c, .clip c' =>
      c.texture_input_.SameShape c'.texture_input_ ∧
        c'.SequenceToMediaTime = c.SequenceToMediaTime
    | _, _ => False
  inputs : ∀ n, List.Forall₂
    (fun i i' => i.SameShape i' ∧
      if n = N ∧ i.ptr = p then
        i.is_connected = false ∧
        ∀ t, ValueToBytes i.data_type (i.get_value_at_time t) = x ∧
          ValueToBytes i'.data_type (i'.get_value_at_time t) = y
      else ∀ t, i'.get_value_at_time t = i.get_value_at_time t)
    (g n).GetInputsToHash (g' n).GetInputsToHash

/-- Hashing the node `M` reads the input at address `p` of the node `N`: `M` is `N`, a node
that hashes with `Node::Hash` and has the input among `GetInputsToHash()`, or `M` descends
through one of the connected inputs it hashes (any hashed input of a plain node, the
texture input of a clip) into a node of which this holds. -/
inductive HashReaches (g : Heap QVariant) (N : NodePtr) (p : InputPtr) : NodePtr → Prop
  | here : (g N).kind = NodeKind.node → (∃ i ∈ (g N).GetInputsToHash, i.ptr = p) →
      HashReaches g N p N
  | through (m c : NodePtr) (i : NodeInput QVariant) : i ∈ (g m).hashedInputs →
      i.get_connected_node = some c → HashReaches g N p c → HashReaches g N p m

end HashTemplates

/-! ## Cache invalidation -/

/-- A call `node->InvalidateCache(range, from, source)` received by a node. -/
structure Delivery where
  node : NodePtr
  range : TimeRange
  from_ : InputPtr
  source : InputPtr
  deriving DecidableEq

section Invalidation

variable {QVariant : Type}

/-- The inner `foreach (NodeEdgePtr edge, param->edges())` of
`Node::SendInvalidateCache`. `call` is the virtual call
`connected_node->InvalidateCache(range, connected_input, source)`; the result lists the
calls of `InvalidateCache` made until the loop is over, in order. -/
def Node.SendInvalidateCache.edges
    (call : NodePtr → TimeRange → InputPtr → InputPtr → Option (List Delivery))
    (range : TimeRange) (source : InputPtr) : List NodeEdge → Option (List Delivery)
  | [] => some []
  | edge :: rest =>
    let connected_input := edge.input
    let connected_node := edge.input_node
    -- Send clear cache signal to the Node
    match call connected_node range connected_input source with
    | none => none
    | some made =>
      (Node.SendInvalidateCache.edges call range source rest).map fun later => made ++ later

/-- The outer `foreach (NodeParam* param, params_)` of `Node::SendInvalidateCache`. -/
def Node.SendInvalidateCache.params
    (call : NodePtr → TimeRange → InputPtr → InputPtr → Option (List Delivery))
    (range : TimeRange) (source : InputPtr) :
    List (NodeParam QVariant) → Option (List Delivery)
  | [] => some []
  | param :: rest =>
    match param with
    | .output o =>
      -- If the Node is an output, relay the signal to any Nodes that are connected to it
      match Node.SendInvalidateCache.edges call range source o.edges with
      | none => none
      | some made =>
        (Node.SendInvalidateCache.params call range source rest).map fun later =>
          made ++ later
    | .input _ => Node.SendInvalidateCache.params call range source rest

/-- The function `Node::SendInvalidateCache(range, source)`. -/
def Node.SendInvalidateCache
    (call : NodePtr → TimeRange → InputPtr → InputPtr → Option (List Delivery))
    (n : Node QVariant) (range : TimeRange) (source : InputPtr) : Option (List Delivery) :=
  Node.SendInvalidateCache.params call range source n.params_

/-- The default `Node::InvalidateCache(range, from, source)`. -/
def Node.InvalidateCache
    (call : NodePtr → TimeRange → InputPtr → InputPtr → Option (List Delivery))
    (n : Node QVariant) (range : TimeRange) (_from : InputPtr) (source : InputPtr) :
    Option (List Delivery) :=
  Node.SendInvalidateCache call n range source

/-- Modelled from the spec: `Block::InvalidateCache`; `block.cpp` is absent and `Block` is
taken to keep the default behaviour of `Node`, which relays the signal unchanged to every
node connected downstream of every output. -/
def Block.InvalidateCache
    (call : NodePtr → TimeRange → InputPtr → InputPtr → Option (List Delivery))
    (n : Node QVariant) (range : TimeRange) (from_ : InputPtr) (source : InputPtr) :
    Option (List Delivery) :=
  Node.InvalidateCache call n range from_ source

/-- The override `ClipBlock::InvalidateCache(range, from, source)`; `BlockInvalidateCache`
is the call of the base class function `Block::InvalidateCache` on this object. -/
def ClipBlock.InvalidateCache {α : Type} (BlockInvalidateCache : TimeRange → InputPtr → InputPtr → α)
    (c : ClipBlock QVariant) (range : TimeRange) (from_ : InputPtr) (source : InputPtr) : α :=
  -- If signal is from texture input, transform all times from media time to sequence time
  if from_ = c.texture_input_.ptr then
    -- Adjust range from media time to sequence time
    let start := c.MediaToSequenceTime range.in_
    let end_ := c.MediaToSequenceTime range.out_
    BlockInvalidateCache (TimeRange.make start end_) from_ source
  else
    -- Otherwise, pass signal along normally
    BlockInvalidateCache range from_ source

/-- A virtual call `node->InvalidateCache(range, from, source)` on the node at address
`n`, with a bound `fuel` on the depth of the recursion: the calls of `InvalidateCache`
made on other nodes before this call returns, in order; `none` when the bound is
reached. -/
def InvalidateCache (g : Heap QVariant) :
    Nat → NodePtr → TimeRange → InputPtr → InputPtr → Option (List Delivery)
  | 0, _, _, _, _ => none
  | fuel + 1, n, range, from_, source =>
    let call := fun (m : NodePtr) (r : TimeRange) (f s : InputPtr) =>
      (InvalidateCache g fuel m r f s).map fun made =>
        { node := m, range := r, from_ := f, source := s : Delivery } :: made
    match (g n).kind with
    | .node => Node.InvalidateCache call (g n) range from_ source
    | .clip c => c.InvalidateCache (Block.InvalidateCache call (g n)) range from_ source

/-- The edges of all the output parameters of a node, in the order of `params_`. -/
def Node.outputEdges (n : Node QVariant) : List NodeEdge :=
  n.params_.flatMap fun param =>
    match param with
    | .output o => o.edges
    | .input _ => []

/-- The graph is acyclic along the edges of the outputs: `rank` decreases from a node to
every node connected to one of its outputs. -/
def RelayAcyclic (g : Heap QVariant) (rank : NodePtr → Nat) : Prop :=
  ∀ n, ∀ e ∈ (g n).outputEdges, rank e.input_node < rank n

/-! ## Reachability and routes -/

/-- The inner `foreach (NodeEdgePtr edge, output->edges())` of `Node::OutputsTo(Node*, bool)`;
`OutputsToOf` is the recursive call on the connected node. `some true` stands for
`return true`, `some false` for a loop that ran to its end. -/
def Node.OutputsTo.edges (OutputsToOf : NodePtr → Option Bool) (n : NodePtr)
    (recursively : Bool) : List NodeEdge → Option Bool
  | [] => some false
  | edge :: rest =>
    let connected := edge.input_node
    if connected = n then some true
    else if recursively then
      match OutputsToOf connected with
      | none => none
      | some true => some true
      | some false => Node.OutputsTo.edges OutputsToOf n recursively rest
    else Node.OutputsTo.edges OutputsToOf n recursively rest

/-- The outer `foreach (NodeOutput* output, outputs)` of `Node::OutputsTo(Node*, bool)`. -/
def Node.OutputsTo.outputs (OutputsToOf : NodePtr → Option Bool) (n : NodePtr)
    (recursively : Bool) : List NodeOutput → Option Bool
  | [] => some false
  | output :: rest =>
    match Node.OutputsTo.edges OutputsToOf n recursively output.edges with
    | none => none
    | some true => some true
    | some false => Node.OutputsTo.outputs OutputsToOf n recursively rest

/-- The call `a->OutputsTo(n, recursively)`, with a bound `fuel` on the depth of the
recursion. -/
def OutputsTo (g : Heap QVariant) : Nat → NodePtr → NodePtr → Bool → Option Bool
  | 0, _, _, _ => none
  | fuel + 1, a, n, recursively =>
    Node.OutputsTo.outputs (fun c => OutputsTo g fuel c n recursively) n recursively
      (g a).GetOutputs

/-- The value of a C++ `int` after an addition: 32 bits, two's complement, an overflow
wrapping around. -/
def wrapInt32 (x : Int) : Int := (x + 2147483648) % 4294967296 - 2147483648

/-- The inner `foreach (NodeEdgePtr edge, o->edges())` of `Node::GetRoutesTo`, on the pair
of the local variables `outputs_directly` and `routes`; `GetRoutesToOf` is the recursive
call on the connected node. -/
def Node.GetRoutesTo.edges (GetRoutesToOf : NodePtr → Option Int) (n : NodePtr) :
    List NodeEdge → Bool × Int → Option (Bool × Int)
  | [], state => some state
  | edge :: rest, (outputs_directly, routes) =>
    let connected_node := edge.input_node
    if connected_node = n then
      Node.GetRoutesTo.edges GetRoutesToOf n rest (true, routes)
    else
      match GetRoutesToOf connected_node with
      | none => none
      | some r =>
        Node.GetRoutesTo.edges GetRoutesToOf n rest (outputs_directly, wrapInt32 (routes + r))

/-- The outer `foreach (NodeOutput* o, outputs)` of `Node::GetRoutesTo`. -/
def Node.GetRoutesTo.outputs (GetRoutesToOf : NodePtr → Option Int) (n : NodePtr) :
    List NodeOutput → Bool × Int → Option (Bool × Int)
  | [], state => some state
  | o :: rest, state =>
    match Node.GetRoutesTo.edges GetRoutesToOf n o.edges state with
    | none => none
    | some state => Node.GetRoutesTo.outputs GetRoutesToOf n rest state

/-- The call `a->GetRoutesTo(n)`, with a bound `fuel` on the depth of the recursion. -/
def GetRoutesTo (g : Heap QVariant) : Nat → NodePtr → NodePtr → Option Int
  | 0, _, _ => none
  | fuel + 1, a, n =>
    match Node.GetRoutesTo.outputs (fun c => GetRoutesTo g fuel c n) n (g a).GetOutputs
        (false, 0) with
    | none => none
    | some (outputs_directly, routes) =>
      some (if outputs_directly then wrapInt32 (routes + 1) else routes)

/-- The graph is acyclic along the edges of the primary outputs: `rank` decreases from a
node to every node connected to its output. -/
def OutputAcyclic (g : Heap QVariant) (rank : NodePtr → Nat) : Prop :=
  ∀ a, ∀ o ∈ (g a).GetOutputs, ∀ e ∈ o.edges, rank e.input_node < rank a

/-- The calls of `InvalidateCache` made on other nodes by a call on the node `n` with the
given range and source, on a graph where `rank n + 1` bounds the depth of the recursion. -/
def relayed (g : Heap QVariant) (rank : NodePtr → Nat) (range : TimeRange) (source : InputPtr)
    (n : NodePtr) : List Delivery :=
  (InvalidateCache g (rank n + 1) n range 0 source).getD []

/-- The edges that leave the outputs returned by `GetOutputs`. -/
def Node.routeEdges (n : Node QVariant) : List NodeEdge :=
  n.GetOutputs.flatMap fun o => o.edges

/-- A directed path from the output of the node `a` to the node `n`: a sequence of
output-to-input edges, the first leaving the output of `a`, each next one leaving the
output of the node the previous one enters, the last entering `n`. -/
inductive IsPath (g : Heap QVariant) (n : NodePtr) : NodePtr → List NodeEdge → Prop
  | last (a : NodePtr) (e : NodeEdge) : e ∈ (g a).routeEdges → e.input_node = n →
      IsPath g n a [e]
  | step (a : NodePtr) (e : NodeEdge) (rest : List NodeEdge) : e ∈ (g a).routeEdges →
      IsPath g n e.input_node rest → IsPath g n a (e :: rest)

/-- The directed paths from the output of `a` to `n` of at most `fuel` edges. -/
def pathsTo (g : Heap QVariant) (n : NodePtr) : Nat → NodePtr → List (List NodeEdge)
  | 0, _ => []
  | fuel + 1, a => (g a).routeEdges.flatMap fun e =>
      (if e.input_node = n then [[e]] else []) ++
        (pathsTo g n fuel e.input_node).map fun p => e :: p

/-- The directed paths from the output of `a` to `n` of at most `fuel` edges, each without
its last edge: the edge sequences that lead from `a` to a node with an edge into `n`. -/
def routesTo (g : Heap QVariant) (n : NodePtr) : Nat → NodePtr → List (List NodeEdge)
  | 0, _ => []
  | fuel + 1, a =>
    (if (g a).routeEdges.any (fun e => decide (e.input_node = n)) then [[]] else []) ++
      (g a).routeEdges.flatMap fun e => (routesTo g n fuel e.input_node).map fun p => e :: p

/-- No node has two edges from its output directly into `n`. -/
def NoParallelInto (g : Heap QVariant) (n : NodePtr) : Prop :=
  ∀ m, ((g m).routeEdges.filter fun e => decide (e.input_node = n)).length ≤ 1

/-- The sum of `cnt` over the nodes entered by the edges that do not enter `n`. -/
def sumOther (n : NodePtr) (cnt : NodePtr → Nat) : List NodeEdge → Nat
  | [] => 0
  | e :: rest => (if e.input_node = n then 0 else cnt e.input_node) + sumOther n cnt rest

end Invalidation

namespace Example

/-- A serialization of values (here natural numbers) used in the examples. -/
def ValueToBytes (_ : DataType) (v : Nat) : Bytes := [UInt8.ofNat v]

/-- An unconnected, non-array input holding the constant `v`. -/
def plainInput (ptr : InputPtr) (id : String) (ty : DataType) (v : Nat) : NodeInput Nat :=
  NodeInput.mk ptr id ty (fun _ => v) none [] []

/-- A non-array input connected to the output of node `up`. -/
def connectedInput (ptr : InputPtr) (id : String) (ty : DataType) (up self : NodePtr) :
    NodeInput Nat :=
  NodeInput.mk ptr id ty (fun _ => 0) none
    [{ output_node := up, input := ptr, input_node := self }] []

/-- A clip that starts at sequence time 2, plays its media from media time 5 on, at
three times the speed; its texture input (address 20) is connected to node 0. -/
def clip : ClipBlock Nat where
  texture_input_ := connectedInput 20 "buffer_in" DataType.kBuffer 0 1
  SequenceToMediaTime := fun t => (t - 2) * 3 + 5
  MediaToSequenceTime := fun t => (t - 5) / 3 + 2

/-- A chain of three nodes: a generator (0) whose color input holds `v` feeds the texture
input of a clip (1), the clip feeds the input of a plain node (2). Every other address
holds an isolated node. -/
def chain (v : Nat) : Heap Nat
  | 0 => { id := "solid", kind := NodeKind.node,
           params_ := [NodeParam.input (plainInput 10 "color_in" DataType.kColor v),
                       NodeParam.output ⟨"node_out", [⟨0, 20, 1⟩]⟩],
           output_ := ⟨"node_out", [⟨0, 20, 1⟩]⟩ }
  | 1 => { id := "org.olivevideoeditor.Olive.clip", kind := NodeKind.clip clip,
           params_ := [NodeParam.input clip.texture_input_,
                       NodeParam.output ⟨"node_out", [⟨1, 30, 2⟩]⟩],
           output_ := ⟨"node_out", [⟨1, 30, 2⟩]⟩ }
  | 2 => { id := "viewer", kind := NodeKind.node,
           params_ := [NodeParam.input (connectedInput 30 "tex_in" DataType.kBuffer 1 2),
                       NodeParam.output ⟨"node_out", []⟩],
           output_ := ⟨"node_out", []⟩ }
  | _ => { id := "", kind := NodeKind.node, params_ := [NodeParam.output ⟨"node_out", []⟩],
           output_ := ⟨"node_out", []⟩ }

/-- A video stream of a footage file. -/
def videoStream : Stream where
  type := StreamType.kVideo
  index := 0
  footage_filename := "clip.mov"
  footage_timestamp := "Fri Oct 30 2026"
  color_config_filename := "config.ocio"
  colorspace := "srgb"
  premultiplied_alpha := false
  start_time := 0

/-- The footage input of the media node (address 40): unconnected, holding the video
stream. -/
def footageInput : NodeInput Nat :=
  NodeInput.mk 40 "footage_in" DataType.kFootage (fun _ => 0) (some videoStream) [] []

/-- A heap whose node 0 is a media node with one footage input; every other address
holds an isolated node. -/
def media : Heap Nat
  | 0 => { id := "media", kind := NodeKind.node,
           params_ := [NodeParam.input footageInput, NodeParam.output ⟨"node_out", []⟩],
           output_ := ⟨"node_out", []⟩ }
  | _ => { id := "", kind := NodeKind.node, params_ := [NodeParam.output ⟨"node_out", []⟩],
           output_ := ⟨"node_out", []⟩ }

/-- An audio stream of the same footage file. -/
def audioStream : Stream where
  type := StreamType.kAudio
  index := 1
  footage_filename := "clip.mov"
  footage_timestamp := "Fri Oct 30 2026"
  color_config_filename := "config.ocio"
  colorspace := ""
  premultiplied_alpha := false
  start_time := 0

/-- A heap whose node 0 is a media node with one footage input (address 40), unconnected,
holding the audio stream; every other address holds an isolated node. -/
def audioMedia : Heap Nat
  | 0 => { id := "audio",
           kind := NodeKind.node,
           params_ := [NodeParam.input
                         (NodeInput.mk 40 "footage_in" DataType.kFootage (fun _ => 0)
                           (some audioStream) [] []),
                       NodeParam.output ⟨"node_out", []⟩],
           output_ := ⟨"node_out", []⟩ }
  | _ => { id := "", kind := NodeKind.node, params_ := [NodeParam.output ⟨"node_out", []⟩],
           output_ := ⟨"node_out", []⟩ }

/-- A serialization of values that are texts: the UTF-8 bytes of the text. -/
def textToBytes (_ : DataType) (v : String) : Bytes := toUtf8 v

/-- A heap of nodes with text values whose node 0 has a footage input (address 40) holding
the video stream, followed by a text input (address 41) whose value is keyframed: the text
`0` at time 1 and the empty text at every other time. Both inputs are unconnected; every
other address holds an isolated node. -/
def titledMedia : Heap String
  | 0 => { id := "media",
           kind := NodeKind.node,
           params_ := [NodeParam.input
                         (NodeInput.mk 40 "footage_in" DataType.kFootage (fun _ => "")
                           (some videoStream) [] []),
                       NodeParam.input
                         (NodeInput.mk 41 "text_in" DataType.kText
                           (fun t => if t = 1 then "0" else "") none [] []),
                       NodeParam.output ⟨"node_out", []⟩],
           output_ := ⟨"node_out", []⟩ }
  | _ => { id := "", kind := NodeKind.node, params_ := [NodeParam.output ⟨"node_out", []⟩],
           output_ := ⟨"node_out", []⟩ }

/-- A heap whose node 0 is a clip with an unconnected texture input (address 20) holding
the value `v`; every other address holds an isolated node. -/
def loneClip (v : Nat) : Heap Nat
  | 0 => { id := "org.olivevideoeditor.Olive.clip",
           kind := NodeKind.clip
             { texture_input_ := plainInput 20 "buffer_in" DataType.kBuffer v,
               SequenceToMediaTime := fun t => t,
               MediaToSequenceTime := fun t => t },
           params_ := [NodeParam.input (plainInput 20 "buffer_in" DataType.kBuffer v),
                       NodeParam.output ⟨"node_out", []⟩],
           output_ := ⟨"node_out", []⟩ }
  | _ => { id := "", kind := NodeKind.node, params_ := [NodeParam.output ⟨"node_out", []⟩],
           output_ := ⟨"node_out", []⟩ }

/-- A diamond of four plain nodes: the output of `A` (0) feeds an input of `B` (1) and an
input of `C` (2), whose outputs each feed an input of `D` (3); no other edges. -/
def diamond : Heap Nat
  | 0 => { id := "A", kind := NodeKind.node,
           params_ := [NodeParam.input (plainInput 10 "a_in" DataType.kNumber 1),
                       NodeParam.output ⟨"node_out", [⟨0, 11, 1⟩, ⟨0, 21, 2⟩]⟩],
           output_ := ⟨"node_out", [⟨0, 11, 1⟩, ⟨0, 21, 2⟩]⟩ }
  | 1 => { id := "B", kind := NodeKind.node,
           params_ := [NodeParam.input (connectedInput 11 "b_in" DataType.kNumber 0 1),
                       NodeParam.output ⟨"node_out", [⟨1, 31, 3⟩]⟩],
           output_ := ⟨"node_out", [⟨1, 31, 3⟩]⟩ }
  | 2 => { id := "C", kind := NodeKind.node,
           params_ := [NodeParam.input (connectedInput 21 "c_in" DataType.kNumber 0 2),
                       NodeParam.output ⟨"node_out", [⟨2, 32, 3⟩]⟩],
           output_ := ⟨"node_out", [⟨2, 32, 3⟩]⟩ }
  | 3 => { id := "D", kind := NodeKind.node,
           params_ := [NodeParam.input (connectedInput 31 "d_in_1" DataType.kNumber 1 3),
                       NodeParam.input (connectedInput 32 "d_in_2" DataType.kNumber 2 3),
                       NodeParam.output ⟨"node_out", []⟩],
           output_ := ⟨"node_out", []⟩ }
  | _ => { id := "", kind := NodeKind.node, params_ := [NodeParam.output ⟨"node_out", []⟩],
           output_ := ⟨"node_out", []⟩ }

/-- A heap in which the output of node 0 feeds two inputs (addresses 11 and 12) of node 1;
every other address holds an isolated node. -/
def parallel : Heap Nat
  | 0 => { id := "source", kind := NodeKind.node,
           params_ := [NodeParam.output ⟨"node_out", [⟨0, 11, 1⟩, ⟨0, 12, 1⟩]⟩],
           output_ := ⟨"node_out", [⟨0, 11, 1⟩, ⟨0, 12, 1⟩]⟩ }
  | 1 => { id := "math", kind := NodeKind.node,
           params_ := [NodeParam.input (connectedInput 11 "param_a" DataType.kNumber 0 1),
                       NodeParam.input (connectedInput 12 "param_b" DataType.kNumber 0 1),
                       NodeParam.output ⟨"node_out", []⟩],
           output_ := ⟨"node_out", []⟩ }
  | _ => { id := "", kind := NodeKind.node, params_ := [NodeParam.output ⟨"node_out", []⟩],
           output_ := ⟨"node_out", []⟩ }

end Example

section ReachabilityDefs

variable {QVariant : Type}

/-- The result of `a->OutputsTo(n, true)` on a graph where `rank a + 1` bounds the depth of
the recursion. -/
def reaches (g : Heap QVariant) (rank : NodePtr → Nat) (n a : NodePtr) : Bool :=
  (OutputsTo g (rank a + 1) a n true).getD false

end ReachabilityDefs

/-! ## The parameter list of a node -/

/-- The program stops at a failed `Q_ASSERT`. -/
inductive Abort where
  | Q_ASSERT
  deriving DecidableEq, Repr

/-- An entry of `params_` (a `QList<NodeParam*>`): the address of a parameter object and
the object found there. -/
structure ParamObject (QVariant : Type) where
  ptr : Nat
  param : NodeParam QVariant

section ParameterList

variable {QVariant : Type}

/-- The result of `param->id()`. -/
def NodeParam.id : NodeParam QVariant → String
  | .input i => i.id
  | .output o => o.id

/-- The function `Node::HasParamWithID(id)` on the parameter list `params_`. -/
def Node.HasParamWithID : List (ParamObject QVariant) → String → Bool
  | [], _ => false
  | p :: rest, id => if p.param.id = id then true else Node.HasParamWithID rest id

/-- The function `Node::AddParameter(param)` on the parameter list `params_`: the list when
the call returns, or the failed assertion. `debug` tells whether `Q_ASSERT` is compiled in
(a debug build); in a release build (`QT_NO_DEBUG`) the macro expands to nothing. Setting
the parent and connecting the signals of `param` leave the list as it is. -/
def Node.AddParameter (debug : Bool) (params_ : List (ParamObject QVariant))
    (param : ParamObject QVariant) : Except Abort (List (ParamObject QVariant)) :=
  -- Ensure no other param with this ID has been added to this Node
  if debug && Node.HasParamWithID params_ param.param.id then Except.error Abort.Q_ASSERT
  else if params_.any (fun p => p.ptr == param.ptr) then Except.ok params_
  -- Keep main output as the last parameter, assume if there are no parameters that this is
  -- the output parameter
  else if params_.isEmpty then Except.ok (params_ ++ [param])
  else Except.ok (params_.take (params_.length - 1) ++ param ::
    params_.drop (params_.length - 1))

/-- The function `Node::AddInput(input)`. -/
def Node.AddInput (debug : Bool) (params_ : List (ParamObject QVariant))
    (input : ParamObject QVariant) : Except Abort (List (ParamObject QVariant)) :=
  Node.AddParameter debug params_ input

/-- The constructor `Node::Node()`: it creates the output `node_out` (at the address
`output_ptr`) and adds it to the empty parameter list. -/
def Node.construct (debug : Bool) (output_ptr : Nat) :
    Except Abort (List (ParamObject QVariant)) :=
  Node.AddParameter debug [] { ptr := output_ptr, param := NodeParam.output ⟨"node_out", []⟩ }

/-- A sequence of `AddParameter` calls, one for each object of `added` in order. -/
def Node.AddParameters (debug : Bool) :
    List (ParamObject QVariant) → List (ParamObject QVariant) →
      Except Abort (List (ParamObject QVariant))
  | params_, [] => Except.ok params_
  | params_, param :: rest =>
    match Node.AddParameter debug params_ param with
    | Except.error e => Except.error e
    | Except.ok params_ => Node.AddParameters debug params_ rest

end ParameterList

namespace Example

/-- A parameter list holding the primary output (at address 1). -/
def outputOnly : List (ParamObject Nat) :=
  [{ ptr := 1, param := NodeParam.output ⟨"node_out", []⟩ }]

/-- An input object (at address 2) whose id is that of the primary output. -/
def duplicateId : ParamObject Nat :=
  { ptr := 2, param := NodeParam.input (plainInput 2 "node_out" DataType.kNumber 0) }

/-- An input object (at address 3) with the id `x_in`. -/
def inputX : ParamObject Nat :=
  { ptr := 3, param := NodeParam.input (plainInput 3 "x_in" DataType.kNumber 0) }

/-- An input object (at address 4) with the id `y_in`. -/
def inputY : ParamObject Nat :=
  { ptr := 4, param := NodeParam.input (plainInput 4 "y_in" DataType.kNumber 0) }

end Example

section Lookup

variable {QVariant : Type}

/-- The `foreach (NodeInput* i, inputs)` of `Node::GetInputWithID`: the first input with
the id, `none` for `nullptr`. -/
def Node.GetInputWithID.loop (id : String) : List (NodeInput QVariant) → Option (NodeInput QVariant)
  | [] => none
  | i :: rest => if i.id = id then some i else Node.GetInputWithID.loop id rest

/-- The function `Node::GetInputWithID(id)`. -/
def Node.GetInputWithID (n : Node QVariant) (id : String) : Option (NodeInput QVariant) :=
  Node.GetInputWithID.loop id n.GetInputsIncludingArrays

/-- The `foreach (NodeParam* p, params_)` of `Node::GetOutputWithID`: the first output with
the id, `none` for `nullptr`. -/
def Node.GetOutputWithID.loop (id : String) : List (NodeParam QVariant) → Option NodeOutput
  | [] => none
  | p :: rest =>
    match p with
    | .output o => if o.id = id then some o else Node.GetOutputWithID.loop id rest
    | .input _ => Node.GetOutputWithID.loop id rest

/-- The function `Node::GetOutputWithID(id)`. -/
def Node.GetOutputWithID (n : Node QVariant) (id : String) : Option NodeOutput :=
  Node.GetOutputWithID.loop id n.params_

/-- The inputs of a node, sub-inputs of array inputs included: the inputs in the parameter
list, and the sub-parameters of every input of the node. -/
inductive Node.HasInput (n : Node QVariant) : NodeInput QVariant → Prop
  | param (i : NodeInput QVariant) : NodeParam.input i ∈ n.params_ → Node.HasInput n i
  | sub (a i : NodeInput QVariant) : Node.HasInput n a → i ∈ a.sub_params → Node.HasInput n i

end Lookup

/-! ## Operations -/

section Operations

variable {QVariant : Type}

/-- The inner `foreach (NodeEdgePtr edge, param->edges())` of `Node::BeginOperation`.
`BeginOperationOf` is the call `edge->input()->parentNode()->BeginOperation()`; the result
lists the nodes on which `BeginOperation` was called until the loop is over, in order. -/
def Node.BeginOperation.edges (BeginOperationOf : NodePtr → Option (List NodePtr)) :
    List NodeEdge → Option (List NodePtr)
  | [] => some []
  | edge :: rest =>
    match BeginOperationOf edge.input_node with
    | none => none
    | some made => (Node.BeginOperation.edges BeginOperationOf rest).map fun later => made ++ later

/-- The outer `foreach (NodeParam* param, params_)` of `Node::BeginOperation`. -/
def Node.BeginOperation.params (BeginOperationOf : NodePtr → Option (List NodePtr)) :
    List (NodeParam QVariant) → Option (List NodePtr)
  | [] => some []
  | param :: rest =>
    match param with
    | .output o =>
      match Node.BeginOperation.edges BeginOperationOf o.edges with
      | none => none
      | some made =>
        (Node.BeginOperation.params BeginOperationOf rest).map fun later => made ++ later
    | .input _ => Node.BeginOperation.params BeginOperationOf rest

/-- The function `Node::BeginOperation()`. -/
def Node.BeginOperation (BeginOperationOf : NodePtr → Option (List NodePtr))
    (n : Node QVariant) : Option (List NodePtr) :=
  Node.BeginOperation.params BeginOperationOf n.params_

/-- A call `node->BeginOperation()` on the node at address `n`, with a bound `fuel` on the
depth of the recursion: the nodes on which `BeginOperation` was called before this call
returns, in order. -/
def BeginOperation (g : Heap QVariant) : Nat → NodePtr → Option (List NodePtr)
  | 0, _ => none
  | fuel + 1, n =>
    Node.BeginOperation (fun m => (BeginOperation g fuel m).map fun made => m :: made) (g n)

/-- The inner `foreach (NodeEdgePtr edge, param->edges())` of `Node::EndOperation`. -/
def Node.EndOperation.edges (EndOperationOf : NodePtr → Option (List NodePtr)) :
    List NodeEdge → Option (List NodePtr)
  | [] => some []
  | edge :: rest =>
    match EndOperationOf edge.input_node with
    | none => none
    | some made => (Node.EndOperation.edges EndOperationOf rest).map fun later => made ++ later

/-- The outer `foreach (NodeParam* param, params_)` of `Node::EndOperation`. -/
def Node.EndOperation.params (EndOperationOf : NodePtr → Option (List NodePtr)) :
    List (NodeParam QVariant) → Option (List NodePtr)
  | [] => some []
  | param :: rest =>
    match param with
    | .output o =>
      match Node.EndOperation.edges EndOperationOf o.edges with
      | none => none
      | some made =>
        (Node.EndOperation.params EndOperationOf rest).map fun later => made ++ later
    | .input _ => Node.EndOperation.params EndOperationOf rest

/-- The function `Node::EndOperation()`. -/
def Node.EndOperation (EndOperationOf : NodePtr → Option (List NodePtr))
    (n : Node QVariant) : Option (List NodePtr) :=
  Node.EndOperation.params EndOperationOf n.params_

/-- A call `node->EndOperation()` on the node at address `n`, with a bound `fuel` on the
depth of the recursion: the nodes on which `EndOperation` was called before this call
returns, in order. -/
def EndOperation (g : Heap QVariant) : Nat → NodePtr → Option (List NodePtr)
  | 0, _ => none
  | fuel + 1, n =>
    Node.EndOperation (fun m => (EndOperation g fuel m).map fun made => m :: made) (g n)

/-- The nodes on which `BeginOperation` is called by a call on the node `n`, on a graph
where `rank n + 1` bounds the depth of the recursion. -/
def begun (g : Heap QVariant) (rank : NodePtr → Nat) (n : NodePtr) : List NodePtr :=
  (BeginOperation g (rank n + 1) n).getD []

end Operations

/-! ## Saving a project -/

/-- The files of the machine: the content stored under each file name, `none` where no
file exists. -/
abbrev FileSystem := String → Option String

/-- The file system with the content of `name` replaced. -/
def FileSystem.set (fs : FileSystem) (name : String) (content : Option String) : FileSystem :=
  fun other => if other = name then content else fs other

/-- What the operating system answers to the calls made by one run of
`ProjectSaveTask::Run`, in the order of the calls. -/
structure SaveOutcomes where
  /-- The call `project_file.open(QFile::WriteOnly | QFile::Text)` succeeds. -/
  open_ok : Bool
  /-- The text that is in the temporary file when `project_file.close()` returns. -/
  written : String
  /-- The value of `writer.hasError()`. -/
  writer_hasError : Bool
  /-- The call `original.remove()` succeeds. -/
  remove_ok : Bool
  /-- The device accepts the copy of `QFile::copy`. -/
  copy_ok : Bool

/-- The call `QFile::exists()`. -/
def QFile.exists_ (fs : FileSystem) (name : String) : Bool :=
  (fs name).isSome

/-- The call `QFile::remove()`: the file is gone when the call returns true. -/
def QFile.remove (remove_ok : Bool) (fs : FileSystem) (name : String) : Bool × FileSystem :=
  if (fs name).isSome && remove_ok then (true, fs.set name none) else (false, fs)

/-- The call `QFile::copy(fileName, newName)`: Qt does not overwrite, so the call fails
when `newName` exists; it fails when `fileName` cannot be read; a failed call leaves the
files as they are. -/
def QFile.copy (copy_ok : Bool) (fs : FileSystem) (fileName newName : String) :
    Bool × FileSystem :=
  match fs fileName with
  | none => (false, fs)
  | some content =>
    if (fs newName).isSome || !copy_ok then (false, fs) else (true, fs.set newName (some content))

/-- The result of `ProjectSaveTask::Run`: the returned value, the error set with
`SetError`, and the files afterwards. -/
structure SaveResult where
  /-- The returned value. -/
  returned : Bool
  /-- The error kind handed to `SetError`, if any: 0 for "Failed to write XML data", 1 for
  "Failed to write to", 2 for "Failed to open file". -/
  error : Option Nat
  /-- The files when the call returns. -/
  fs : FileSystem

/-- The function `ProjectSaveTask::Run()`, for a temporary file name `temp_save`, the
project's file name `filename` and the answers `env` of the operating system. -/
def ProjectSaveTask.Run (env : SaveOutcomes) (temp_save filename : String)
    (fs : FileSystem) : SaveResult :=
  if env.open_ok then
    -- opening for writing truncates the temporary file; the writer then fills it
    let fs1 := fs.set temp_save (some env.written)
    if env.writer_hasError then
      ⟨false, some 0, fs1⟩
    else
      -- (!original.exists() || original.remove()) && QFile::copy(temp_save, filename)
      let removed : Bool × FileSystem :=
        if !QFile.exists_ fs1 filename then (true, fs1)
        else QFile.remove env.remove_ok fs1 filename
      if removed.1 then
        let copied := QFile.copy env.copy_ok removed.2 temp_save filename
        if copied.1 then ⟨true, none, copied.2⟩ else ⟨false, some 1, copied.2⟩
      else
        ⟨false, some 1, removed.2⟩
  else
    ⟨false, some 2, fs⟩

namespace Example

/-- A machine with a saved project "old" under "project.ove" and nothing else. -/
def savedProject : FileSystem :=
  fun name => if name = "project.ove" then some "old" else none

/-- A run where the temporary file is written without error, the project file is removed,
and the copy of the temporary file fails. -/
def copyFails : SaveOutcomes :=
  { open_ok := true, written := "new", writer_hasError := false, remove_ok := true,
    copy_ok := false }

end Example

/-! ## Time ranges and lists of time ranges -/

/-- Modelled from the spec: `TimeRange::operator==` of `timerange.cpp` (absent). A range
is the pair of its endpoints, so two ranges are equal when both endpoints are. -/
def TimeRange.operator_eq (r a : TimeRange) : Bool :=
  r.in_ == a.in_ && r.out_ == a.out_

/-- Modelled from the spec: `TimeRange::OverlapsWith(a, in_inclusive, out_inclusive)` of
`timerange.cpp` (absent), the overlap test with configurable inclusive or exclusive
endpoints: inclusive, two ranges that only touch overlap; exclusive, they do not. -/
def TimeRange.OverlapsWith (r a : TimeRange) (in_inclusive out_inclusive : Bool) : Bool :=
  (if in_inclusive then decide (r.in_ ≤ a.out_) else decide (r.in_ < a.out_)) &&
  (if out_inclusive then decide (a.in_ ≤ r.out_) else decide (a.in_ < r.out_))

/-- Modelled from the spec: `TimeRange::Contains(const rational&)` of `timerange.cpp`
(absent): the range is treated as `[in, out)`. -/
def TimeRange.Contains (r : TimeRange) (t : rational) : Bool :=
  decide (r.in_ ≤ t) && decide (t < r.out_)

/-- Modelled from the spec: `TimeRange::Combine(a, b)` of `timerange.cpp` (absent): the
union of two ranges that overlap or touch; for disjoint ranges a span that is too large. -/
def TimeRange.Combine (a b : TimeRange) : TimeRange :=
  TimeRange.make (min a.in_ b.in_) (max a.out_ b.out_)

/-- A `TimeRangeList` is a `QList<TimeRange>`. -/
abbrev TimeRangeList := List TimeRange

/-- Insertion of an entry at its place in a list kept sorted by `in`. -/
def TimeRangeList.insertSorted (entry : TimeRange) : TimeRangeList → TimeRangeList
  | [] => [entry]
  | e :: rest =>
    if entry.in_ ≤ e.in_ then entry :: e :: rest
    else e :: TimeRangeList.insertSorted entry rest

/-- Modelled from the spec: `TimeRangeList::InsertTimeRange` of `timerange.cpp` (absent).
It scans for the entries that overlap or touch the new range, removes them, and inserts
one coalesced replacement; the list is kept sorted by `in`. -/
def TimeRangeList.InsertTimeRange (list : TimeRangeList) (range : TimeRange) : TimeRangeList :=
  let coalesced := (list.filter fun e => e.OverlapsWith range true true).foldl
    TimeRange.Combine range
  TimeRangeList.insertSorted coalesced (list.filter fun e => !e.OverlapsWith range true true)

/-- What `RemoveTimeRange` leaves of one entry: the entry itself when it does not overlap
the removed range; otherwise the part before the removed range, if any, and the part
after it, if any. -/
def TimeRangeList.RemoveTimeRange.pieces (remove e : TimeRange) : TimeRangeList :=
  if e.OverlapsWith remove false false then
    (if e.in_ < remove.in_ then [TimeRange.make e.in_ remove.in_] else []) ++
    (if remove.out_ < e.out_ then [TimeRange.make remove.out_ e.out_] else [])
  else [e]

/-- Modelled from the spec: `TimeRangeList::RemoveTimeRange` of `timerange.cpp` (absent).
It scans for overlaps and, for each, shrinks the entry (the removed range is a prefix or a
suffix of it), removes it (a superset) or splits it in two pieces (a middle). -/
def TimeRangeList.RemoveTimeRange (list : TimeRangeList) (remove : TimeRange) : TimeRangeList :=
  list.flatMap (TimeRangeList.RemoveTimeRange.pieces remove)

namespace Example

/-- The range `[0, 5)`. -/
def range_0_5 : TimeRange := TimeRange.make 0 5

/-- The range `[5, 10)`. -/
def range_5_10 : TimeRange := TimeRange.make 5 10

end Example

namespace Example

/-- The range `[0, 10)`. -/
def range_0_10 : TimeRange := TimeRange.make 0 10

/-- The range `[3, 6)`. -/
def range_3_6 : TimeRange := TimeRange.make 3 6

end Example

/-! ## Disconnecting and destroying a node -/

section Disconnect

variable {QVariant : Type}

/-- The result of `param->edges()`: the edges attached to the parameter. -/
def NodeParam.edges : NodeParam QVariant → List NodeEdge
  | .input i => i.edges
  | .output o => o.edges

mutual
/-- Every edge recorded in an input object or in one of its sub-parameters. -/
def NodeInput.allEdges : NodeInput QVariant → List NodeEdge
  | .mk _ _ _ _ _ edges subs => edges ++ NodeInput.allEdges.subs subs
/-- Every edge recorded in a list of sub-parameters. -/
def NodeInput.allEdges.subs : List (NodeInput QVariant) → List NodeEdge
  | [] => []
  | input :: rest => NodeInput.allEdges input ++ NodeInput.allEdges.subs rest
end

/-- Every edge recorded in a parameter object. -/
def NodeParam.allEdges : NodeParam QVariant → List NodeEdge
  | .input i => i.allEdges
  | .output o => o.edges

/-- Every edge that a node object holds: in the parameters of `params_`, in its primary
output and, for a clip, in its texture input. -/
def Node.allEdges (n : Node QVariant) : List NodeEdge :=
  n.params_.flatMap NodeParam.allEdges ++ n.output_.edges ++
    match n.kind with
    | .clip c => c.texture_input_.allEdges
    | .node => []

mutual
/-- The input object with `edge` removed from its edge list (`edges_.removeAll(edge)`),
also when the edge is attached to one of its sub-parameters. -/
def NodeInput.RemoveEdge (edge : NodeEdge) : NodeInput QVariant → NodeInput QVariant
  | .mk p i d v s edges subs =>
    .mk p i d v s (edges.filter fun x => x != edge) (NodeInput.RemoveEdge.subs edge subs)
/-- The sub-parameters with `edge` removed from their edge lists. -/
def NodeInput.RemoveEdge.subs (edge : NodeEdge) :
    List (NodeInput QVariant) → List (NodeInput QVariant)
  | [] => []
  | input :: rest => NodeInput.RemoveEdge edge input :: NodeInput.RemoveEdge.subs edge rest
end

/-- The parameter object with `edge` removed from its edge list. -/
def NodeParam.RemoveEdge (edge : NodeEdge) : NodeParam QVariant → NodeParam QVariant
  | .input i => .input (i.RemoveEdge edge)
  | .output o => .output { o with edges := o.edges.filter fun x => x != edge }

/-- The node object with `edge` removed from the edge lists of its parameters. The primary
output and the texture input of a clip are entries of `params_` too, so that they change
with them. -/
def Node.RemoveEdge (edge : NodeEdge) (n : Node QVariant) : Node QVariant :=
  { n with
    params_ := n.params_.map (NodeParam.RemoveEdge edge)
    output_ := { n.output_ with edges := n.output_.edges.filter fun x => x != edge }
    kind :=
      match n.kind with
      | .clip c => .clip { c with texture_input_ := c.texture_input_.RemoveEdge edge }
      | .node => .node }

/-- Modelled from the spec: `NodeParam::DisconnectEdge(edge)` of `param.cpp` (absent). An
edge is a relation recorded on both endpoints; disconnecting it removes it from the edge
list of its output, a parameter of the node `edge.output_node`, and from the edge list of
its input, a parameter of the node `edge.input_node`. -/
def NodeParam.DisconnectEdge (g : Heap QVariant) (edge : NodeEdge) : Heap QVariant :=
  fun m =>
    if m = edge.output_node ∨ m = edge.input_node then (g m).RemoveEdge edge else g m

/-- Modelled from the spec: `NodeParam::DisconnectAll()` of `param.cpp` (absent): it
disconnects every edge attached to the parameter. `param` is the parameter as it is
before the call; disconnecting an edge that is gone already changes nothing. -/
def NodeParam.DisconnectAll (g : Heap QVariant) (param : NodeParam QVariant) :
    Heap QVariant :=
  param.edges.foldl NodeParam.DisconnectEdge g

/-- The function `Node::DisconnectAll()` called on the node at address `d`:
`foreach (NodeParam* param, params_) param->DisconnectAll();`. -/
def Node.DisconnectAll (g : Heap QVariant) (d : NodePtr) : Heap QVariant :=
  (g d).params_.foldl NodeParam.DisconnectAll g

/-- The destructor `Node::~Node()` called on the node at address `d`: the heap that it
leaves. It calls `DisconnectAll()`, and then disconnects the signals of the inputs and
deletes the parameters of `d`, which changes no other node; the address `d` is dead
afterwards. -/
def Node.destructor (g : Heap QVariant) (d : NodePtr) : Heap QVariant :=
  Node.DisconnectAll g d

end Disconnect

namespace Example

/-- A ladder of 33 plain nodes: for `i < 32` the output of node `i` feeds two inputs of node
`i + 1` (addresses `2 * i + 100` and `2 * i + 101`); node 32 and every later address have an
output without edges. -/
def ladder : Heap Nat := fun i =>
  { id := "step", kind := NodeKind.node,
    params_ :=
      (if 0 < i ∧ i ≤ 32 then
        [NodeParam.input (connectedInput (2 * i + 98) "param_a" DataType.kNumber (i - 1) i),
         NodeParam.input (connectedInput (2 * i + 99) "param_b" DataType.kNumber (i - 1) i)]
      else []) ++
      [NodeParam.output ⟨"node_out",
        if i < 32 then [⟨i, 2 * i + 100, i + 1⟩, ⟨i, 2 * i + 101, i + 1⟩] else []⟩],
    output_ := ⟨"node_out",
      if i < 32 then [⟨i, 2 * i + 100, i + 1⟩, ⟨i, 2 * i + 101, i + 1⟩] else []⟩ }

end Example

section HashDescent

variable {QVariant : Type}

/-- The hashing of the node `n` descends into the node `c`: `c` is the node connected to
one of the inputs that the hashing of `n` follows. -/
def HashDescends (g : Heap QVariant) (c n : NodePtr) : Prop :=
  ∃ input ∈ (g n).hashedInputs, input.get_connected_node = some c

/-- The graph is finite as far as hashing goes: the nodes with a connected hashed input,
and the nodes connected to them, all lie among the first `size` addresses. -/
def HashFinite (g : Heap QVariant) (size : Nat) : Prop :=
  ∀ n c, HashDescends g c n → n < size ∧ c < size

/-- The graph has no cycle along the inputs that hashing follows. -/
def HashCycleFree (g : Heap QVariant) : Prop :=
  ∀ n, ¬ Relation.TransGen (HashDescends g) n n

end HashDescent

/-! ## Blocks of the timeline, speed and duration -/

/-- The kind of a block of the timeline (`Block::Type`). -/
inductive Block.Type_ where
  | kClip
  | kGap
  | kTransition
  deriving DecidableEq, Repr

/-- The state of a `Block` of the timeline that the speed/duration dialog, its commands and
the timeline widget read or write: one field per getter of `block.cpp` (absent). -/
structure Block where
  /-- The address of the block object. -/
  ptr : NodePtr
  /-- The result of `type()`. -/
  type : Block.Type_
  /-- The result of `in()`. -/
  in_ : rational
  /-- The result of `out()`. -/
  out_ : rational
  /-- The result of `length()`. -/
  length : rational
  /-- The result of `media_in()`. -/
  media_in : rational
  /-- The result of `speed()`. -/
  speed : rational
  deriving DecidableEq

/-- Modelled from the spec: the setter `Block::set_media_in` of `block.cpp` (absent): it
stores the media in point and leaves the rest of the block as it is. -/
def Block.set_media_in (b : Block) (media_in : rational) : Block :=
  { b with media_in := media_in }

/-- Modelled from the spec: the setter `Block::set_speed` of `block.cpp` (absent): it
stores the speed and leaves the rest of the block as it is. -/
def Block.set_speed (b : Block) (speed : rational) : Block :=
  { b with speed := speed }

/-- The function `BlockReverseCommand::redo_internal()`, on the state of `block_`;
`media_out` is `Block::media_out()` of `block.cpp` (absent). -/
def BlockReverseCommand.redo_internal (media_out : Block → rational) (block_ : Block) :
    Block :=
  let block_ := block_.set_media_in (media_out block_)
  block_.set_speed (-block_.speed)

/-- The function `BlockReverseCommand::undo_internal()`: it calls `redo_internal()`. -/
def BlockReverseCommand.undo_internal (media_out : Block → rational) (block_ : Block) :
    Block :=
  BlockReverseCommand.redo_internal media_out block_

/-- The movement mode handed to a trim command (`Timeline::MovementMode`). -/
inductive Timeline.MovementMode where
  | kTrimIn
  | kTrimOut
  deriving DecidableEq, Repr

/-- The commands that `SpeedDurationDialog::accept` creates to change the length of a
clip, with the block and the new length handed to their constructors. -/
inductive LengthCommand where
  | BlockResizeCommand (block : Block) (new_length : rational)
  | BlockTrimCommand (block : Block) (new_length : rational) (mode : Timeline.MovementMode)
  deriving DecidableEq

/-- The part of the body of the `foreach (ClipBlock* clip, clips_)` of
`SpeedDurationDialog::accept` that follows the computation of `new_duration`, in the
branch `change_duration`: the commands it creates. `current_duration` is
`Timecode::time_to_timestamp(clip->length(), timebase_)`, `timestamp_to_time` is
`Timecode::timestamp_to_time(., timebase_)` (`timecodefunctions.h` is absent),
`ripple_clips` is the state of the "Ripple Clips" checkbox and `next_block` is
`clip->next()`, `none` for the null pointer. -/
def SpeedDurationDialog.accept.change_length (timestamp_to_time : Int → rational)
    (ripple_clips : Bool) (clip : Block) (next_block : Option Block)
    (current_duration new_duration : Int) : List LengthCommand :=
  if new_duration ≠ current_duration then
    -- Calculate new clip length
    let new_clip_length := timestamp_to_time new_duration
    if ripple_clips then
      [LengthCommand.BlockResizeCommand clip new_clip_length]
    else
      -- If "ripple clips" isn't checked, we may be limited to how much we can change the length
      let new_clip_length :=
        match next_block with
        | some next_block =>
          if new_clip_length > clip.length then
            if next_block.type = Block.Type_.kGap then
              min next_block.out_ (clip.in_ + new_clip_length)
            else
              clip.length
          else new_clip_length
        | none => new_clip_length
      if new_clip_length ≠ clip.length then
        [LengthCommand.BlockTrimCommand clip new_clip_length Timeline.MovementMode.kTrimOut]
      else []
  else []

namespace Example

/-- A clip on the timeline from 10 to 15, playing its media from media time 3 at twice the
speed. -/
def timelineClip : Block :=
  { ptr := 1, type := Block.Type_.kClip, in_ := 10, out_ := 15, length := 5, media_in := 3,
    speed := 2 }

/-- The gap that follows `timelineClip`, from 15 to 20. -/
def timelineGap : Block :=
  { ptr := 2, type := Block.Type_.kGap, in_ := 15, out_ := 20, length := 5, media_in := 0,
    speed := 1 }

/-- A block whose media out point is its media in point plus its length at its speed. -/
def linear_media_out (b : Block) : rational := b.media_in + b.length * b.speed

/-- A block whose media out point is its media in point plus its length, whatever its
speed. -/
def unscaled_media_out (b : Block) : rational := b.media_in + b.length

end Example

/-! ## The timeline widget -/

/-- A track of the timeline: the result of `track->BlockContainingTime(time)`
(`TrackOutput` is absent), `none` for the null pointer. -/
structure TrackOutput where
  BlockContainingTime : rational → Option Block

/-- An item of the timeline view: the address of the block it shows, the result of
`item->block()`. -/
structure TimelineViewBlockItem where
  block : NodePtr
  deriving DecidableEq, Repr

/-- The command pushed by `SplitAtPlayhead`, with the blocks and the times handed to its
constructor. -/
structure BlockSplitPreservingLinksCommand where
  blocks : List Block
  times : List rational
  deriving DecidableEq

/-- The inner `foreach (TimelineViewBlockItem* item, selected_blocks)` of
`SplitAtPlayhead`: the value of `selected` after the loop, which is also the value given
to `some_blocks_are_selected` when it is true. -/
def TimelineWidget.SplitAtPlayhead.selected (b : Block) : List TimelineViewBlockItem → Bool
  | [] => false
  | item :: rest =>
    if item.block = b.ptr then true else TimelineWidget.SplitAtPlayhead.selected b rest

/-- The `foreach (TrackOutput* track, GetConnectedNode()->GetTracks())` of
`SplitAtPlayhead`, on the local variables `blocks_to_split`, `block_is_selected` and
`some_blocks_are_selected`. -/
def TimelineWidget.SplitAtPlayhead.tracks (playhead_time : rational)
    (selected_blocks : List TimelineViewBlockItem) :
    List TrackOutput → List Block × List Bool × Bool → List Block × List Bool × Bool
  | [], state => state
  | track :: rest, (blocks_to_split, block_is_selected, some_blocks_are_selected) =>
    match track.BlockContainingTime playhead_time with
    | some b =>
      if b.type = Block.Type_.kClip then
        let selected := TimelineWidget.SplitAtPlayhead.selected b selected_blocks
        TimelineWidget.SplitAtPlayhead.tracks playhead_time selected_blocks rest
          (blocks_to_split ++ [b], block_is_selected ++ [selected],
            some_blocks_are_selected || selected)
      else
        TimelineWidget.SplitAtPlayhead.tracks playhead_time selected_blocks rest
          (blocks_to_split, block_is_selected, some_blocks_are_selected)
    | none =>
      TimelineWidget.SplitAtPlayhead.tracks playhead_time selected_blocks rest
        (blocks_to_split, block_is_selected, some_blocks_are_selected)

/-- The loop `for (int i=0;i<block_is_selected.size();i++)` of `SplitAtPlayhead`, from the
index `i` on: an entry that is not selected is removed from both vectors and the index
stays (`i--` then `i++`). `fuel` bounds the number of iterations; `none` when it is used
up before the loop is over. -/
def TimelineWidget.SplitAtPlayhead.prune :
    Nat → Nat → List Block → List Bool → Option (List Block × List Bool)
  | fuel, i, blocks_to_split, block_is_selected =>
    match block_is_selected[i]? with
    | none => some (blocks_to_split, block_is_selected)
    | some selected =>
      match fuel with
      | 0 => none
      | fuel + 1 =>
        if !selected then
          TimelineWidget.SplitAtPlayhead.prune fuel i (blocks_to_split.eraseIdx i)
            (block_is_selected.eraseIdx i)
        else
          TimelineWidget.SplitAtPlayhead.prune fuel (i + 1) blocks_to_split block_is_selected

/-- The function `TimelineWidget::SplitAtPlayhead()`: the commands it pushes on the undo
stack. `connected_tracks` is `GetConnectedNode()->GetTracks()`, `none` when
`GetConnectedNode()` is null; `playhead_time` is the time of the playhead. The loop that
removes the blocks that are not selected runs at most once per entry of the vector. -/
def TimelineWidget.SplitAtPlayhead (connected_tracks : Option (List TrackOutput))
    (playhead_time : rational) (selected_blocks : List TimelineViewBlockItem) :
    Option (List BlockSplitPreservingLinksCommand) :=
  match connected_tracks with
  | none => some []
  | some tracks =>
    match TimelineWidget.SplitAtPlayhead.tracks playhead_time selected_blocks tracks
        ([], [], false) with
    | (blocks_to_split, block_is_selected, some_blocks_are_selected) =>
      -- If some blocks are selected, we prioritize those and don't split the blocks that aren't
      let pruned :=
        if some_blocks_are_selected then
          TimelineWidget.SplitAtPlayhead.prune block_is_selected.length 0 blocks_to_split
            block_is_selected
        else some (blocks_to_split, block_is_selected)
      match pruned with
      | none => none
      | some (blocks_to_split, _) =>
        if !blocks_to_split.isEmpty then
          some [{ blocks := blocks_to_split, times := [playhead_time] }]
        else some []

/-- The clip blocks that contain the playhead time: at most one per track, in the order of
the tracks. -/
def TimelineWidget.clipsAtPlayhead (tracks : List TrackOutput) (playhead_time : rational) :
    List Block :=
  tracks.filterMap fun track =>
    (track.BlockContainingTime playhead_time).filter fun b => b.type = Block.Type_.kClip

namespace Example

/-- Three tracks: at every time the first one holds `timelineClip`, the second one the gap
`timelineGap` and the third one a second clip (address 3). -/
def tracks : List TrackOutput :=
  [⟨fun _ => some timelineClip⟩, ⟨fun _ => some timelineGap⟩,
   ⟨fun _ => some { timelineClip with ptr := 3 }⟩]

end Example

/-- The inner `foreach (Node* d, deps)` of `CopySelected`, on the list `selected_nodes`. -/
def TimelineWidget.CopySelected.deps (selected_nodes : List NodePtr) :
    List NodePtr → List NodePtr
  | [] => selected_nodes
  | d :: rest =>
    if !selected_nodes.contains d then
      TimelineWidget.CopySelected.deps (selected_nodes ++ [d]) rest
    else TimelineWidget.CopySelected.deps selected_nodes rest

/-- The `foreach (TimelineViewBlockItem* item, selected)` of `CopySelected`, on the list
`selected_nodes`; `GetDependencies` is `block->GetDependencies()`, the list of the
dependencies of a block. -/
def TimelineWidget.CopySelected.items (GetDependencies : NodePtr → List NodePtr) :
    List TimelineViewBlockItem → List NodePtr → List NodePtr
  | [], selected_nodes => selected_nodes
  | item :: rest, selected_nodes =>
    let block := item.block
    let selected_nodes := selected_nodes ++ [block]
    let deps := GetDependencies block
    TimelineWidget.CopySelected.items GetDependencies rest
      (TimelineWidget.CopySelected.deps selected_nodes deps)

/-- The function `TimelineWidget::CopySelected(cut)`: the node list handed to
`CopyNodesToClipboard`, `none` when the function returns before the call.
`connected` tells whether `GetConnectedNode()` is non-null, `selected` is
`GetSelectedBlocks()`. -/
def TimelineWidget.CopySelected (connected : Bool) (GetDependencies : NodePtr → List NodePtr)
    (selected : List TimelineViewBlockItem) : Option (List NodePtr) :=
  if !connected then none
  else if selected.isEmpty then none
  else some (TimelineWidget.CopySelected.items GetDependencies selected [])

namespace Example

/-- Dependencies in a small timeline: the transition at address 1 depends on the clip at
address 2, which has no dependency. -/
def transitionDependencies (n : NodePtr) : List NodePtr :=
  if n = 1 then [2] else []

end Example

/-! ## Value tables -/

section ValueTables

variable {QVariant : Type}

/-- A `NodeValue`: a type, the data, the node that produced it and an optional tag
(`value.h`). -/
structure NodeValue (QVariant : Type) where
  type_ : DataType
  data_ : QVariant
  from_ : NodePtr
  tag_ : String

/-- A `NodeValueTable`: the list `values_`, in the order in which the values were pushed. -/
structure NodeValueTable (QVariant : Type) where
  values_ : List (NodeValue QVariant)

/-- Modelled from the spec: `NodeValueTable::Push(const NodeValue&)` of `value.cpp`
(absent): the table is an ordered stack and a pushed value is its most recent entry. -/
def NodeValueTable.Push (table : NodeValueTable QVariant) (value : NodeValue QVariant) :
    NodeValueTable QVariant :=
  { values_ := table.values_ ++ [value] }

/-- Modelled from the spec: the search of `NodeValueTable::GetInternal(type, tag)` of
`value.cpp` (absent) in the values from the index `index - 1` down to 0: the index of the
most recently pushed entry with the requested type and tag, `none` (the index -1) if there
is none. -/
def NodeValueTable.GetInternal.scan (type : DataType) (tag : String)
    (values : List (NodeValue QVariant)) : Nat → Option Nat
  | 0 => none
  | index + 1 =>
    match values[index]? with
    | some value =>
      if value.type_ = type ∧ value.tag_ = tag then some index
      else NodeValueTable.GetInternal.scan type tag values index
    | none => NodeValueTable.GetInternal.scan type tag values index

/-- Modelled from the spec: `NodeValueTable::GetInternal(type, tag)` of `value.cpp`
(absent). -/
def NodeValueTable.GetInternal (table : NodeValueTable QVariant) (type : DataType)
    (tag : String) : Option Nat :=
  NodeValueTable.GetInternal.scan type tag table.values_ table.values_.length

/-- Modelled from the spec: `NodeValueTable::Get(type, tag)` of `value.cpp` (absent): the
data of the most recently pushed matching entry, or the null value `null` if there is
none; it never fails. -/
def NodeValueTable.Get (null : QVariant) (table : NodeValueTable QVariant) (type : DataType)
    (tag : String) : QVariant :=
  match table.GetInternal type tag with
  | some index =>
    match table.values_[index]? with
    | some value => value.data_
    | none => null
  | none => null

/-- Modelled from the spec: `NodeValueTable::Take(type, tag)` of `value.cpp` (absent): as
`Get`, and the entry is removed from the table. The result is the data and the table
afterwards. -/
def NodeValueTable.Take (null : QVariant) (table : NodeValueTable QVariant) (type : DataType)
    (tag : String) : QVariant × NodeValueTable QVariant :=
  match table.GetInternal type tag with
  | some index =>
    match table.values_[index]? with
    | some value => (value.data_, { values_ := table.values_.eraseIdx index })
    | none => (null, table)
  | none => (null, table)

end ValueTables

namespace Example

/-- A table holding one number without tag. -/
def table : NodeValueTable Nat :=
  { values_ := [{ type_ := DataType.kNumber, data_ := 5, from_ := 0, tag_ := "" }] }

/-- A texture value `A` with the tag `tex`. -/
def valueA : NodeValue Nat :=
  { type_ := DataType.kBuffer, data_ := 1, from_ := 1, tag_ := "tex" }

/-- A texture value `B` with the tag `tex`. -/
def valueB : NodeValue Nat :=
  { type_ := DataType.kBuffer, data_ := 2, from_ := 2, tag_ := "tex" }

end Example

/-! ## Rational numbers -/

/-- Modelled from the spec: the constructor `rational(numerator, denominator)` of
`rational.h` (absent): construction from an integer numerator and denominator always
reduces to lowest terms with a positive denominator. -/
def rational.make (numerator denominator : Int) : rational :=
  Rat.divInt numerator denominator

/-- The numerator of a `rational`, in lowest terms. -/
def rational.numerator (r : rational) : Int := r.num

/-- The denominator of a `rational`, in lowest terms; it is positive. -/
def rational.denominator (r : rational) : Nat := r.den

/-- Modelled from the spec: `rational::operator+` of `rational.h` (absent): the arithmetic
is exact and produces a new reduced fraction. -/
def rational.operator_add (x y : rational) : rational := x + y

/-! ## The node graph as an owner of nodes -/

/-- A `NodeGraph` and the nodes around it: the list `node_children_` of the nodes that the
graph owns (`graph.h`), and the nodes that were destroyed so far, in the order of their
destruction. -/
structure NodeGraph where
  node_children_ : List NodePtr
  destroyed : List NodePtr
  deriving DecidableEq, Repr

/-- The function `NodeGraph::nodes()`: the complete list of the nodes belonging to the
graph. -/
def NodeGraph.nodes (graph : NodeGraph) : List NodePtr := graph.node_children_

/-- Modelled from the spec: `NodeGraph::ContainsNode(n)` of `graph.cpp` (absent): whether
the node is in the graph. -/
def NodeGraph.ContainsNode (graph : NodeGraph) (n : NodePtr) : Bool :=
  graph.node_children_.contains n

/-- Modelled from the spec: `NodeGraph::AddNode(node)` of `graph.cpp` (absent): the graph
takes ownership of the node; it owns a set of nodes, so that a node it owns already is not
added a second time. No node is destroyed. -/
def NodeGraph.AddNode (graph : NodeGraph) (node : NodePtr) : NodeGraph :=
  if graph.ContainsNode node then graph
  else { graph with node_children_ := graph.node_children_ ++ [node] }

/-- Modelled from the spec: `NodeGraph::TakeNode(node, new_parent)` of `graph.cpp`
(absent): it removes the node from the graph and releases the ownership to the new parent,
without destroying the node. -/
def NodeGraph.TakeNode (graph : NodeGraph) (node : NodePtr) : NodeGraph :=
  { graph with node_children_ := graph.node_children_.filter fun m => m != node }

/-- Modelled from the spec: `NodeGraph::Clear()` of `graph.cpp` (absent): it destroys
every node that the graph owns. -/
def NodeGraph.Clear (graph : NodeGraph) : NodeGraph :=
  { node_children_ := [], destroyed := graph.destroyed ++ graph.node_children_ }

/-- Modelled from the spec: the deletion of a `NodeGraph` (a `QObject`): it deletes the
nodes that the graph still owns. The result is the list of the destroyed nodes. -/
def NodeGraph.destructor (graph : NodeGraph) : List NodePtr :=
  graph.destroyed ++ graph.node_children_

/-- A call of `AddNode` or of `TakeNode` on a graph. -/
inductive NodeGraph.Call where
  | AddNode (node : NodePtr)
  | TakeNode (node : NodePtr)
  deriving DecidableEq, Repr

/-- The graph after a sequence of calls of `AddNode` and `TakeNode`. -/
def NodeGraph.run (graph : NodeGraph) : List NodeGraph.Call → NodeGraph
  | [] => graph
  | .AddNode node :: rest => NodeGraph.run (graph.AddNode node) rest
  | .TakeNode node :: rest => NodeGraph.run (graph.TakeNode node) rest

namespace Example

/-- A graph that owns the nodes 1, 2 and 3; the node 9 was destroyed before. -/
def graph : NodeGraph := { node_children_ := [1, 2, 3], destroyed := [9] }

end Example

/-! ## Lemmas and theorems -/

theorem Example.chain_acyclic (v : Nat) : HashAcyclic (Example.chain v) (fun n => n) := by
  intro n input hin c hc
  match n with
  | 0 =>
    simp [Example.chain, Node.hashedInputs, Node.GetInputsToHash,
      Node.GetInputsIncludingArrays, GetInputsIncludingArraysInternal,
      GetInputsIncludingArraysInternal.loop, Example.plainInput] at hin
    subst hin
    simp [NodeInput.get_connected_node, NodeInput.edges] at hc
  | 1 =>
    simp [Example.chain, Node.hashedInputs, Example.clip, Example.connectedInput] at hin
    subst hin
    simp [NodeInput.get_connected_node, NodeInput.edges] at hc
    subst hc
    decide
  | 2 =>
    simp [Example.chain, Node.hashedInputs, Node.GetInputsToHash,
      Node.GetInputsIncludingArrays, GetInputsIncludingArraysInternal,
      GetInputsIncludingArraysInternal.loop, Example.connectedInput] at hin
    subst hin
    simp [NodeInput.get_connected_node, NodeInput.edges] at hc
    subst hc
    decide
  | k + 3 =>
    simp [Example.chain, Node.hashedInputs, Node.GetInputsToHash,
      Node.GetInputsIncludingArrays] at hin

/-! ### Strings and byte templates -/

theorem utf8EncodeChar_ascii : ∀ k, k < 128 →
    String.utf8EncodeChar (Char.ofNat k) = [UInt8.ofNat k] := by
  decide

theorem UInt8_ofNat_inj (a b : Nat) (ha : a < 256) (hb : b < 256)
    (h : UInt8.ofNat a = UInt8.ofNat b) : a = b := by
  have h2 := congrArg UInt8.toNat h
  simp [UInt8.ofNat, UInt8.toNat, Fin.ofNat] at h2
  omega

theorem toUtf8_mk_ascii (codes : List Nat) (h : ∀ k ∈ codes, k < 128) :
    toUtf8 (String.mk (codes.map Char.ofNat)) = codes.map UInt8.ofNat := by
  induction codes with
  | nil => rfl
  | cons k rest ih =>
    have hk := utf8EncodeChar_ascii k (h k (List.mem_cons_self _ _))
    have ih2 := ih (fun j hj => h j (List.mem_cons_of_mem _ hj))
    simp only [toUtf8, List.map_cons, List.flatMap_cons, hk] at ih2 ⊢
    rw [ih2]
    rfl

theorem decimalDigits_lt (n : Nat) : ∀ d ∈ decimalDigits n, d < 10 := by
  intro d hd
  unfold decimalDigits at hd
  split at hd
  · simp at hd; omega
  · exact Nat.digits_lt_base (by norm_num) (List.mem_reverse.mp hd)

theorem decimalDigits_ne_nil (n : Nat) : decimalDigits n ≠ [] := by
  unfold decimalDigits
  split
  · simp
  · next h => simpa [Nat.digits_eq_nil_iff_eq_zero] using h

theorem decimalDigits_inj (n m : Nat) (h : decimalDigits n = decimalDigits m) : n = m := by
  have key : ∀ k, Nat.ofDigits 10 (decimalDigits k).reverse = k := by
    intro k
    unfold decimalDigits
    split
    · next hk => simp [hk, Nat.ofDigits]
    · simp [Nat.ofDigits_digits]
  rw [← key n, ← key m, h]

theorem numberCodes_bounds (n : Int) : ∀ k ∈ numberCodes n, k < 128 ∧ k ≠ 47 := by
  intro k hk
  unfold numberCodes at hk
  rcases List.mem_append.mp hk with h | h
  · split at h
    · simp at h; omega
    · simp at h
  · obtain ⟨d, hd, rfl⟩ := List.mem_map.mp h
    have := decimalDigits_lt _ d hd
    omega

theorem numberCodes_inj (n m : Int) (h : numberCodes n = numberCodes m) : n = m := by
  unfold numberCodes at h
  obtain ⟨a, as, ha⟩ := List.exists_cons_of_ne_nil (decimalDigits_ne_nil n.natAbs)
  obtain ⟨b, bs, hb⟩ := List.exists_cons_of_ne_nil (decimalDigits_ne_nil m.natAbs)
  have ha10 := decimalDigits_lt n.natAbs a (by rw [ha]; exact List.mem_cons_self _ _)
  have hb10 := decimalDigits_lt m.natAbs b (by rw [hb]; exact List.mem_cons_self _ _)
  have hmap : ∀ l₁ l₂ : List Nat, l₁.map (· + 48) = l₂.map (· + 48) → l₁ = l₂ :=
    fun l₁ l₂ hl => List.map_injective_iff.mpr (fun x y hxy => by simpa using hxy) hl
  by_cases hn : n < 0 <;> by_cases hm : m < 0
  · simp only [hn, hm, if_true, List.cons_append, List.nil_append, List.cons.injEq,
      true_and] at h
    have := decimalDigits_inj _ _ (hmap _ _ h)
    omega
  · simp only [hn, hm, if_true, if_false, List.cons_append, List.nil_append, hb,
      List.map_cons, List.cons.injEq] at h
    omega
  · simp only [hn, hm, if_true, if_false, List.cons_append, List.nil_append, ha,
      List.map_cons, List.cons.injEq] at h
    omega
  · simp only [hn, hm, if_false, List.nil_append] at h
    have := decimalDigits_inj _ _ (hmap _ _ h)
    omega

theorem number_eq (n : Int) : QString.number n = String.mk ((numberCodes n).map Char.ofNat) := rfl

theorem toUtf8_number (n : Int) : toUtf8 (QString.number n) = (numberCodes n).map UInt8.ofNat :=
  toUtf8_mk_ascii _ (fun k hk => (numberCodes_bounds n k hk).1)

theorem toUtf8_append (a b : String) : toUtf8 (a ++ b) = toUtf8 a ++ toUtf8 b := by
  simp [toUtf8, String.data_append]

theorem split_at_sep {α : Type} (sep : α) :
    ∀ (a a' b b' : List α), sep ∉ a → sep ∉ a' → a ++ sep :: b = a' ++ sep :: b' →
      a = a' ∧ b = b' := by
  intro a
  induction a with
  | nil =>
    intro a' b b' _ h' h
    cases a' with
    | nil => simpa using h
    | cons x xs =>
      simp only [List.nil_append, List.cons_append, List.cons.injEq] at h
      exact absurd (h.1 ▸ List.mem_cons_self _ _) h'
  | cons y ys ih =>
    intro a' b b' hy h' h
    cases a' with
    | nil =>
      simp only [List.nil_append, List.cons_append, List.cons.injEq] at h
      exact absurd (h.1 ▸ List.mem_cons_self _ _) hy
    | cons x xs =>
      simp only [List.cons_append, List.cons.injEq] at h
      obtain ⟨e1, e2⟩ := ih xs b b' (fun hm => hy (List.mem_cons_of_mem _ hm))
        (fun hm => h' (List.mem_cons_of_mem _ hm)) h.2
      exact ⟨by rw [h.1, e1], e2⟩

theorem timeBytes_eq (t : rational) :
    timeBytes t = (numberCodes t.num).map UInt8.ofNat ++
      UInt8.ofNat 47 :: (numberCodes t.den).map UInt8.ofNat := by
  unfold timeBytes QString.arg2
  rw [toUtf8_append, toUtf8_append, toUtf8_number, toUtf8_number]
  simp
  rfl

theorem sep_not_mem (n : Int) : UInt8.ofNat 47 ∉ (numberCodes n).map UInt8.ofNat := by
  intro h
  obtain ⟨k, hk, hk2⟩ := List.mem_map.mp h
  have hb := numberCodes_bounds n k hk
  exact hb.2 (UInt8_ofNat_inj k 47 (by omega) (by omega) hk2)

theorem codes_map_inj (n m : Int)
    (h : (numberCodes n).map UInt8.ofNat = (numberCodes m).map UInt8.ofNat) : n = m := by
  apply numberCodes_inj
  have : ∀ (l₁ l₂ : List Nat), (∀ k ∈ l₁, k < 128) → (∀ k ∈ l₂, k < 128) →
      l₁.map UInt8.ofNat = l₂.map UInt8.ofNat → l₁ = l₂ := by
    intro l₁
    induction l₁ with
    | nil => intro l₂ _ _ h; cases l₂ with
      | nil => rfl
      | cons _ _ => simp at h
    | cons x xs ih =>
      intro l₂ h1 h2 h
      cases l₂ with
      | nil => simp at h
      | cons y ys =>
        simp only [List.map_cons, List.cons.injEq] at h
        have hx := h1 x (List.mem_cons_self _ _)
        have hy := h2 y (List.mem_cons_self _ _)
        rw [UInt8_ofNat_inj x y (by omega) (by omega) h.1,
          ih ys (fun k hk => h1 k (List.mem_cons_of_mem _ hk))
            (fun k hk => h2 k (List.mem_cons_of_mem _ hk)) h.2]
  exact this _ _ (fun k hk => (numberCodes_bounds n k hk).1)
    (fun k hk => (numberCodes_bounds m k hk).1) h

theorem timeBytes_inj (t₁ t₂ : rational) (h : timeBytes t₁ = timeBytes t₂) : t₁ = t₂ := by
  rw [timeBytes_eq, timeBytes_eq] at h
  obtain ⟨h1, h2⟩ := split_at_sep _ _ _ _ _ (sep_not_mem _) (sep_not_mem _) h
  have hn := codes_map_inj _ _ h1
  have hd := codes_map_inj _ _ h2
  exact Rat.ext hn (by exact_mod_cast hd)

theorem Template.fill_append (x : Bytes) (c₁ c₂ : Template) :
    Template.fill x (c₁ ++ c₂) = Template.fill x c₁ ++ Template.fill x c₂ := by
  simp [Template.fill]

theorem Template.holes_append (c₁ c₂ : Template) :
    Template.holes (c₁ ++ c₂) = Template.holes c₁ + Template.holes c₂ := by
  simp [Template.holes]

theorem Template.fill_length (x : Bytes) (c : Template) :
    (Template.fill x c).length = (Template.fill [] c).length + Template.holes c * x.length := by
  induction c with
  | nil => simp [Template.fill, Template.holes]
  | cons seg rest ih =>
    have hf : ∀ y, Template.fill y (seg :: rest) = seg.getD y ++ Template.fill y rest := by
      intro y; simp [Template.fill]
    rw [hf, hf, List.length_append, List.length_append, ih]
    cases seg with
    | none => simp [Template.holes]; ring
    | some b => simp [Template.holes]; ring

/-- Filling the holes of one template, of which there is at least one, with two byte
sequences gives equal results only if the two byte sequences are equal. -/
theorem Template.fill_inj (x y : Bytes) (c : Template) (hpos : 0 < Template.holes c)
    (h : Template.fill x c = Template.fill y c) : x = y := by
  have hlen : x.length = y.length := by
    have h1 := Template.fill_length x c
    have h2 := Template.fill_length y c
    rw [h, h2] at h1
    have : Template.holes c * y.length = Template.holes c * x.length := by omega
    exact (Nat.eq_of_mul_eq_mul_left hpos this).symm
  induction c with
  | nil => simp [Template.holes] at hpos
  | cons seg rest ih =>
    have hf : ∀ z, Template.fill z (seg :: rest) = seg.getD z ++ Template.fill z rest := by
      intro z; simp [Template.fill]
    rw [hf, hf] at h
    cases seg with
    | none => exact List.append_inj_left h hlen
    | some b =>
      simp only [Option.getD_some] at h
      exact ih (by simpa [Template.holes] using hpos) (List.append_cancel_left h)

theorem Example.media_inputs (n : NodePtr) :
    (Example.media n).GetInputsToHash = if n = 0 then [Example.footageInput] else [] := by
  match n with
  | 0 => rfl
  | k + 1 => rfl

theorem Example.media_acyclic : HashAcyclic Example.media (fun _ => 0) := by
  intro n input hin c hc
  have hk : (Example.media n).kind = NodeKind.node := by
    match n with
    | 0 => rfl
    | k + 1 => rfl
  simp only [Node.hashedInputs, hk, Example.media_inputs] at hin
  split at hin
  · simp only [List.mem_singleton] at hin
    subst hin
    simp [Example.footageInput, NodeInput.get_connected_node, NodeInput.edges] at hc
  · simp at hin

section HashLemmas

variable {QVariant : Type}

theorem NodeInput.get_connected_node_of_is_connected (input : NodeInput QVariant)
    (h : input.is_connected = true) : ∃ c, input.get_connected_node = some c := by
  unfold NodeInput.is_connected at h
  unfold NodeInput.get_connected_node
  cases hE : input.edges with
  | nil => simp [hE] at h
  | cons e rest => exact ⟨e.output_node, by simp⟩

theorem NodeInput.get_connected_node_of_not_connected (input : NodeInput QVariant)
    (h : input.is_connected = false) : input.get_connected_node = none := by
  unfold NodeInput.is_connected at h
  unfold NodeInput.get_connected_node
  cases hE : input.edges with
  | nil => simp
  | cons e rest => simp [hE] at h

theorem Node.Hash.footage_append (input : NodeInput QVariant) (t : rational) (hash : Bytes) :
    Node.Hash.footage input t hash = hash ++ Node.Hash.footage input t [] := by
  unfold Node.Hash.footage
  split
  · cases input.standard_stream with
    | none => simp
    | some stream =>
      simp only [List.nil_append]
      split_ifs <;> simp [List.append_assoc]
  · simp

theorem Node.Hash.loop_eq (ValueToBytes : DataType → QVariant → Bytes)
    (HashOf : NodePtr → Bytes → rational → Option Bytes) (F : NodePtr → rational → Bytes)
    (adjust : InputPtr → TimeRange → TimeRange) (time : rational) :
    ∀ (inputs : List (NodeInput QVariant)),
      (∀ input ∈ inputs, ∀ c, input.get_connected_node = some c →
        ∀ h t, HashOf c h t = some (h ++ F c t)) →
      ∀ hash, Node.Hash.loop ValueToBytes HashOf adjust time inputs hash =
        some (hash ++ inputs.flatMap (Node.Hash.contribution ValueToBytes F adjust time)) := by
  intro inputs
  induction inputs with
  | nil => intro _ hash; simp [Node.Hash.loop]
  | cons input rest ih =>
    intro hF hash
    have ih2 := ih (fun i hi => hF i (List.mem_cons_of_mem _ hi))
    cases hc : input.is_connected with
    | true =>
      obtain ⟨c, hcn⟩ := input.get_connected_node_of_is_connected hc
      have hcall := hF input (List.mem_cons_self _ _) c hcn
      simp only [Node.Hash.loop, hc, hcn, hcall, if_true, ih2, List.flatMap_cons,
        Node.Hash.contribution]
      rw [Node.Hash.footage_append input _ (_ ++ _)]
      simp [List.append_assoc]
    | false =>
      have hcn := input.get_connected_node_of_not_connected hc
      simp only [Node.Hash.loop, hc, hcn, ih2, List.flatMap_cons, Node.Hash.contribution,
        Bool.false_eq_true, if_false]
      rw [Node.Hash.footage_append input _ (_ ++ _)]
      simp [List.append_assoc]

theorem Hash_step (ValueToBytes : DataType → QVariant → Bytes) (g : Heap QVariant)
    (F : NodePtr → rational → Bytes) (f : Nat) (n : NodePtr)
    (hF : ∀ input ∈ (g n).hashedInputs, ∀ c, input.get_connected_node = some c →
      ∀ h t, Hash ValueToBytes g f c h t = some (h ++ F c t))
    (hash : Bytes) (time : rational) :
    Hash ValueToBytes g (f + 1) n hash time =
      some (hash ++ HashSpec ValueToBytes g F n time) := by
  unfold Hash HashSpec
  unfold Node.hashedInputs at hF
  cases hk : (g n).kind with
  | node =>
    simp only [hk] at hF
    simp only [Node.Hash]
    rw [Node.Hash.loop_eq ValueToBytes _ F _ time _ hF]
    simp [List.append_assoc]
  | clip c =>
    simp only [hk] at hF
    simp only [ClipBlock.Hash]
    cases hc : c.texture_input_.is_connected with
    | true =>
      obtain ⟨m, hm⟩ := c.texture_input_.get_connected_node_of_is_connected hc
      have hcall := hF c.texture_input_ (List.mem_singleton_self _) m hm
      simp [hm, hcall]
    | false =>
      have hm := c.texture_input_.get_connected_node_of_not_connected hc
      simp [hm]

theorem Hash_eq (ValueToBytes : DataType → QVariant → Bytes) (g : Heap QVariant)
    (rank : NodePtr → Nat) (hacyc : HashAcyclic g rank) :
    ∀ (r : Nat) (n : NodePtr), rank n = r → ∀ fuel, rank n < fuel → ∀ hash time,
      Hash ValueToBytes g fuel n hash time =
        some (hash ++ HashBytes ValueToBytes g (rank n + 1) n time) := by
  intro r
  induction r using Nat.strong_induction_on with
  | _ r ih =>
    intro n hn
    have key : ∀ f, rank n ≤ f → ∀ hash time,
        Hash ValueToBytes g (f + 1) n hash time =
          some (hash ++ HashSpec ValueToBytes g
            (fun c t => HashBytes ValueToBytes g (rank c + 1) c t) n time) := by
      intro f hf hash time
      apply Hash_step
      intro input hin c hc h t
      have hlt := hacyc n input hin c hc
      exact ih (rank c) (by omega) c rfl f (by omega) h t
    intro fuel hfuel hash time
    obtain ⟨f, rfl⟩ : ∃ f, fuel = f + 1 := ⟨fuel - 1, by omega⟩
    rw [key f (by omega) hash time]
    have hb : HashBytes ValueToBytes g (rank n + 1) n time =
        HashSpec ValueToBytes g (fun c t => HashBytes ValueToBytes g (rank c + 1) c t)
          n time := by
      show (Hash ValueToBytes g (rank n + 1) n [] time).getD [] = _
      rw [key (rank n) (le_refl _) [] time]
      simp
    rw [hb]

theorem HashBytes_eq (ValueToBytes : DataType → QVariant → Bytes) (g : Heap QVariant)
    (rank : NodePtr → Nat) (hacyc : HashAcyclic g rank) (n : NodePtr) (time : rational) :
    HashBytes ValueToBytes g (rank n + 1) n time =
      HashSpec ValueToBytes g (fun c t => HashBytes ValueToBytes g (rank c + 1) c t)
        n time := by
  have h := Hash_step ValueToBytes g
    (fun c t => HashBytes ValueToBytes g (rank c + 1) c t) (rank n) n
    (fun input hin c hc h t =>
      Hash_eq ValueToBytes g rank hacyc (rank c) c rfl (rank n)
        (hacyc n input hin c hc) h t) [] time
  show (Hash ValueToBytes g (rank n + 1) n [] time).getD [] = _
  rw [h]
  simp

theorem Node.Hash.loop_mono (ValueToBytes : DataType → QVariant → Bytes)
    (HashOf HashOf' : NodePtr → Bytes → rational → Option Bytes)
    (hmono : ∀ c h t o, HashOf c h t = some o → HashOf' c h t = some o)
    (adjust : InputPtr → TimeRange → TimeRange) (time : rational) :
    ∀ (inputs : List (NodeInput QVariant)) (hash out : Bytes),
      Node.Hash.loop ValueToBytes HashOf adjust time inputs hash = some out →
      Node.Hash.loop ValueToBytes HashOf' adjust time inputs hash = some out := by
  intro inputs
  induction inputs with
  | nil => intro hash out h; exact h
  | cons input rest ih =>
    intro hash out h
    unfold Node.Hash.loop at h ⊢
    simp only at h ⊢
    cases hc : input.is_connected with
    | false =>
      simp only [hc, Bool.false_eq_true, if_false] at h ⊢
      exact ih _ _ h
    | true =>
      simp only [hc, if_true] at h ⊢
      cases hn : input.get_connected_node with
      | none => simp [hn] at h
      | some c =>
        simp only [hn] at h ⊢
        cases hcall : HashOf c hash (adjust input.ptr (TimeRange.make time time)).in_ with
        | none => simp [hcall] at h
        | some o =>
          simp only [hcall] at h
          simp only [hmono _ _ _ _ hcall]
          exact ih _ _ h

theorem Hash_mono_succ (ValueToBytes : DataType → QVariant → Bytes) (g : Heap QVariant) :
    ∀ (fuel : Nat) (n : NodePtr) (hash : Bytes) (time : rational) (out : Bytes),
      Hash ValueToBytes g fuel n hash time = some out →
      Hash ValueToBytes g (fuel + 1) n hash time = some out := by
  intro fuel
  induction fuel with
  | zero => intro n hash time out h; simp [Hash] at h
  | succ fuel ih =>
    intro n hash time out h
    rw [Hash] at h ⊢
    cases hk : (g n).kind with
    | node =>
      simp only [hk, Node.Hash] at h ⊢
      exact Node.Hash.loop_mono ValueToBytes _ _ ih _ _ _ _ _ h
    | clip c =>
      simp only [hk, ClipBlock.Hash] at h ⊢
      cases hc : c.texture_input_.is_connected with
      | false => simpa [hc] using h
      | true =>
        simp only [hc, if_true] at h ⊢
        cases hn : c.texture_input_.get_connected_node with
        | none => simp [hn] at h
        | some m =>
          simp only [hn] at h ⊢
          exact ih _ _ _ _ h

theorem Hash_mono (ValueToBytes : DataType → QVariant → Bytes) (g : Heap QVariant)
    (n : NodePtr) (hash : Bytes) (time : rational) (out : Bytes) (fuel : Nat)
    (h : Hash ValueToBytes g fuel n hash time = some out) :
    ∀ k, Hash ValueToBytes g (fuel + k) n hash time = some out := by
  intro k
  induction k with
  | zero => exact h
  | succ k ih => exact Hash_mono_succ ValueToBytes g _ n hash time out ih

theorem Node.Hash.footage_eq_fill (input : NodeInput QVariant) (t : rational) :
    Node.Hash.footage input t [] =
      Template.fill (timeBytes t) (Node.Hash.footageTemplate input) := by
  unfold Node.Hash.footage Node.Hash.footageTemplate timeBytes
  split
  · cases input.standard_stream with
    | none => simp [Template.fill]
    | some stream =>
      simp only [List.nil_append]
      split_ifs <;> simp [Template.fill, List.append_assoc]
  · simp [Template.fill]

theorem TimeRange.make_self_in (t : rational) : (TimeRange.make t t).in_ = t := by
  simp [TimeRange.make]

theorem Template.fill_flatMap {α : Type} (x : Bytes) (l : List α) (T : α → Template) :
    Template.fill x (l.flatMap T) = l.flatMap fun a => Template.fill x (T a) := by
  induction l with
  | nil => simp [Template.fill]
  | cons a rest ih => simp [Template.fill_append, ih]

theorem Template.holes_flatMap_pos {α : Type} (l : List α) (T : α → Template) (a : α)
    (ha : a ∈ l) (hpos : 0 < Template.holes (T a)) : 0 < Template.holes (l.flatMap T) := by
  obtain ⟨s, t, rfl⟩ := List.append_of_mem ha
  simp only [List.flatMap_append, List.flatMap_cons, Template.holes_append]
  omega

theorem Template.exists_of_forall₂ {α β : Type} (x y : Bytes) (f : α → Bytes) (f' : β → Bytes)
    (R : α → β → Prop) (trigger : α → Prop) :
    ∀ (l : List α) (l' : List β), List.Forall₂ R l l' →
      (∀ a b, a ∈ l → R a b →
        ∃ c : Template, f a = Template.fill x c ∧ f' b = Template.fill y c ∧
          (trigger a → 0 < Template.holes c)) →
      ∃ c : Template, l.flatMap f = Template.fill x c ∧ l'.flatMap f' = Template.fill y c ∧
        ((∃ a ∈ l, trigger a) → 0 < Template.holes c) := by
  intro l l' hall
  induction hall with
  | nil =>
    intro _
    exact ⟨[], by simp [Template.fill], by simp [Template.fill], by simp⟩
  | @cons a b as bs hab _ ih =>
    intro hP
    obtain ⟨c₁, h1, h1', ht1⟩ := hP a b (List.mem_cons_self _ _) hab
    obtain ⟨c₂, h2, h2', ht2⟩ := ih (fun a' b' ha' hr => hP a' b' (List.mem_cons_of_mem _ ha') hr)
    refine ⟨c₁ ++ c₂, ?_, ?_, ?_⟩
    · simp [Template.fill_append, h1, h2]
    · simp [Template.fill_append, h1', h2']
    · rintro ⟨a', ha', htr⟩
      rw [Template.holes_append]
      rcases List.mem_cons.mp ha' with rfl | hmem
      · have := ht1 htr; omega
      · have := ht2 ⟨a', hmem, htr⟩; omega

theorem Node.Hash.footage_congr (i i' : NodeInput QVariant) (h : i.SameShape i') (t : rational)
    (hash : Bytes) : Node.Hash.footage i' t hash = Node.Hash.footage i t hash := by
  obtain ⟨_, h2, _, h4⟩ := h
  unfold Node.Hash.footage
  rw [h2, h4]

theorem NodeInput.SameShape.connected_node_eq {i i' : NodeInput QVariant} (h : i.SameShape i') :
    i'.get_connected_node = i.get_connected_node := by
  obtain ⟨_, _, h3, _⟩ := h
  unfold NodeInput.get_connected_node
  rw [h3]

theorem ValueChanged.hashedInputs_sameShape {ValueToBytes : DataType → QVariant → Bytes}
    {g g' : Heap QVariant} {N : NodePtr} {p : InputPtr} {x y : Bytes}
    (h : ValueChanged ValueToBytes g g' N p x y) (n : NodePtr) :
    List.Forall₂ NodeInput.SameShape (g n).hashedInputs (g' n).hashedInputs := by
  have hk := h.kind_eq n
  have hi := h.inputs n
  unfold Node.hashedInputs
  cases h1 : (g n).kind with
  | node =>
    cases h2 : (g' n).kind with
    | node => exact hi.imp (fun _ _ hr => hr.1)
    | clip c' => simp [h1, h2] at hk
  | clip c =>
    cases h2 : (g' n).kind with
    | node => simp [h1, h2] at hk
    | clip c' =>
      simp only [h1, h2] at hk
      exact List.Forall₂.cons hk.1 List.Forall₂.nil

theorem forall₂_exists_of_mem_right {α β : Type} {R : α → β → Prop} {l : List α}
    {l' : List β} (h : List.Forall₂ R l l') {b : β} (hb : b ∈ l') : ∃ a ∈ l, R a b := by
  induction h with
  | nil => simp at hb
  | @cons a b' as bs hab _ ih =>
    rcases List.mem_cons.mp hb with rfl | hmem
    · exact ⟨a, List.mem_cons_self _ _, hab⟩
    · obtain ⟨a', ha', hr⟩ := ih hmem
      exact ⟨a', List.mem_cons_of_mem _ ha', hr⟩

theorem ValueChanged.acyclic {ValueToBytes : DataType → QVariant → Bytes}
    {g g' : Heap QVariant} {N : NodePtr} {p : InputPtr} {x y : Bytes}
    (h : ValueChanged ValueToBytes g g' N p x y) {rank : NodePtr → Nat}
    (hacyc : HashAcyclic g rank) : HashAcyclic g' rank := by
  intro n i' hi' c hc
  obtain ⟨i, hi, hr⟩ := forall₂_exists_of_mem_right (h.hashedInputs_sameShape n) hi'
  rw [hr.connected_node_eq] at hc
  exact hacyc n i hi c hc

theorem InputTimeAdjustment_node_in (n : Node QVariant) (hk : n.kind = NodeKind.node)
    (ptr : InputPtr) (t : rational) :
    (InputTimeAdjustment n ptr (TimeRange.make t t)).in_ = t := by
  simp [InputTimeAdjustment, hk, Node.InputTimeAdjustment, TimeRange.make]

theorem ClipBlock.InputTimeAdjustment_texture_in (c : ClipBlock QVariant) (t : rational) :
    (c.InputTimeAdjustment c.texture_input_.ptr (TimeRange.make t t)).in_ =
      c.SequenceToMediaTime t := by
  simp [ClipBlock.InputTimeAdjustment, TimeRange.make]

theorem HashBytes_change (ValueToBytes : DataType → QVariant → Bytes)
    (g g' : Heap QVariant) (N : NodePtr) (p : InputPtr) (x y : Bytes)
    (hch : ValueChanged ValueToBytes g g' N p x y)
    (rank : NodePtr → Nat) (hacyc : HashAcyclic g rank) :
    ∀ (r : Nat) (n : NodePtr), rank n = r → ∀ t : rational, ∃ c : Template,
      HashBytes ValueToBytes g (rank n + 1) n t = Template.fill x c ∧
      HashBytes ValueToBytes g' (rank n + 1) n t = Template.fill y c ∧
      (HashReaches g N p n → 0 < Template.holes c) := by
  have hacyc' := hch.acyclic hacyc
  intro r
  induction r using Nat.strong_induction_on with
  | _ r ih =>
    intro n hn t
    rw [HashBytes_eq ValueToBytes g rank hacyc n t, HashBytes_eq ValueToBytes g' rank hacyc' n t]
    have hk := hch.kind_eq n
    have hid := hch.id_eq n
    unfold HashSpec
    cases h1 : (g n).kind with
    | node =>
      cases h2 : (g' n).kind with
      | clip c' => simp [h1, h2] at hk
      | node =>
        simp only
        obtain ⟨c0, e1, e2, e3⟩ := Template.exists_of_forall₂ x y
          (Node.Hash.contribution ValueToBytes
            (fun c t => HashBytes ValueToBytes g (rank c + 1) c t)
            (InputTimeAdjustment (g n)) t)
          (Node.Hash.contribution ValueToBytes
            (fun c t => HashBytes ValueToBytes g' (rank c + 1) c t)
            (InputTimeAdjustment (g' n)) t) _
          (fun a => (n = N ∧ a.ptr = p) ∨
            ∃ m, a.get_connected_node = some m ∧ HashReaches g N p m)
          _ _ (hch.inputs n) (by
            intro a b ha hR
            obtain ⟨hshape, hcond⟩ := hR
            have hgc := hshape.connected_node_eq
            have hfoot := fun t => Node.Hash.footage_congr a b hshape t []
            simp only [Node.Hash.contribution, InputTimeAdjustment_node_in _ h1,
              InputTimeAdjustment_node_in _ h2, hgc, hfoot]
            cases hm : a.get_connected_node with
            | some m =>
              have hlt := hacyc n a (by simpa [Node.hashedInputs, h1] using ha) m hm
              obtain ⟨cm, f1, f2, f3⟩ := ih (rank m) (by omega) m rfl t
              refine ⟨cm ++ [some (Node.Hash.footage a t [])], ?_, ?_, ?_⟩
              · simp [Template.fill_append, f1, Template.fill]
              · simp [Template.fill_append, f2, Template.fill]
              · rintro (hNp | ⟨m', hm', hr'⟩)
                · rw [if_pos hNp] at hcond
                  rw [a.get_connected_node_of_not_connected hcond.1] at hm
                  cases hm
                · cases hm'
                  rw [Template.holes_append]
                  have := f3 hr'
                  omega
            | none =>
              by_cases hNp : n = N ∧ a.ptr = p
              · rw [if_pos hNp] at hcond
                refine ⟨[none, some (Node.Hash.footage a t [])], ?_, ?_, ?_⟩
                · simp [Template.fill, (hcond.2 t).1]
                · simp [Template.fill, (hcond.2 t).2]
                · intro _; simp [Template.holes]
              · rw [if_neg hNp] at hcond
                refine ⟨[some (ValueToBytes a.data_type (a.get_value_at_time t)),
                  some (Node.Hash.footage a t [])], ?_, ?_, ?_⟩
                · simp [Template.fill]
                · simp [Template.fill, hcond t, hshape.2.1]
                · rintro (h | ⟨m', hm', _⟩)
                  · exact absurd h hNp
                  · cases hm')
        refine ⟨some (toUtf8 (g n).id) :: c0, ?_, ?_, ?_⟩
        · simp [Template.fill] at e1 ⊢
          exact e1
        · simp [Template.fill, hid] at e2 ⊢
          exact e2
        · intro hreach
          have : 0 < Template.holes c0 := by
            apply e3
            cases hreach with
            | here hkN hex =>
              obtain ⟨i, hi, hp⟩ := hex
              exact ⟨i, hi, Or.inl ⟨rfl, hp⟩⟩
            | through _ c i hi hgc hr =>
              exact ⟨i, by simpa [Node.hashedInputs, h1] using hi, Or.inr ⟨c, hgc, hr⟩⟩
          simpa [Template.holes] using this
    | clip c =>
      cases h2 : (g' n).kind with
      | node => simp [h1, h2] at hk
      | clip c' =>
        simp only [h1, h2] at hk
        obtain ⟨hshape, hs2m⟩ := hk
        simp only [ClipBlock.InputTimeAdjustment_texture_in, hshape.connected_node_eq, hs2m]
        cases hm : c.texture_input_.get_connected_node with
        | some m =>
          have hlt := hacyc n c.texture_input_ (by simp [Node.hashedInputs, h1]) m hm
          obtain ⟨cm, f1, f2, f3⟩ := ih (rank m) (by omega) m rfl (c.SequenceToMediaTime t)
          refine ⟨cm, f1, f2, ?_⟩
          intro hreach
          cases hreach with
          | here hkN _ => rw [h1] at hkN; cases hkN
          | through _ m' i hi hgc hr =>
            simp only [Node.hashedInputs, h1, List.mem_singleton] at hi
            subst hi
            rw [hm] at hgc
            cases hgc
            exact f3 hr
        | none =>
          refine ⟨[], by simp [Template.fill], by simp [Template.fill], ?_⟩
          intro hreach
          cases hreach with
          | here hkN _ => rw [h1] at hkN; cases hkN
          | through _ m' i hi hgc hr =>
            simp only [Node.hashedInputs, h1, List.mem_singleton] at hi
            subst hi
            rw [hm] at hgc
            cases hgc

theorem Example.chain_changed :
    ValueChanged Example.ValueToBytes (Example.chain 7) (Example.chain 8) 0 10 [7] [8] where
  id_eq := by
    intro n
    match n with
    | 0 => rfl
    | 1 => rfl
    | 2 => rfl
    | k + 3 => rfl
  kind_eq := by
    intro n
    match n with
    | 0 => trivial
    | 1 => exact ⟨⟨rfl, rfl, rfl, rfl⟩, rfl⟩
    | 2 => trivial
    | k + 3 => trivial
  inputs := by
    intro n
    match n with
    | 0 =>
      refine List.Forall₂.cons ⟨⟨rfl, rfl, rfl, rfl⟩, ?_⟩ List.Forall₂.nil
      rw [if_pos ⟨rfl, rfl⟩]
      exact ⟨rfl, fun _ => ⟨rfl, rfl⟩⟩
    | 1 =>
      refine List.Forall₂.cons ⟨⟨rfl, rfl, rfl, rfl⟩, ?_⟩ List.Forall₂.nil
      rw [if_neg (by decide)]
      exact fun _ => rfl
    | 2 =>
      refine List.Forall₂.cons ⟨⟨rfl, rfl, rfl, rfl⟩, ?_⟩ List.Forall₂.nil
      rw [if_neg (by decide)]
      exact fun _ => rfl
    | k + 3 => exact List.Forall₂.nil

theorem Example.chain_reaches : HashReaches (Example.chain 7) 0 10 2 :=
  HashReaches.through 2 1 (Example.connectedInput 30 "tex_in" DataType.kBuffer 1 2)
    (List.mem_singleton_self _) rfl
    (HashReaches.through 1 0 Example.clip.texture_input_ (List.mem_singleton_self _) rfl
      (HashReaches.here rfl
        ⟨Example.plainInput 10 "color_in" DataType.kColor 7, List.mem_singleton_self _, rfl⟩))

end HashLemmas

/-! ### Invalidation and reachability lemmas -/

section InvalidationLemmas

variable {QVariant : Type}

theorem Node.SendInvalidateCache.edges_eq
    (call : NodePtr → TimeRange → InputPtr → InputPtr → Option (List Delivery))
    (range : TimeRange) (source : InputPtr) (R : NodePtr → List Delivery) :
    ∀ (es : List NodeEdge),
      (∀ e ∈ es, call e.input_node range e.input source =
        some ({ node := e.input_node, range := range, from_ := e.input, source := source } ::
          R e.input_node)) →
      Node.SendInvalidateCache.edges call range source es =
        some (es.flatMap fun e =>
          { node := e.input_node, range := range, from_ := e.input, source := source } ::
            R e.input_node) := by
  intro es
  induction es with
  | nil => intro _; rfl
  | cons e rest ih =>
    intro h
    have h1 := h e (List.mem_cons_self _ _)
    have h2 := ih (fun e' he' => h e' (List.mem_cons_of_mem _ he'))
    simp [Node.SendInvalidateCache.edges, h1, h2]

theorem Node.SendInvalidateCache.params_eq
    (call : NodePtr → TimeRange → InputPtr → InputPtr → Option (List Delivery))
    (range : TimeRange) (source : InputPtr) (R : NodePtr → List Delivery) :
    ∀ (ps : List (NodeParam QVariant)),
      (∀ e ∈ (ps.flatMap fun param =>
          match param with
          | .output o => o.edges
          | .input _ => []),
        call e.input_node range e.input source =
          some ({ node := e.input_node, range := range, from_ := e.input, source := source } ::
            R e.input_node)) →
      Node.SendInvalidateCache.params call range source ps =
        some ((ps.flatMap fun param =>
          match param with
          | .output o => o.edges
          | .input _ => []).flatMap fun e =>
          { node := e.input_node, range := range, from_ := e.input, source := source } ::
            R e.input_node) := by
  intro ps
  induction ps with
  | nil => intro _; rfl
  | cons param rest ih =>
    intro h
    have h2 := ih (fun e he => h e (by
      simp only [List.flatMap_cons, List.mem_append]
      exact Or.inr he))
    cases param with
    | input i => simp [Node.SendInvalidateCache.params, h2]
    | output o =>
      have h1 := Node.SendInvalidateCache.edges_eq call range source R o.edges
        (fun e he => h e (by
          simp only [List.flatMap_cons, List.mem_append]
          exact Or.inl he))
      simp [Node.SendInvalidateCache.params, h1, h2]

theorem InvalidateCache_step (g : Heap QVariant) (range : TimeRange) (source : InputPtr)
    (R : NodePtr → List Delivery) (f : Nat) (n : NodePtr) (hk : (g n).kind = NodeKind.node)
    (hR : ∀ e ∈ (g n).outputEdges,
      InvalidateCache g f e.input_node range e.input source = some (R e.input_node))
    (from_ : InputPtr) :
    InvalidateCache g (f + 1) n range from_ source =
      some ((g n).outputEdges.flatMap fun e =>
        { node := e.input_node, range := range, from_ := e.input, source := source } ::
          R e.input_node) := by
  unfold InvalidateCache
  simp only [hk, Node.InvalidateCache, Node.SendInvalidateCache]
  apply Node.SendInvalidateCache.params_eq
  intro e he
  simp [hR e he]

theorem InvalidateCache_eq (g : Heap QVariant) (rank : NodePtr → Nat)
    (hacyc : RelayAcyclic g rank) (hdef : ∀ n, (g n).kind = NodeKind.node)
    (range : TimeRange) (source : InputPtr) :
    ∀ (r : Nat) (n : NodePtr), rank n = r → ∀ fuel, rank n < fuel → ∀ from_ : InputPtr,
      InvalidateCache g fuel n range from_ source =
        some ((g n).outputEdges.flatMap fun e =>
          { node := e.input_node, range := range, from_ := e.input, source := source } ::
            relayed g rank range source e.input_node) ∧
      relayed g rank range source n = (g n).outputEdges.flatMap fun e =>
          { node := e.input_node, range := range, from_ := e.input, source := source } ::
            relayed g rank range source e.input_node := by
  intro r
  induction r using Nat.strong_induction_on with
  | _ r ih =>
    intro n hn
    have hup : ∀ f, rank n ≤ f → ∀ e ∈ (g n).outputEdges,
        InvalidateCache g f e.input_node range e.input source =
          some (relayed g rank range source e.input_node) := by
      intro f hf e he
      have hlt := hacyc n e he
      have h1 := (ih (rank e.input_node) (by omega) e.input_node rfl f (by omega) e.input).1
      have h2 := (ih (rank e.input_node) (by omega) e.input_node rfl f (by omega) e.input).2
      rw [h1, h2]
    intro fuel hfuel from_
    obtain ⟨f, rfl⟩ : ∃ f, fuel = f + 1 := ⟨fuel - 1, by omega⟩
    refine ⟨InvalidateCache_step g range source _ f n (hdef n) (hup f (by omega)) from_, ?_⟩
    show (InvalidateCache g (rank n + 1) n range 0 source).getD [] = _
    rw [InvalidateCache_step g range source _ (rank n) n (hdef n) (hup (rank n) (le_refl _)) 0]
    rfl

theorem Node.OutputsTo.edges_true (OutputsToOf : NodePtr → Option Bool) (n : NodePtr)
    (recursively : Bool) :
    ∀ (es : List NodeEdge), Node.OutputsTo.edges OutputsToOf n recursively es = some true →
      ∃ e ∈ es, e.input_node = n ∨ (recursively = true ∧ OutputsToOf e.input_node = some true) := by
  intro es
  induction es with
  | nil => intro h; simp [Node.OutputsTo.edges] at h
  | cons e rest ih =>
    intro h
    unfold Node.OutputsTo.edges at h
    simp only at h
    split_ifs at h with hc hr
    · exact ⟨e, List.mem_cons_self _ _, Or.inl hc⟩
    · cases ho : OutputsToOf e.input_node with
      | none => simp [ho] at h
      | some b =>
        cases b with
        | true => exact ⟨e, List.mem_cons_self _ _, Or.inr ⟨hr, ho⟩⟩
        | false =>
          simp only [ho] at h
          obtain ⟨e', he', hp⟩ := ih h
          exact ⟨e', List.mem_cons_of_mem _ he', hp⟩
    · obtain ⟨e', he', hp⟩ := ih h
      exact ⟨e', List.mem_cons_of_mem _ he', hp⟩

theorem Node.OutputsTo.outputs_true (OutputsToOf : NodePtr → Option Bool) (n : NodePtr)
    (recursively : Bool) :
    ∀ (os : List NodeOutput), Node.OutputsTo.outputs OutputsToOf n recursively os = some true →
      ∃ o ∈ os, ∃ e ∈ o.edges,
        e.input_node = n ∨ (recursively = true ∧ OutputsToOf e.input_node = some true) := by
  intro os
  induction os with
  | nil => intro h; simp [Node.OutputsTo.outputs] at h
  | cons o rest ih =>
    intro h
    unfold Node.OutputsTo.outputs at h
    cases hE : Node.OutputsTo.edges OutputsToOf n recursively o.edges with
    | none => simp [hE] at h
    | some b =>
      cases b with
      | true =>
        obtain ⟨e, he, hp⟩ := Node.OutputsTo.edges_true OutputsToOf n recursively o.edges hE
        exact ⟨o, List.mem_cons_self _ _, e, he, hp⟩
      | false =>
        simp only [hE] at h
        obtain ⟨o', ho', hp⟩ := ih h
        exact ⟨o', List.mem_cons_of_mem _ ho', hp⟩

theorem Node.mem_outputEdges (n : Node QVariant) (o : NodeOutput)
    (ho : NodeParam.output o ∈ n.params_) (e : NodeEdge) (he : e ∈ o.edges) :
    e ∈ n.outputEdges := by
  unfold Node.outputEdges
  exact List.mem_flatMap.mpr ⟨NodeParam.output o, ho, he⟩

theorem Node.exists_of_mem_outputEdges (n : Node QVariant) (e : NodeEdge)
    (he : e ∈ n.outputEdges) : ∃ o, NodeParam.output o ∈ n.params_ ∧ e ∈ o.edges := by
  unfold Node.outputEdges at he
  obtain ⟨param, hp, hin⟩ := List.mem_flatMap.mp he
  cases param with
  | input i => simp at hin
  | output o => exact ⟨o, hp, hin⟩

theorem Example.diamond_kind (n : NodePtr) : (Example.diamond n).kind = NodeKind.node := by
  match n with
  | 0 => rfl
  | 1 => rfl
  | 2 => rfl
  | 3 => rfl
  | k + 4 => rfl

theorem Example.diamond_output (n : NodePtr) :
    NodeParam.output (Example.diamond n).output_ ∈ (Example.diamond n).params_ := by
  match n with
  | 0 => simp [Example.diamond]
  | 1 => simp [Example.diamond]
  | 2 => simp [Example.diamond]
  | 3 => simp [Example.diamond]
  | k + 4 => simp [Example.diamond]

theorem Example.diamond_relay_acyclic : RelayAcyclic Example.diamond (fun n => 3 - n) := by
  intro n e he
  match n with
  | 0 =>
    simp [Example.diamond, Node.outputEdges] at he
    rcases he with rfl | rfl <;> decide
  | 1 =>
    simp [Example.diamond, Node.outputEdges] at he
    subst he; decide
  | 2 =>
    simp [Example.diamond, Node.outputEdges] at he
    subst he; decide
  | 3 => simp [Example.diamond, Node.outputEdges] at he
  | k + 4 => simp [Example.diamond, Node.outputEdges] at he

theorem Node.routeEdges_eq (n : Node QVariant) : n.routeEdges = n.output_.edges := by
  simp [Node.routeEdges, Node.GetOutputs]

theorem OutputAcyclic.rank_lt {g : Heap QVariant} {rank : NodePtr → Nat}
    (h : OutputAcyclic g rank) (a : NodePtr) (e : NodeEdge) (he : e ∈ (g a).routeEdges) :
    rank e.input_node < rank a := by
  unfold Node.routeEdges at he
  obtain ⟨o, ho, heo⟩ := List.mem_flatMap.mp he
  exact h a o ho e heo

theorem IsPath.rank_target_lt {g : Heap QVariant} {rank : NodePtr → Nat} (h : OutputAcyclic g rank)
    {n a : NodePtr} {p : List NodeEdge} (hp : IsPath g n a p) : rank n < rank a := by
  induction hp with
  | last a e he hn => rw [← hn]; exact h.rank_lt a e he
  | step a e rest he _ ih => have := h.rank_lt a e he; omega

theorem IsPath.ne_nil {g : Heap QVariant} {n a : NodePtr} {p : List NodeEdge}
    (hp : IsPath g n a p) : p ≠ [] := by
  cases hp <;> simp

theorem pathsTo_sound (g : Heap QVariant) (n : NodePtr) :
    ∀ (fuel : Nat) (a : NodePtr) (p : List NodeEdge), p ∈ pathsTo g n fuel a → IsPath g n a p := by
  intro fuel
  induction fuel with
  | zero => intro a p h; simp [pathsTo] at h
  | succ fuel ih =>
    intro a p h
    unfold pathsTo at h
    obtain ⟨e, he, hp⟩ := List.mem_flatMap.mp h
    rcases List.mem_append.mp hp with h1 | h2
    · split at h1
      · next hn =>
        simp only [List.mem_singleton] at h1
        subst h1
        exact IsPath.last a e he hn
      · simp at h1
    · obtain ⟨q, hq, rfl⟩ := List.mem_map.mp h2
      exact IsPath.step a e q he (ih e.input_node q hq)

theorem pathsTo_complete (g : Heap QVariant) (rank : NodePtr → Nat) (hacyc : OutputAcyclic g rank)
    (n : NodePtr) {a : NodePtr} {p : List NodeEdge} (hp : IsPath g n a p) :
    ∀ fuel, rank a < fuel → p ∈ pathsTo g n fuel a := by
  induction hp with
  | last a e he hn =>
    intro fuel hf
    obtain ⟨f, rfl⟩ : ∃ f, fuel = f + 1 := ⟨fuel - 1, by omega⟩
    unfold pathsTo
    exact List.mem_flatMap.mpr ⟨e, he, List.mem_append.mpr (Or.inl (by simp [hn]))⟩
  | step a e rest he _ ih =>
    intro fuel hf
    obtain ⟨f, rfl⟩ : ∃ f, fuel = f + 1 := ⟨fuel - 1, by omega⟩
    have hlt := hacyc.rank_lt a e he
    unfold pathsTo
    exact List.mem_flatMap.mpr ⟨e, he, List.mem_append.mpr
      (Or.inr (List.mem_map.mpr ⟨rest, ih f (by omega), rfl⟩))⟩

theorem nodup_cons_flatMap {α : Type} (es : List α) (hes : es.Nodup)
    (F : α → List (List α)) (hF : ∀ e ∈ es, (F e).Nodup)
    (hhead : ∀ e ∈ es, ∀ p ∈ F e, ∃ q, p = e :: q) : (es.flatMap F).Nodup := by
  rw [List.nodup_flatMap]
  refine ⟨hF, ?_⟩
  have : ∀ a ∈ es, ∀ b ∈ es, a ≠ b → (Function.onFun List.Disjoint F) a b := by
    intro a ha b hb hab p hpa hpb
    obtain ⟨q, rfl⟩ := hhead a ha p hpa
    obtain ⟨q', hq'⟩ := hhead b hb _ hpb
    simp only [List.cons.injEq] at hq'
    exact hab hq'.1
  exact List.Nodup.pairwise_of_forall_ne hes this

theorem pathsTo_nodup (g : Heap QVariant) (n : NodePtr)
    (hnodup : ∀ m, (g m).routeEdges.Nodup) :
    ∀ (fuel : Nat) (a : NodePtr), (pathsTo g n fuel a).Nodup := by
  intro fuel
  induction fuel with
  | zero => intro a; simp [pathsTo]
  | succ fuel ih =>
    intro a
    unfold pathsTo
    apply nodup_cons_flatMap _ (hnodup a)
    · intro e _
      have hmap : ((pathsTo g n fuel e.input_node).map fun p => e :: p).Nodup :=
        (ih e.input_node).map (fun p q h => by simpa using h)
      split
      · rw [List.singleton_append, List.nodup_cons]
        refine ⟨?_, hmap⟩
        intro hmem
        obtain ⟨q, hq, hq2⟩ := List.mem_map.mp hmem
        simp only [List.cons.injEq, true_and] at hq2
        subst hq2
        exact (pathsTo_sound g n fuel _ _ hq).ne_nil rfl
      · simpa using hmap
    · intro e _ p hp
      rcases List.mem_append.mp hp with h1 | h2
      · split at h1
        · exact ⟨[], by simpa using h1⟩
        · simp at h1
      · obtain ⟨q, _, rfl⟩ := List.mem_map.mp h2
        exact ⟨q, rfl⟩

theorem routesTo_sound (g : Heap QVariant) (n : NodePtr) :
    ∀ (fuel : Nat) (a : NodePtr) (r : List NodeEdge), r ∈ routesTo g n fuel a →
      ∃ e, IsPath g n a (r ++ [e]) := by
  intro fuel
  induction fuel with
  | zero => intro a r h; simp [routesTo] at h
  | succ fuel ih =>
    intro a r h
    unfold routesTo at h
    rcases List.mem_append.mp h with h1 | h2
    · split at h1
      · next hany =>
        simp only [List.mem_singleton] at h1
        subst h1
        obtain ⟨e, he, hn⟩ := List.any_eq_true.mp hany
        exact ⟨e, IsPath.last a e he (by simpa using hn)⟩
      · simp at h1
    · obtain ⟨e, he, hp⟩ := List.mem_flatMap.mp h2
      obtain ⟨q, hq, rfl⟩ := List.mem_map.mp hp
      obtain ⟨e', he'⟩ := ih e.input_node q hq
      exact ⟨e', IsPath.step a e _ he he'⟩

theorem routesTo_complete (g : Heap QVariant) (rank : NodePtr → Nat)
    (hacyc : OutputAcyclic g rank) (n : NodePtr) :
    ∀ (r : List NodeEdge) (a : NodePtr) (e : NodeEdge), IsPath g n a (r ++ [e]) →
      ∀ fuel, rank a < fuel → r ∈ routesTo g n fuel a := by
  intro r
  induction r with
  | nil =>
    intro a e hp fuel hf
    obtain ⟨f, rfl⟩ : ∃ f, fuel = f + 1 := ⟨fuel - 1, by omega⟩
    unfold routesTo
    apply List.mem_append.mpr
    left
    cases hp with
    | last _ _ he hn =>
      have : ((g a).routeEdges.any fun e => decide (e.input_node = n)) = true :=
        List.any_eq_true.mpr ⟨e, he, by simpa using hn⟩
      simp [this]
    | step _ _ _ _ hrest => exact absurd rfl hrest.ne_nil
  | cons e0 r ih =>
    intro a e hp fuel hf
    obtain ⟨f, rfl⟩ : ∃ f, fuel = f + 1 := ⟨fuel - 1, by omega⟩
    unfold routesTo
    apply List.mem_append.mpr
    right
    generalize hl : (e0 :: r) ++ [e] = l at hp
    cases hp with
    | last _ e1 he hn =>
      simp only [List.cons_append, List.cons.injEq] at hl
      exact absurd hl.2 (by simp)
    | step _ e1 rest he hrest =>
      simp only [List.cons_append, List.cons.injEq] at hl
      obtain ⟨h1, h2⟩ := hl
      subst h1
      subst h2
      have hlt := hacyc.rank_lt a e0 he
      exact List.mem_flatMap.mpr ⟨e0, he, List.mem_map.mpr
        ⟨r, ih e0.input_node e hrest f (by omega), rfl⟩⟩

theorem routesTo_nodup (g : Heap QVariant) (n : NodePtr)
    (hnodup : ∀ m, (g m).routeEdges.Nodup) :
    ∀ (fuel : Nat) (a : NodePtr), (routesTo g n fuel a).Nodup := by
  intro fuel
  induction fuel with
  | zero => intro a; simp [routesTo]
  | succ fuel ih =>
    intro a
    unfold routesTo
    rw [List.nodup_append]
    refine ⟨by split <;> simp, ?_, ?_⟩
    · apply nodup_cons_flatMap _ (hnodup a)
      · intro e _
        exact (ih e.input_node).map (fun p q h => by simpa using h)
      · intro e _ p hp
        obtain ⟨q, _, rfl⟩ := List.mem_map.mp hp
        exact ⟨q, rfl⟩
    · intro p hp1 hp2
      have hnil : p = [] := by
        split at hp1
        · simpa using hp1
        · simp at hp1
      subst hnil
      obtain ⟨e, _, hp⟩ := List.mem_flatMap.mp hp2
      obtain ⟨q, _, hq⟩ := List.mem_map.mp hp
      simp at hq

theorem routesTo_self (g : Heap QVariant) (rank : NodePtr → Nat) (hacyc : OutputAcyclic g rank)
    (n : NodePtr) (fuel : Nat) : routesTo g n fuel n = [] := by
  apply List.eq_nil_iff_forall_not_mem.mpr
  intro r hr
  obtain ⟨e, he⟩ := routesTo_sound g n fuel n r hr
  have := he.rank_target_lt hacyc
  omega

theorem wrapInt32_of_lt (x : Int) (h0 : 0 ≤ x) (h1 : x < 2147483648) : wrapInt32 x = x := by
  unfold wrapInt32
  omega

theorem Node.GetRoutesTo.edges_count (GetRoutesToOf : NodePtr → Option Int) (n : NodePtr)
    (cnt : NodePtr → Nat) :
    ∀ (es : List NodeEdge) (d : Bool) (r : Nat),
      (∀ e ∈ es, e.input_node ≠ n → cnt e.input_node < 2147483648 →
        GetRoutesToOf e.input_node = some (cnt e.input_node : Int)) →
      r + sumOther n cnt es < 2147483648 →
      Node.GetRoutesTo.edges GetRoutesToOf n es (d, (r : Int)) =
        some (d || es.any (fun e => decide (e.input_node = n)),
          ((r + sumOther n cnt es : Nat) : Int)) := by
  intro es
  induction es with
  | nil => intro d r _ _; simp [Node.GetRoutesTo.edges, sumOther]
  | cons e rest ih =>
    intro d r hrec hbound
    have hrec' := fun e' (he' : e' ∈ rest) => hrec e' (List.mem_cons_of_mem _ he')
    by_cases hn : e.input_node = n
    · simp only [sumOther, hn, if_true, Nat.zero_add] at hbound ⊢
      simp only [Node.GetRoutesTo.edges, hn, if_true, ih true r hrec' hbound, List.any_cons,
        decide_True, Bool.true_or, Bool.or_true]
    · simp only [sumOther, hn, if_false] at hbound ⊢
      have hcall := hrec e (List.mem_cons_self _ _) hn (by omega)
      have hwrap : wrapInt32 ((r : Int) + (cnt e.input_node : Int)) =
          ((r + cnt e.input_node : Nat) : Int) := by
        rw [wrapInt32_of_lt _ (by omega) (by omega)]
        push_cast
        rfl
      simp only [Node.GetRoutesTo.edges, hn, if_false, hcall, hwrap]
      rw [ih d (r + cnt e.input_node) hrec' (by omega)]
      simp [hn, Nat.add_assoc]

theorem routesTo_flatMap_length (g : Heap QVariant) (rank : NodePtr → Nat)
    (hacyc : OutputAcyclic g rank) (n : NodePtr) (fuel : Nat) :
    ∀ (es : List NodeEdge),
      (es.flatMap fun e => (routesTo g n fuel e.input_node).map fun p => e :: p).length =
        sumOther n (fun m => (routesTo g n fuel m).length) es := by
  intro es
  induction es with
  | nil => rfl
  | cons e rest ih =>
    rw [List.flatMap_cons, List.length_append, ih, List.length_map]
    by_cases hn : e.input_node = n
    · simp [sumOther, hn, routesTo_self g rank hacyc n fuel]
    · simp [sumOther, hn]

theorem GetRoutesTo_eq (g : Heap QVariant) (rank : NodePtr → Nat)
    (hacyc : OutputAcyclic g rank) (n : NodePtr) :
    ∀ (fuel : Nat) (a : NodePtr), rank a < fuel →
      (routesTo g n fuel a).length < 2147483648 →
      GetRoutesTo g fuel a n = some ((routesTo g n fuel a).length : Int) := by
  intro fuel
  induction fuel with
  | zero => intro a h; omega
  | succ fuel ih =>
    intro a hf hlen
    have hlen2 : (routesTo g n (fuel + 1) a).length =
        (if (g a).routeEdges.any (fun e => decide (e.input_node = n)) then 1 else 0) +
        sumOther n (fun m => (routesTo g n fuel m).length) (g a).routeEdges := by
      conv_lhs => unfold routesTo
      rw [List.length_append, routesTo_flatMap_length g rank hacyc n fuel]
      split <;> rfl
    rw [hlen2] at hlen ⊢
    have hloop := Node.GetRoutesTo.edges_count (fun c => GetRoutesTo g fuel c n) n
      (fun m => (routesTo g n fuel m).length) (g a).routeEdges false 0
      (fun e he _ hc => ih e.input_node (by have := hacyc.rank_lt a e he; omega) hc)
      (by omega)
    rw [Node.routeEdges_eq] at hloop hlen ⊢
    unfold GetRoutesTo
    simp only [Node.GetOutputs, Node.GetRoutesTo.outputs]
    have hz : ((0 : Nat) : Int) = 0 := rfl
    rw [hz] at hloop
    rw [hloop]
    simp only [Bool.false_or, Nat.zero_add]
    split
    · next hany =>
      simp only [hany, if_true] at hlen ⊢
      rw [wrapInt32_of_lt _ (by omega) (by omega)]
      push_cast
      ring_nf
    · next hany =>
      simp only [hany, Bool.false_eq_true, if_false, Nat.zero_add] at hlen ⊢

theorem filter_length_of_le_one {α : Type} (q : α → Bool) (es : List α)
    (h : (es.filter q).length ≤ 1) : (es.filter q).length = if es.any q then 1 else 0 := by
  by_cases hany : es.any q = true
  · obtain ⟨e, he, hq⟩ := List.any_eq_true.mp hany
    have hmem : e ∈ es.filter q := List.mem_filter.mpr ⟨he, hq⟩
    have hpos : 0 < (es.filter q).length := List.length_pos_of_mem hmem
    simp only [hany, if_true]
    omega
  · have hnil : es.filter q = [] := by
      apply List.eq_nil_iff_forall_not_mem.mpr
      intro e he
      obtain ⟨h1, h2⟩ := List.mem_filter.mp he
      exact hany (List.any_eq_true.mpr ⟨e, h1, h2⟩)
    simp [hnil, hany]

theorem pathsTo_length (g : Heap QVariant) (n : NodePtr) (hpar : NoParallelInto g n) :
    ∀ (fuel : Nat) (a : NodePtr),
      (pathsTo g n fuel a).length = (routesTo g n fuel a).length := by
  intro fuel
  induction fuel with
  | zero => intro a; rfl
  | succ fuel ih =>
    intro a
    have hsplit : ∀ es : List NodeEdge,
        (es.flatMap fun e => (if e.input_node = n then [[e]] else []) ++
          (pathsTo g n fuel e.input_node).map fun p => e :: p).length =
        (es.filter fun e => decide (e.input_node = n)).length +
          (es.flatMap fun e => (routesTo g n fuel e.input_node).map fun p => e :: p).length := by
      intro es
      induction es with
      | nil => rfl
      | cons e rest ihes =>
        simp only [List.flatMap_cons, List.length_append, ihes, List.length_map, ih]
        by_cases hn : e.input_node = n
        · simp [hn]; omega
        · simp [hn]; omega
    unfold pathsTo routesTo
    rw [hsplit, List.length_append, filter_length_of_le_one _ _ (hpar a)]
    split <;> simp

theorem Example.diamond_output_acyclic : OutputAcyclic Example.diamond (fun n => 3 - n) := by
  intro a o ho e he
  simp only [Node.GetOutputs, List.mem_singleton] at ho
  subst ho
  match a with
  | 0 =>
    simp [Example.diamond] at he
    rcases he with rfl | rfl <;> decide
  | 1 =>
    simp [Example.diamond] at he
    subst he; decide
  | 2 =>
    simp [Example.diamond] at he
    subst he; decide
  | 3 => simp [Example.diamond] at he
  | k + 4 => simp [Example.diamond] at he

theorem Example.diamond_nodup (m : NodePtr) : (Example.diamond m).routeEdges.Nodup := by
  rw [Node.routeEdges_eq]
  match m with
  | 0 => decide
  | 1 => decide
  | 2 => decide
  | 3 => decide
  | k + 4 => exact List.nodup_nil

theorem Example.diamond_no_parallel : NoParallelInto Example.diamond 3 := by
  intro m
  rw [Node.routeEdges_eq]
  match m with
  | 0 => decide
  | 1 => decide
  | 2 => decide
  | 3 => decide
  | k + 4 => exact Nat.zero_le _

end InvalidationLemmas

/-! ### Time remapping (C7, C8) -/

section TimeRemapping

variable {QVariant : Type}

/-- C8 (time transparency): the default `InputTimeAdjustment` and `OutputTimeAdjustment`
of `Node` return the requested range unchanged, and so do the overrides of `ClipBlock`
for every input other than the texture input. -/
theorem C8_time_transparency (c : ClipBlock QVariant) (input : InputPtr) (r : TimeRange) :
    Node.InputTimeAdjustment input r = r ∧ Node.OutputTimeAdjustment input r = r ∧
    (input ≠ c.texture_input_.ptr →
      c.InputTimeAdjustment input r = r ∧ c.OutputTimeAdjustment input r = r) := by
  refine ⟨rfl, rfl, fun h => ?_⟩
  simp [ClipBlock.InputTimeAdjustment, ClipBlock.OutputTimeAdjustment, h,
    Block.InputTimeAdjustment, Node.InputTimeAdjustment]

/-- Witness for C8: the example clip and an input (address 21) that is not its texture
input (address 20). -/
theorem C8_time_transparency_witness :
    (21 : InputPtr) ≠ Example.clip.texture_input_.ptr ∧
    Example.clip.InputTimeAdjustment 21 (TimeRange.make 4 9) = TimeRange.make 4 9 ∧
    Example.clip.OutputTimeAdjustment 21 (TimeRange.make 4 9) = TimeRange.make 4 9 :=
  ⟨by decide,
   (C8_time_transparency Example.clip 21 (TimeRange.make 4 9)).2.2 (by decide)⟩

end TimeRemapping

/-! ### Hashing (C1, C2) -/

section HashTheorems

variable {QVariant : Type}

/-- C1 (what `Node::Hash` feeds): run on the node at `n`, with enough fuel for the calls
on the connected nodes, `Node::Hash` returns with the accumulator extended by the UTF-8
bytes of the node id followed, for each input of `GetInputsToHash()` in list order, by
the bytes of the connected node's `Hash` at the adjusted time
`InputTimeAdjustment(input, TimeRange(time, time)).in()` if the input is connected, and
by `ValueToBytes` of the input's value at that time if it is not, each followed by the
bytes of the footage exception. The bytes taken for a connected node are exactly what
any call of `Hash` on that node feeds; the footage exception adds nothing unless the
input has the footage type and holds a stream; a virtual call on a node with the
default behaviour runs `Node::Hash`. -/
theorem C1_Node_Hash_feeds (ValueToBytes : DataType → QVariant → Bytes)
    (g : Heap QVariant) (rank : NodePtr → Nat) (hacyc : HashAcyclic g rank)
    (n : NodePtr) (fuel : Nat)
    (hfuel : ∀ input ∈ (g n).GetInputsToHash, ∀ c,
      input.get_connected_node = some c → rank c < fuel)
    (hash : Bytes) (time : rational) :
    Node.Hash ValueToBytes (Hash ValueToBytes g fuel) (g n) hash time =
      some (hash ++ (toUtf8 (g n).id ++ (g n).GetInputsToHash.flatMap fun input =>
        (match input.get_connected_node with
          | some c => HashBytes ValueToBytes g (rank c + 1) c
              (InputTimeAdjustment (g n) input.ptr (TimeRange.make time time)).in_
          | none => ValueToBytes input.data_type (input.get_value_at_time
              (InputTimeAdjustment (g n) input.ptr (TimeRange.make time time)).in_)) ++
        Node.Hash.footage input
          (InputTimeAdjustment (g n) input.ptr (TimeRange.make time time)).in_ [])) ∧
    (∀ input ∈ (g n).GetInputsToHash, ∀ c, input.get_connected_node = some c →
      ∀ (acc : Bytes) (t : rational),
        Hash ValueToBytes g fuel c acc t =
          some (acc ++ HashBytes ValueToBytes g (rank c + 1) c t)) ∧
    (∀ input ∈ (g n).GetInputsToHash,
      (input.is_connected = true ↔ ∃ c, input.get_connected_node = some c)) ∧
    (∀ (input : NodeInput QVariant) (t : rational),
      ¬ (input.data_type = DataType.kFootage ∧ input.standard_stream ≠ none) →
        Node.Hash.footage input t [] = []) ∧
    ((g n).kind = NodeKind.node →
      Hash ValueToBytes g (fuel + 1) n hash time =
        Node.Hash ValueToBytes (Hash ValueToBytes g fuel) (g n) hash time) := by
  have hup : ∀ input ∈ (g n).GetInputsToHash, ∀ c, input.get_connected_node = some c →
      ∀ (acc : Bytes) (t : rational),
        Hash ValueToBytes g fuel c acc t =
          some (acc ++ HashBytes ValueToBytes g (rank c + 1) c t) :=
    fun input hin c hc acc t =>
      Hash_eq ValueToBytes g rank hacyc (rank c) c rfl fuel (hfuel input hin c hc) acc t
  refine ⟨?_, hup, ?_, ?_, ?_⟩
  · unfold Node.Hash
    rw [Node.Hash.loop_eq ValueToBytes _
      (fun c t => HashBytes ValueToBytes g (rank c + 1) c t) _ time _ hup]
    simp only [List.append_assoc]
    rfl
  · intro input _
    constructor
    · exact input.get_connected_node_of_is_connected
    · rintro ⟨c, hc⟩
      cases hb : input.is_connected with
      | true => rfl
      | false => rw [input.get_connected_node_of_not_connected hb] at hc; cases hc
  · intro input t hno
    unfold Node.Hash.footage
    split
    · next hty =>
      cases hs : input.standard_stream with
      | none => rfl
      | some stream => exact absurd ⟨hty, by simp [hs]⟩ hno
    · rfl
  · intro hk
    simp [Hash, hk]

/-- Witness for C1: the plain node at address 2 of the example chain, hashed at time 4
with fuel 2 for the calls on its connected nodes. -/
theorem C1_Node_Hash_feeds_witness :
    HashAcyclic (Example.chain 7) (fun n => n) ∧
    Node.Hash Example.ValueToBytes (Hash Example.ValueToBytes (Example.chain 7) 2)
      (Example.chain 7 2) [] 4 =
      some ([] ++ (toUtf8 (Example.chain 7 2).id ++
        (Example.chain 7 2).GetInputsToHash.flatMap fun input =>
        (match input.get_connected_node with
          | some c => HashBytes Example.ValueToBytes (Example.chain 7) (c + 1) c
              (InputTimeAdjustment (Example.chain 7 2) input.ptr (TimeRange.make 4 4)).in_
          | none => Example.ValueToBytes input.data_type (input.get_value_at_time
              (InputTimeAdjustment (Example.chain 7 2) input.ptr (TimeRange.make 4 4)).in_)) ++
        Node.Hash.footage input
          (InputTimeAdjustment (Example.chain 7 2) input.ptr (TimeRange.make 4 4)).in_ [])) :=
  have hacyc : HashAcyclic (Example.chain 7) (fun n => n) := (Example.chain_acyclic 7)
  ⟨hacyc, (C1_Node_Hash_feeds Example.ValueToBytes (Example.chain 7) (fun n => n) hacyc 2 2
    (by
      intro input hin c hc
      simp [Example.chain, Node.GetInputsToHash, Node.GetInputsIncludingArrays,
        GetInputsIncludingArraysInternal, GetInputsIncludingArraysInternal.loop,
        Example.connectedInput] at hin
      subst hin
      simp [NodeInput.get_connected_node, NodeInput.edges] at hc
      subst hc
      decide) [] 4).1⟩

/-- C2 (hash determinism): any two calls of `Hash` on the same node at the same time that
return, the graph being the same, return the same accumulated bytes, whatever the kind of
the node (plain node or clip) and however deep the recursion was allowed to go; so the
digests, a function of the accumulated bytes, are identical. On a graph that is acyclic
along the hashed inputs every call returns, the accumulator extended by the same fed
bytes. -/
theorem C2_Hash_deterministic (ValueToBytes : DataType → QVariant → Bytes)
    (g : Heap QVariant) (n : NodePtr) (time : rational) (hash : Bytes) :
    (∀ (fuel₁ fuel₂ : Nat) (out₁ out₂ : Bytes),
      Hash ValueToBytes g fuel₁ n hash time = some out₁ →
      Hash ValueToBytes g fuel₂ n hash time = some out₂ →
      out₁ = out₂ ∧ ∀ (D : Type) (digest : Bytes → D), digest out₁ = digest out₂) ∧
    (∀ rank : NodePtr → Nat, HashAcyclic g rank → ∃ fed : Bytes, ∀ fuel, rank n < fuel →
      Hash ValueToBytes g fuel n hash time = some (hash ++ fed)) := by
  constructor
  · intro fuel₁ fuel₂ out₁ out₂ h₁ h₂
    have e₁ := Hash_mono ValueToBytes g n hash time out₁ fuel₁ h₁ fuel₂
    have e₂ := Hash_mono ValueToBytes g n hash time out₂ fuel₂ h₂ fuel₁
    rw [Nat.add_comm] at e₂
    rw [e₁] at e₂
    cases e₂
    exact ⟨rfl, fun _ _ => rfl⟩
  · intro rank hacyc
    exact ⟨_, fun fuel hf => Hash_eq ValueToBytes g rank hacyc (rank n) n rfl fuel hf hash time⟩

/-- Witness for C2: the clip at address 1 of the example chain, hashed at time 4 with
fuel 2 and with fuel 5; both calls return the bytes of `solid` followed by the byte 7. -/
theorem C2_Hash_deterministic_witness :
    Hash Example.ValueToBytes (Example.chain 7) 2 1 [] 4 =
      some [115, 111, 108, 105, 100, 7] ∧
    Hash Example.ValueToBytes (Example.chain 7) 5 1 [] 4 =
      some [115, 111, 108, 105, 100, 7] ∧
    HashAcyclic (Example.chain 7) (fun n => n) ∧
    (([115, 111, 108, 105, 100, 7] : Bytes) = [115, 111, 108, 105, 100, 7] ∧
      ∀ (D : Type) (digest : Bytes → D),
        digest [115, 111, 108, 105, 100, 7] = digest [115, 111, 108, 105, 100, 7]) ∧
    ∃ fed : Bytes, ∀ fuel, 1 < fuel →
      Hash Example.ValueToBytes (Example.chain 7) fuel 1 [] 4 = some ([] ++ fed) :=
  ⟨by decide, by decide, Example.chain_acyclic 7,
   (C2_Hash_deterministic Example.ValueToBytes (Example.chain 7) 1 4 []).1 2 5 _ _
     (by decide) (by decide),
   (C2_Hash_deterministic Example.ValueToBytes (Example.chain 7) 1 4 []).2 (fun n => n)
     (Example.chain_acyclic 7)⟩

/-- C4 (footage exception, as amended). For an input of footage type whose standard value
holds a stream: (1) the footage exception of `Node::Hash` feeds the footage filename, the
modification timestamp and the stream index, then for image and video streams the color
configuration, color space and alpha setting, then for video streams, and for no other
stream, the adjusted time as `numerator/denominator` and the start time; (2) these bytes
are part of what `Node::Hash` feeds for a node that has this input; (3) the bytes of two
different times differ; (4) for a stream that is not a video stream the footage exception
feeds the same bytes at every time; (5) a node hashed with `Node::Hash` that has an input
holding a video stream feeds different bytes at two different times at which every hashed
input feeds the same bytes apart from the footage exception (the bytes of the connected
node, or of the value of an unconnected input). -/
theorem C4_footage_identity_and_time (ValueToBytes : DataType → QVariant → Bytes)
    (g : Heap QVariant) (rank : NodePtr → Nat) (hacyc : HashAcyclic g rank) (n : NodePtr)
    (input : NodeInput QVariant) (stream : Stream)
    (hin : input ∈ (g n).GetInputsToHash)
    (hty : input.data_type = DataType.kFootage)
    (hs : input.standard_stream = some stream) :
    (∀ (t : rational) (hash : Bytes),
      Node.Hash.footage input t hash =
        hash ++ (toUtf8 stream.footage_filename ++ toUtf8 stream.footage_timestamp ++
          toUtf8 (QString.number stream.index) ++
          (if stream.type = StreamType.kImage ∨ stream.type = StreamType.kVideo then
            toUtf8 stream.color_config_filename ++ toUtf8 stream.colorspace ++
              toUtf8 (QString.number (if stream.premultiplied_alpha then 1 else 0))
          else []) ++
          (if stream.type = StreamType.kVideo then
            toUtf8 (QString.arg2 (QString.number t.num) (QString.number t.den)) ++
              toUtf8 (QString.number stream.start_time)
          else []))) ∧
    (∀ (fuel : Nat) (hash : Bytes) (time : rational),
      (∀ i ∈ (g n).GetInputsToHash, ∀ c, i.get_connected_node = some c → rank c < fuel) →
      ∃ before after : Bytes,
        Node.Hash ValueToBytes (Hash ValueToBytes g fuel) (g n) hash time =
          some (hash ++ before ++
            Node.Hash.footage input
              (InputTimeAdjustment (g n) input.ptr (TimeRange.make time time)).in_ [] ++
            after)) ∧
    (∀ t₁ t₂ : rational,
      toUtf8 (QString.arg2 (QString.number t₁.num) (QString.number t₁.den)) =
        toUtf8 (QString.arg2 (QString.number t₂.num) (QString.number t₂.den)) → t₁ = t₂) ∧
    (stream.type ≠ StreamType.kVideo → ∀ (t₁ t₂ : rational) (hash : Bytes),
      Node.Hash.footage input t₁ hash = Node.Hash.footage input t₂ hash) ∧
    (stream.type = StreamType.kVideo → (g n).kind = NodeKind.node →
      ∀ t₁ t₂ : rational, t₁ ≠ t₂ →
      (∀ i ∈ (g n).GetInputsToHash,
        (match i.get_connected_node with
          | some c => HashBytes ValueToBytes g (rank c + 1) c t₁
          | none => ValueToBytes i.data_type (i.get_value_at_time t₁)) =
        (match i.get_connected_node with
          | some c => HashBytes ValueToBytes g (rank c + 1) c t₂
          | none => ValueToBytes i.data_type (i.get_value_at_time t₂))) →
        HashBytes ValueToBytes g (rank n + 1) n t₁ ≠
          HashBytes ValueToBytes g (rank n + 1) n t₂) := by
  have hfootage : ∀ (t : rational) (hash : Bytes),
      Node.Hash.footage input t hash =
        hash ++ (toUtf8 stream.footage_filename ++ toUtf8 stream.footage_timestamp ++
          toUtf8 (QString.number stream.index) ++
          (if stream.type = StreamType.kImage ∨ stream.type = StreamType.kVideo then
            toUtf8 stream.color_config_filename ++ toUtf8 stream.colorspace ++
              toUtf8 (QString.number (if stream.premultiplied_alpha then 1 else 0))
          else []) ++
          (if stream.type = StreamType.kVideo then
            toUtf8 (QString.arg2 (QString.number t.num) (QString.number t.den)) ++
              toUtf8 (QString.number stream.start_time)
          else [])) := by
    intro t hash
    rw [Node.Hash.footage_append]
    congr 1
    unfold Node.Hash.footage
    simp only [hty, hs, if_true, List.nil_append]
    split_ifs <;> simp [List.append_assoc]
  refine ⟨hfootage, ?_, ?_, ?_, ?_⟩
  · intro fuel hash time hfuel
    have hup : ∀ i ∈ (g n).GetInputsToHash, ∀ c, i.get_connected_node = some c →
        ∀ (acc : Bytes) (t : rational),
          Hash ValueToBytes g fuel c acc t =
            some (acc ++ HashBytes ValueToBytes g (rank c + 1) c t) :=
      fun i hi c hc acc t =>
        Hash_eq ValueToBytes g rank hacyc (rank c) c rfl fuel (hfuel i hi c hc) acc t
    obtain ⟨front, back, hsplit⟩ := List.append_of_mem hin
    unfold Node.Hash
    rw [Node.Hash.loop_eq ValueToBytes _
      (fun c t => HashBytes ValueToBytes g (rank c + 1) c t) _ time _ hup, hsplit]
    simp only [List.flatMap_append, List.flatMap_cons]
    refine ⟨toUtf8 (g n).id ++ front.flatMap (Node.Hash.contribution ValueToBytes
      (fun c t => HashBytes ValueToBytes g (rank c + 1) c t)
      (InputTimeAdjustment (g n)) time) ++
      (match input.get_connected_node with
        | some c => HashBytes ValueToBytes g (rank c + 1) c
            (InputTimeAdjustment (g n) input.ptr (TimeRange.make time time)).in_
        | none => ValueToBytes input.data_type (input.get_value_at_time
            (InputTimeAdjustment (g n) input.ptr (TimeRange.make time time)).in_)),
      back.flatMap (Node.Hash.contribution ValueToBytes
      (fun c t => HashBytes ValueToBytes g (rank c + 1) c t)
      (InputTimeAdjustment (g n)) time), ?_⟩
    simp only [Node.Hash.contribution, List.append_assoc]
  · intro t₁ t₂ h
    exact timeBytes_inj t₁ t₂ h
  · intro hnv t₁ t₂ hash
    rw [hfootage t₁ hash, hfootage t₂ hash]
    simp only [hnv, if_false]
  · intro hvideo hkind t₁ t₂ hne hsame hEq
    have hbytes : ∀ t,
        (∀ i ∈ (g n).GetInputsToHash,
          (match i.get_connected_node with
            | some c => HashBytes ValueToBytes g (rank c + 1) c t
            | none => ValueToBytes i.data_type (i.get_value_at_time t)) =
          (match i.get_connected_node with
            | some c => HashBytes ValueToBytes g (rank c + 1) c t₁
            | none => ValueToBytes i.data_type (i.get_value_at_time t₁))) →
        HashBytes ValueToBytes g (rank n + 1) n t =
          Template.fill (timeBytes t) (some (toUtf8 (g n).id) ::
            (g n).GetInputsToHash.flatMap fun i =>
              some (match i.get_connected_node with
                | some c => HashBytes ValueToBytes g (rank c + 1) c t₁
                | none => ValueToBytes i.data_type (i.get_value_at_time t₁)) ::
                Node.Hash.footageTemplate i) := by
      intro t ht
      rw [HashBytes_eq ValueToBytes g rank hacyc n t]
      unfold HashSpec
      simp only [hkind]
      have hcons : ∀ (b : Bytes) (c : Template),
          Template.fill (timeBytes t) (some b :: c) = b ++ Template.fill (timeBytes t) c := by
        intro b c; simp [Template.fill]
      rw [hcons, Template.fill_flatMap]
      congr 1
      apply List.flatMap_congr
      intro i hi
      simp only [Node.Hash.contribution, InputTimeAdjustment, hkind,
        Node.InputTimeAdjustment, TimeRange.make_self_in, hcons]
      rw [Node.Hash.footage_eq_fill, ht i hi]
    have hpos : 0 < Template.holes (some (toUtf8 (g n).id) ::
          (g n).GetInputsToHash.flatMap fun i =>
            some (match i.get_connected_node with
              | some c => HashBytes ValueToBytes g (rank c + 1) c t₁
              | none => ValueToBytes i.data_type (i.get_value_at_time t₁)) ::
              Node.Hash.footageTemplate i) := by
      have h1 : 0 < Template.holes ((g n).GetInputsToHash.flatMap fun i =>
            some (match i.get_connected_node with
              | some c => HashBytes ValueToBytes g (rank c + 1) c t₁
              | none => ValueToBytes i.data_type (i.get_value_at_time t₁)) ::
              Node.Hash.footageTemplate i) := by
        apply Template.holes_flatMap_pos _ _ input hin
        simp [Node.Hash.footageTemplate, hty, hs, hvideo, Template.holes]
      simpa [Template.holes] using h1
    rw [hbytes t₁ (fun _ _ => rfl), hbytes t₂ (fun i hi => (hsame i hi).symm)] at hEq
    exact hne (timeBytes_inj t₁ t₂ (Template.fill_inj _ _ _ hpos hEq))

/-- Witness for C4: the media node of the example heap, whose footage input holds a video
stream, feeds different bytes at times 1 and 2. -/
theorem C4_footage_identity_and_time_witness :
    HashAcyclic Example.media (fun _ => 0) ∧
    Example.footageInput ∈ (Example.media 0).GetInputsToHash ∧
    Example.footageInput.data_type = DataType.kFootage ∧
    Example.footageInput.standard_stream = some Example.videoStream ∧
    HashBytes Example.ValueToBytes Example.media 1 0 1 ≠
      HashBytes Example.ValueToBytes Example.media 1 0 2 :=
  have hin : Example.footageInput ∈ (Example.media 0).GetInputsToHash := by
    rw [Example.media_inputs]; simp
  ⟨Example.media_acyclic, hin, rfl, rfl,
   (C4_footage_identity_and_time Example.ValueToBytes Example.media (fun _ => 0)
      Example.media_acyclic 0 Example.footageInput Example.videoStream hin rfl rfl).2.2.2.2
      rfl rfl 1 2 (by norm_num)
      (by
        intro i hi
        rw [Example.media_inputs] at hi
        simp only [if_true, List.mem_singleton] at hi
        subst hi
        rfl)⟩

/-- The bytes that the audio example feeds: the node id, the byte of the value, the file
name, the timestamp and the stream index, at every time. -/
theorem Example.audioMedia_bytes (t : rational) :
    HashBytes Example.ValueToBytes Example.audioMedia 1 0 t =
      toUtf8 "audio" ++ [0] ++ toUtf8 "clip.mov" ++ toUtf8 "Fri Oct 30 2026" ++
        toUtf8 (QString.number 1) := by
  simp [HashBytes, Hash, Example.audioMedia, Node.Hash, Node.Hash.loop, Node.GetInputsToHash,
    Node.GetInputsIncludingArrays, GetInputsIncludingArraysInternal,
    GetInputsIncludingArraysInternal.loop, NodeInput.is_connected, NodeInput.edges,
    NodeInput.data_type, NodeInput.get_value_at_time, NodeInput.standard_stream,
    Node.Hash.footage, Example.audioStream, Example.ValueToBytes]

/-- The bytes that the example with a keyframed text feeds at the time `t`. -/
theorem Example.titledMedia_bytes (t : rational) :
    HashBytes Example.textToBytes Example.titledMedia 1 0 t =
      toUtf8 "media" ++ toUtf8 "clip.mov" ++ toUtf8 "Fri Oct 30 2026" ++
        toUtf8 (QString.number 0) ++ toUtf8 "config.ocio" ++ toUtf8 "srgb" ++
        toUtf8 (QString.number 0) ++ timeBytes t ++ toUtf8 (QString.number 0) ++
        toUtf8 (if t = 1 then "0" else "") := by
  have hempty : toUtf8 "" = [] := rfl
  simp [HashBytes, Hash, Example.titledMedia, Node.Hash, Node.Hash.loop, Node.GetInputsToHash,
    Node.GetInputsIncludingArrays, GetInputsIncludingArraysInternal,
    GetInputsIncludingArraysInternal.loop, NodeInput.is_connected, NodeInput.edges,
    NodeInput.data_type, NodeInput.get_value_at_time, NodeInput.standard_stream,
    Node.Hash.footage, Example.videoStream, Example.textToBytes, timeBytes, NodeInput.ptr,
    InputTimeAdjustment, Node.InputTimeAdjustment, TimeRange.make, hempty]

/-- Counterexample to C4 as stated. A media node whose footage input holds an audio stream,
a time-bearing stream, feeds the same bytes at the times 1 and 2: the time is fed for
video streams only. And a node whose footage input holds a video stream, followed by a
text input whose value is `0` at time 1 and empty otherwise, feeds the same bytes at the
times 1 and 1/10: `1/1`, the start time `0` and the text `0` at time 1, `1/10`, the start
time `0` and no text at time 1/10. -/
theorem C4_counterexample :
    (Example.audioMedia 0).GetInputsToHash =
      [NodeInput.mk 40 "footage_in" DataType.kFootage (fun _ => 0)
        (some Example.audioStream) [] []] ∧
    Example.audioStream.type = StreamType.kAudio ∧
    HashBytes Example.ValueToBytes Example.audioMedia 1 0 1 =
      HashBytes Example.ValueToBytes Example.audioMedia 1 0 2 ∧
    Example.videoStream.type = StreamType.kVideo ∧
    (1 : rational) ≠ 1 / 10 ∧
    HashBytes Example.textToBytes Example.titledMedia 1 0 1 =
      HashBytes Example.textToBytes Example.titledMedia 1 0 (1 / 10) := by
  refine ⟨rfl, rfl, ?_, rfl, by norm_num, ?_⟩
  · rw [Example.audioMedia_bytes, Example.audioMedia_bytes]
  · rw [Example.titledMedia_bytes, Example.titledMedia_bytes]
    have h0 : toUtf8 "0" = [48] := by decide
    have hempty : toUtf8 "" = [] := rfl
    have hne : ¬ ((1 : rational) / 10 = 1) := by norm_num
    have hnum : ((1 : rational) / 10).num = 1 := by norm_num
    have hden : ((1 : rational) / 10).den = 10 := by norm_num
    have hd1 : decimalDigits 1 = [1] := by norm_num [decimalDigits]
    have hd10 : decimalDigits 10 = [1, 0] := by norm_num [decimalDigits]
    have hd0 : decimalDigits 0 = [0] := by norm_num [decimalDigits]
    simp only [if_true, hne, if_false, h0, hempty, timeBytes_eq, toUtf8_number, hnum, hden,
      List.append_assoc]
    simp [numberCodes, hd1, hd10, hd0]

/-- C3 (hash sensitivity, as amended). Let the heap `g'` be `g` after the value of the
unconnected input `p` of the node `N` was changed, the serialized value being `x` before
and `y ≠ x` after, at every time. Then for every node `M` whose hashing reads that input
(`N` itself when it hashes with `Node::Hash`, and every node that reaches `N` through
connected inputs that are hashed), at every time, the calls of `Hash` on `M` before and
after the change both return and feed different byte sequences. A clip feeds nothing
at all when its texture input is unconnected, whatever the values of its inputs. -/
theorem C3_hash_sensitivity (ValueToBytes : DataType → QVariant → Bytes)
    (g g' : Heap QVariant) (N : NodePtr) (p : InputPtr) (x y : Bytes)
    (hch : ValueChanged ValueToBytes g g' N p x y) (hxy : x ≠ y)
    (rank : NodePtr → Nat) (hacyc : HashAcyclic g rank)
    (M : NodePtr) (hreach : HashReaches g N p M) (fuel fuel' : Nat)
    (hf : rank M < fuel) (hf' : rank M < fuel') (hash : Bytes) (time : rational) :
    (∃ fed fed' : Bytes,
      Hash ValueToBytes g fuel M hash time = some (hash ++ fed) ∧
      Hash ValueToBytes g' fuel' M hash time = some (hash ++ fed') ∧ fed ≠ fed') ∧
    (∀ (n : NodePtr) (c : ClipBlock QVariant), (g n).kind = NodeKind.clip c →
      c.texture_input_.is_connected = false →
      ∀ (k : Nat) (acc : Bytes) (t : rational),
        Hash ValueToBytes g (k + 1) n acc t = some acc) := by
  constructor
  · refine ⟨_, _, Hash_eq ValueToBytes g rank hacyc (rank M) M rfl fuel hf hash time,
      Hash_eq ValueToBytes g' rank (hch.acyclic hacyc) (rank M) M rfl fuel' hf' hash time, ?_⟩
    obtain ⟨c, e1, e2, e3⟩ :=
      HashBytes_change ValueToBytes g g' N p x y hch rank hacyc (rank M) M rfl time
    intro hEq
    rw [e1, e2] at hEq
    exact hxy (Template.fill_inj x y c (e3 hreach) hEq)
  · intro n c hk hnc k acc t
    simp [Hash, hk, ClipBlock.Hash, hnc]

/-- Witness for C3: in the example chain the value of the color input (address 10) of the
generator (node 0) changes from 7 to 8; the plain node 2, which reaches the generator
through the texture input of the clip, feeds different bytes. -/
theorem C3_hash_sensitivity_witness :
    ValueChanged Example.ValueToBytes (Example.chain 7) (Example.chain 8) 0 10 [7] [8] ∧
    HashAcyclic (Example.chain 7) (fun n => n) ∧
    HashReaches (Example.chain 7) 0 10 2 ∧
    ∃ fed fed' : Bytes,
      Hash Example.ValueToBytes (Example.chain 7) 3 2 [] 4 = some ([] ++ fed) ∧
      Hash Example.ValueToBytes (Example.chain 8) 3 2 [] 4 = some ([] ++ fed') ∧ fed ≠ fed' :=
  ⟨Example.chain_changed, Example.chain_acyclic 7, Example.chain_reaches,
   (C3_hash_sensitivity Example.ValueToBytes (Example.chain 7) (Example.chain 8) 0 10 [7] [8]
      Example.chain_changed (by decide) (fun n => n) (Example.chain_acyclic 7) 2
      Example.chain_reaches 3 3 (by decide) (by decide) [] 4).1⟩

/-- Counterexample to C3 as stated: node 0 is a clip whose unconnected texture input holds
the value 1 in one heap and 2 in the other, nothing else differs and the two values have
different serializations; yet `Hash` on the clip feeds the same bytes (none) in both. -/
theorem C3_counterexample :
    (Example.loneClip 1 0).GetInputsToHash =
      [Example.plainInput 20 "buffer_in" DataType.kBuffer 1] ∧
    (Example.loneClip 2 0).GetInputsToHash =
      [Example.plainInput 20 "buffer_in" DataType.kBuffer 2] ∧
    (Example.plainInput 20 "buffer_in" DataType.kBuffer 1).is_connected = false ∧
    Example.ValueToBytes DataType.kBuffer 1 ≠ Example.ValueToBytes DataType.kBuffer 2 ∧
    Hash Example.ValueToBytes (Example.loneClip 1) 1 0 [] 0 = some [] ∧
    Hash Example.ValueToBytes (Example.loneClip 2) 1 0 [] 0 = some [] := by
  refine ⟨rfl, rfl, rfl, by decide, rfl, rfl⟩

end HashTheorems

/-! ### Cache invalidation (C5, C6) -/

section InvalidationTheorems

variable {QVariant : Type}

/-- C5 (invalidation propagation). On a graph that is acyclic along the edges of the
outputs and whose nodes all keep the default `Node::InvalidateCache`, a call
`InvalidateCache(range, from, source)` on a node `N` returns, and the calls made before it
returns are, for every edge of every output of `N` in order, one call on the node of the
connected input, with the same range, with `from` the connected input and with the same
source, followed by the calls that this call makes in turn. So every node `M` with
`N.OutputsTo(M, true)` receives a call, and every call made carries the range and the
source unchanged and has as `from` an input connected to an output. -/
theorem C5_invalidation_propagation (g : Heap QVariant) (rank : NodePtr → Nat)
    (hacyc : RelayAcyclic g rank) (hdef : ∀ n, (g n).kind = NodeKind.node)
    (hout : ∀ n, NodeParam.output (g n).output_ ∈ (g n).params_)
    (range : TimeRange) (source : InputPtr) :
    ∃ made : NodePtr → List Delivery,
      (∀ (N : NodePtr) (from_ : InputPtr) (fuel : Nat), rank N < fuel →
        InvalidateCache g fuel N range from_ source = some (made N)) ∧
      (∀ N : NodePtr, made N = (g N).outputEdges.flatMap fun e =>
        { node := e.input_node, range := range, from_ := e.input, source := source } ::
          made e.input_node) ∧
      (∀ (N M : NodePtr) (fuel : Nat), OutputsTo g fuel N M true = some true →
        ∃ d ∈ made N, d.node = M) ∧
      (∀ (N : NodePtr), ∀ d ∈ made N, d.range = range ∧ d.source = source ∧
        ∃ m, ∃ e ∈ (g m).outputEdges, e.input_node = d.node ∧ e.input = d.from_) := by
  have hmade := fun N => (InvalidateCache_eq g rank hacyc hdef range source (rank N) N rfl
    (rank N + 1) (by omega) 0).2
  refine ⟨relayed g rank range source, ?_, hmade, ?_, ?_⟩
  · intro N from_ fuel hfuel
    rw [(InvalidateCache_eq g rank hacyc hdef range source (rank N) N rfl fuel hfuel from_).1]
    rw [← hmade N]
  · intro N M fuel
    induction fuel generalizing N with
    | zero => intro h; simp [OutputsTo] at h
    | succ fuel ih =>
      intro h
      unfold OutputsTo at h
      obtain ⟨o, ho, e, he, hp⟩ := Node.OutputsTo.outputs_true _ M true _ h
      simp only [Node.GetOutputs, List.mem_singleton] at ho
      subst ho
      have hmem := (g N).mem_outputEdges _ (hout N) e he
      rw [hmade N]
      rcases hp with hp | ⟨_, hp⟩
      · exact ⟨{ node := e.input_node, range := range, from_ := e.input, source := source },
          List.mem_flatMap.mpr ⟨e, hmem, List.mem_cons_self _ _⟩, hp⟩
      · obtain ⟨d, hd, hdn⟩ := ih e.input_node hp
        exact ⟨d, List.mem_flatMap.mpr ⟨e, hmem, List.mem_cons_of_mem _ hd⟩, hdn⟩
  · have key : ∀ (r : Nat) (N : NodePtr), rank N = r →
        ∀ d ∈ relayed g rank range source N, d.range = range ∧ d.source = source ∧
          ∃ m, ∃ e ∈ (g m).outputEdges, e.input_node = d.node ∧ e.input = d.from_ := by
      intro r
      induction r using Nat.strong_induction_on with
      | _ r ih =>
        intro N hN d hd
        rw [hmade N] at hd
        obtain ⟨e, he, hde⟩ := List.mem_flatMap.mp hd
        rcases List.mem_cons.mp hde with rfl | hrest
        · exact ⟨rfl, rfl, N, e, he, rfl, rfl⟩
        · exact ih (rank e.input_node) (by have := hacyc N e he; omega) e.input_node rfl d
            hrest
    exact fun N => key (rank N) N rfl

/-- Witness for C5: the example diamond, a call on the node `A` (0); the node `D` (3),
downstream of `A`, receives a call. -/
theorem C5_invalidation_propagation_witness :
    RelayAcyclic Example.diamond (fun n => 3 - n) ∧
    (∀ n, (Example.diamond n).kind = NodeKind.node) ∧
    (∀ n, NodeParam.output (Example.diamond n).output_ ∈ (Example.diamond n).params_) ∧
    ∃ made : NodePtr → List Delivery,
      (∀ (N : NodePtr) (from_ : InputPtr) (fuel : Nat), 3 - N < fuel →
        InvalidateCache Example.diamond fuel N (TimeRange.make 1 2) from_ 10 = some (made N)) ∧
      (∀ N : NodePtr, made N = (Example.diamond N).outputEdges.flatMap fun e =>
        { node := e.input_node, range := TimeRange.make 1 2, from_ := e.input, source := 10 } ::
          made e.input_node) ∧
      (∀ (N M : NodePtr) (fuel : Nat), OutputsTo Example.diamond fuel N M true = some true →
        ∃ d ∈ made N, d.node = M) ∧
      (∀ (N : NodePtr), ∀ d ∈ made N, d.range = TimeRange.make 1 2 ∧ d.source = 10 ∧
        ∃ m, ∃ e ∈ (Example.diamond m).outputEdges, e.input_node = d.node ∧ e.input = d.from_) :=
  ⟨Example.diamond_relay_acyclic, Example.diamond_kind, Example.diamond_output,
   C5_invalidation_propagation Example.diamond (fun n => 3 - n)
     Example.diamond_relay_acyclic Example.diamond_kind Example.diamond_output
     (TimeRange.make 1 2) 10⟩

/-- C6 (`ClipBlock::InvalidateCache`). When `from` is the texture input of the clip, the
call handed to `Block::InvalidateCache` carries the range
`TimeRange(MediaToSequenceTime(range.in()), MediaToSequenceTime(range.out()))`; for every
other `from` it carries the range unchanged; `from` and `source` are handed on unchanged
in both cases. A virtual call of `InvalidateCache` on a clip runs this override. -/
theorem C6_clip_invalidate_range (c : ClipBlock QVariant) (range : TimeRange)
    (from_ source : InputPtr) :
    (∀ (α : Type) (BlockInvalidateCache : TimeRange → InputPtr → InputPtr → α),
      (from_ = c.texture_input_.ptr →
        c.InvalidateCache BlockInvalidateCache range from_ source =
          BlockInvalidateCache
            (TimeRange.make (c.MediaToSequenceTime range.in_) (c.MediaToSequenceTime range.out_))
            from_ source) ∧
      (from_ ≠ c.texture_input_.ptr →
        c.InvalidateCache BlockInvalidateCache range from_ source =
          BlockInvalidateCache range from_ source)) ∧
    (∀ (g : Heap QVariant) (n : NodePtr) (fuel : Nat), (g n).kind = NodeKind.clip c →
      InvalidateCache g (fuel + 1) n range from_ source =
        c.InvalidateCache
          (Block.InvalidateCache
            (fun m r f s => (InvalidateCache g fuel m r f s).map fun made =>
              { node := m, range := r, from_ := f, source := s : Delivery } :: made) (g n))
          range from_ source) := by
  refine ⟨fun α base => ⟨fun h => ?_, fun h => ?_⟩, fun g n fuel hk => ?_⟩
  · simp [ClipBlock.InvalidateCache, h]
  · simp [ClipBlock.InvalidateCache, h]
  · simp [InvalidateCache, hk]

/-- Witness for C6: the example clip (start 2, media start 5, speed 3) receives the media
range from 5 to 8 from its texture input (address 20) and hands on the sequence range from
2 to 3; from another input (address 21) the range is handed on unchanged. -/
theorem C6_clip_invalidate_range_witness :
    Example.clip.InvalidateCache (fun r f s => (r, f, s)) (TimeRange.make 5 8) 20 7 =
      (TimeRange.make 2 3, 20, 7) ∧
    Example.clip.InvalidateCache (fun r f s => (r, f, s)) (TimeRange.make 5 8) 21 7 =
      (TimeRange.make 5 8, 21, 7) :=
  ⟨by
    rw [((C6_clip_invalidate_range Example.clip (TimeRange.make 5 8) 20 7).1 _
      (fun r f s => (r, f, s))).1 rfl]
    simp only [Example.clip, TimeRange.make]
    norm_num,
   ((C6_clip_invalidate_range Example.clip (TimeRange.make 5 8) 21 7).1 _
      (fun r f s => (r, f, s))).2 (by decide)⟩

end InvalidationTheorems

/-! ### Route counting (C9, C10) -/

section RouteTheorems

variable {QVariant : Type}

/-- C9 (route count, as amended). On a graph that is acyclic along the output edges (the
edges of one output being distinct), a call `a->GetRoutesTo(n)` with enough fuel returns
the number of distinct directed paths from the output of `a` to `n`, paths that differ
only in their last edge into `n` being counted once: it is the number of the edge
sequences `r` for which `r` followed by one more edge is a directed path from `a` to
`n`. When no node has two edges of its output directly into `n`, this is the number of
distinct directed paths from `a` to `n`. Both hold as long as the number is below
`2^31`, the result being a C++ `int`. -/
theorem C9_GetRoutesTo_counts_paths (g : Heap QVariant) (rank : NodePtr → Nat)
    (hacyc : OutputAcyclic g rank) (hnodup : ∀ m, (g m).routeEdges.Nodup)
    (a n : NodePtr) (fuel : Nat) (hfuel : rank a < fuel) :
    (∃ routes : List (List NodeEdge), routes.Nodup ∧
      (∀ r, r ∈ routes ↔ ∃ e, IsPath g n a (r ++ [e])) ∧
      (routes.length < 2147483648 → GetRoutesTo g fuel a n = some (routes.length : Int))) ∧
    (NoParallelInto g n →
      ∃ paths : List (List NodeEdge), paths.Nodup ∧
        (∀ p, p ∈ paths ↔ IsPath g n a p) ∧
        (paths.length < 2147483648 → GetRoutesTo g fuel a n = some (paths.length : Int))) := by
  constructor
  · exact ⟨routesTo g n fuel a, routesTo_nodup g n hnodup fuel a,
      fun r => ⟨routesTo_sound g n fuel a r,
        fun ⟨e, he⟩ => routesTo_complete g rank hacyc n r a e he fuel hfuel⟩,
      GetRoutesTo_eq g rank hacyc n fuel a hfuel⟩
  · intro hpar
    refine ⟨pathsTo g n fuel a, pathsTo_nodup g n hnodup fuel a,
      fun p => ⟨pathsTo_sound g n fuel a p,
        fun hp => pathsTo_complete g rank hacyc n hp fuel hfuel⟩, ?_⟩
    rw [pathsTo_length g n hpar fuel a]
    exact GetRoutesTo_eq g rank hacyc n fuel a hfuel

/-- Witness for C9: the example diamond, routes from `A` (0) to `D` (3). -/
theorem C9_GetRoutesTo_counts_paths_witness :
    OutputAcyclic Example.diamond (fun n => 3 - n) ∧
    (∀ m, (Example.diamond m).routeEdges.Nodup) ∧
    NoParallelInto Example.diamond 3 ∧
    ∃ paths : List (List NodeEdge), paths.Nodup ∧
      (∀ p, p ∈ paths ↔ IsPath Example.diamond 3 0 p) ∧
      (paths.length < 2147483648 →
        GetRoutesTo Example.diamond 4 0 3 = some (paths.length : Int)) :=
  ⟨Example.diamond_output_acyclic, Example.diamond_nodup, Example.diamond_no_parallel,
   (C9_GetRoutesTo_counts_paths Example.diamond (fun n => 3 - n)
      Example.diamond_output_acyclic Example.diamond_nodup 0 3 4 (by decide)).2
      Example.diamond_no_parallel⟩

/-- Counterexample to C9 as stated: the output of node 0 feeds two inputs of node 1, so
there are two distinct directed paths (each of one edge) from node 0 to node 1 in this
acyclic graph, but `GetRoutesTo` returns 1. -/
theorem C9_counterexample :
    OutputAcyclic Example.parallel (fun n => 1 - n) ∧
    IsPath Example.parallel 1 0 [⟨0, 11, 1⟩] ∧
    IsPath Example.parallel 1 0 [⟨0, 12, 1⟩] ∧
    ([⟨0, 11, 1⟩] : List NodeEdge) ≠ [⟨0, 12, 1⟩] ∧
    GetRoutesTo Example.parallel 2 0 1 = some 1 := by
  refine ⟨?_, ?_, ?_, by decide, by decide⟩
  · intro a o ho e he
    simp only [Node.GetOutputs, List.mem_singleton] at ho
    subst ho
    match a with
    | 0 =>
      simp [Example.parallel] at he
      rcases he with rfl | rfl <;> decide
    | 1 => simp [Example.parallel] at he
    | k + 2 => simp [Example.parallel] at he
  · exact IsPath.last 0 _ (by simp [Node.routeEdges_eq, Example.parallel]) rfl
  · exact IsPath.last 0 _ (by simp [Node.routeEdges_eq, Example.parallel]) rfl

/-- C10 (diamond): when the output of `A` has exactly two edges, one into `B` and one into
`C`, and the outputs of `B` and of `C` have exactly one edge each, into `D`, a node other
than `B` and `C`, then `A.GetRoutesTo(D)` returns 2. -/
theorem C10_diamond_routes (g : Heap QVariant) (A B C D : NodePtr)
    (hA : (g A).output_.edges.map NodeEdge.input_node = [B, C] ∨
      (g A).output_.edges.map NodeEdge.input_node = [C, B])
    (hB : (g B).output_.edges.map NodeEdge.input_node = [D])
    (hC : (g C).output_.edges.map NodeEdge.input_node = [D])
    (hBD : B ≠ D) (hCD : C ≠ D) (fuel : Nat) (hfuel : 2 ≤ fuel) :
    GetRoutesTo g fuel A D = some 2 := by
  obtain ⟨f, rfl⟩ : ∃ f, fuel = f + 2 := ⟨fuel - 2, by omega⟩
  have hone : ∀ X : NodePtr, (g X).output_.edges.map NodeEdge.input_node = [D] →
      GetRoutesTo g (f + 1) X D = some 1 := by
    intro X hX
    obtain ⟨e, he, hD⟩ : ∃ e, (g X).output_.edges = [e] ∧ e.input_node = D := by
      cases hE : (g X).output_.edges with
      | nil => simp [hE] at hX
      | cons e rest =>
        cases rest with
        | nil => exact ⟨e, rfl, by simpa [hE] using hX⟩
        | cons _ _ => simp [hE] at hX
    simp only [GetRoutesTo, Node.GetOutputs, Node.GetRoutesTo.outputs, he,
      Node.GetRoutesTo.edges, hD, if_true]
    decide
  have htwo : ∀ X Y : NodePtr, X ≠ D → Y ≠ D →
      GetRoutesTo g (f + 1) X D = some 1 → GetRoutesTo g (f + 1) Y D = some 1 →
      (g A).output_.edges.map NodeEdge.input_node = [X, Y] →
      GetRoutesTo g (f + 2) A D = some 2 := by
    intro X Y hX hY hgX hgY hXY
    obtain ⟨e₁, e₂, he, h₁, h₂⟩ : ∃ e₁ e₂, (g A).output_.edges = [e₁, e₂] ∧
        e₁.input_node = X ∧ e₂.input_node = Y := by
      cases hE : (g A).output_.edges with
      | nil => simp [hE] at hXY
      | cons e₁ rest =>
        cases rest with
        | nil => simp [hE] at hXY
        | cons e₂ rest2 =>
          cases rest2 with
          | nil =>
            simp only [hE, List.map_cons, List.map_nil, List.cons.injEq, and_true] at hXY
            exact ⟨e₁, e₂, rfl, hXY.1, hXY.2⟩
          | cons _ _ => simp [hE] at hXY
    rw [GetRoutesTo]
    simp only [Node.GetOutputs, Node.GetRoutesTo.outputs, he, Node.GetRoutesTo.edges, h₁, h₂,
      hX, hY, if_false, hgX, hgY]
    decide
  rcases hA with hA | hA
  · exact htwo B C hBD hCD (hone B hB) (hone C hC) hA
  · exact htwo C B hCD hBD (hone C hC) (hone B hB) hA

/-- Witness for C10: in the example diamond, `A` (0) has two routes to `D` (3). -/
theorem C10_diamond_routes_witness : GetRoutesTo Example.diamond 4 0 3 = some 2 :=
  C10_diamond_routes Example.diamond 0 1 2 3 (Or.inl rfl) rfl rfl (by decide) (by decide) 4
    (by decide)

end RouteTheorems

/-! ### Reachability (C11) -/

section ReachabilityTheorems

variable {QVariant : Type}

theorem Node.OutputsTo.edges_closed (OutputsToOf : NodePtr → Option Bool) (n : NodePtr)
    (recursively : Bool) (B : NodePtr → Bool) :
    ∀ (es : List NodeEdge),
      (∀ e ∈ es, e.input_node ≠ n → recursively = true →
        OutputsToOf e.input_node = some (B e.input_node)) →
      Node.OutputsTo.edges OutputsToOf n recursively es =
        some (es.any fun e => decide (e.input_node = n) || (recursively && B e.input_node)) := by
  intro es
  induction es with
  | nil => intro _; rfl
  | cons e rest ih =>
    intro h
    have ih2 := ih (fun e' he' => h e' (List.mem_cons_of_mem _ he'))
    unfold Node.OutputsTo.edges
    simp only
    split_ifs with hc hr
    · simp [hc]
    · rw [h e (List.mem_cons_self _ _) hc hr]
      cases hB : B e.input_node with
      | true => simp [hB, hr]
      | false => simp [ih2, hB, hc]
    · rw [ih2]
      simp [hc, hr]

theorem Node.OutputsTo.outputs_single (OutputsToOf : NodePtr → Option Bool) (n : NodePtr)
    (recursively : Bool) (o : NodeOutput) :
    Node.OutputsTo.outputs OutputsToOf n recursively [o] =
      Node.OutputsTo.edges OutputsToOf n recursively o.edges := by
  unfold Node.OutputsTo.outputs
  cases h : Node.OutputsTo.edges OutputsToOf n recursively o.edges with
  | none => rfl
  | some b => cases b <;> rfl

theorem OutputsTo_recursive_eq (g : Heap QVariant) (rank : NodePtr → Nat)
    (hacyc : OutputAcyclic g rank) (n : NodePtr) :
    ∀ (r : Nat) (a : NodePtr), rank a = r →
      (∀ fuel, rank a < fuel → OutputsTo g fuel a n true = some (reaches g rank n a)) ∧
      reaches g rank n a = (g a).routeEdges.any fun e =>
        decide (e.input_node = n) || reaches g rank n e.input_node := by
  intro r
  induction r using Nat.strong_induction_on with
  | _ r ih =>
    intro a ha
    have key : ∀ f, rank a ≤ f → OutputsTo g (f + 1) a n true =
        some ((g a).routeEdges.any fun e =>
          decide (e.input_node = n) || reaches g rank n e.input_node) := by
      intro f hf
      rw [OutputsTo]
      simp only [Node.GetOutputs, Node.OutputsTo.outputs_single]
      rw [Node.OutputsTo.edges_closed _ n true (reaches g rank n)]
      · simp [Node.routeEdges_eq]
      · intro e he _ _
        have hlt := hacyc.rank_lt a e (by rw [Node.routeEdges_eq]; exact he)
        exact (ih (rank e.input_node) (by omega) e.input_node rfl).1 f (by omega)
    have hb : reaches g rank n a = (g a).routeEdges.any fun e =>
        decide (e.input_node = n) || reaches g rank n e.input_node := by
      show (OutputsTo g (rank a + 1) a n true).getD false = _
      rw [key (rank a) (le_refl _)]
      rfl
    refine ⟨?_, hb⟩
    intro fuel hfuel
    obtain ⟨f, rfl⟩ : ∃ f, fuel = f + 1 := ⟨fuel - 1, by omega⟩
    rw [key f (by omega), hb]

theorem reaches_iff_path (g : Heap QVariant) (rank : NodePtr → Nat)
    (hacyc : OutputAcyclic g rank) (n : NodePtr) :
    ∀ (a : NodePtr), reaches g rank n a = true ↔ ∃ p, IsPath g n a p := by
  intro a
  constructor
  · have key : ∀ (r : Nat) (a : NodePtr), rank a = r → reaches g rank n a = true →
        ∃ p, IsPath g n a p := by
      intro r
      induction r using Nat.strong_induction_on with
      | _ r ih =>
        intro a ha h
        rw [(OutputsTo_recursive_eq g rank hacyc n (rank a) a rfl).2] at h
        obtain ⟨e, he, hp⟩ := List.any_eq_true.mp h
        simp only [Bool.or_eq_true, decide_eq_true_eq] at hp
        rcases hp with hp | hp
        · exact ⟨[e], IsPath.last a e he hp⟩
        · have hlt := hacyc.rank_lt a e he
          obtain ⟨p, hpath⟩ := ih (rank e.input_node) (by omega) e.input_node rfl hp
          exact ⟨e :: p, IsPath.step a e p he hpath⟩
    exact key (rank a) a rfl
  · rintro ⟨p, hp⟩
    induction hp with
    | last a e he hn =>
      rw [(OutputsTo_recursive_eq g rank hacyc n (rank a) a rfl).2]
      exact List.any_eq_true.mpr ⟨e, he, by simp [hn]⟩
    | step a e rest he _ ih =>
      rw [(OutputsTo_recursive_eq g rank hacyc n (rank a) a rfl).2]
      exact List.any_eq_true.mpr ⟨e, he, by simp [ih]⟩

/-- C11 (reachability test). On a graph that is acyclic along the output edges, a call
`a->OutputsTo(n, true)` with enough fuel returns, and it returns true exactly when there is
a directed path of one or more edges from the output of `a` to an input of `n`; a call
`a->OutputsTo(n, false)` returns, and it returns true exactly when some edge of the output
of `a` connects directly to an input of `n`. -/
theorem C11_OutputsTo_reachability (g : Heap QVariant) (rank : NodePtr → Nat)
    (hacyc : OutputAcyclic g rank) (a n : NodePtr) :
    (∃ b : Bool, (∀ fuel, rank a < fuel → OutputsTo g fuel a n true = some b) ∧
      (b = true ↔ ∃ p, IsPath g n a p)) ∧
    (∃ b : Bool, (∀ fuel, 0 < fuel → OutputsTo g fuel a n false = some b) ∧
      (b = true ↔ ∃ e ∈ (g a).routeEdges, e.input_node = n)) := by
  constructor
  · exact ⟨reaches g rank n a, (OutputsTo_recursive_eq g rank hacyc n (rank a) a rfl).1,
      reaches_iff_path g rank hacyc n a⟩
  · refine ⟨(g a).routeEdges.any fun e => decide (e.input_node = n), ?_, ?_⟩
    · intro fuel hfuel
      obtain ⟨f, rfl⟩ : ∃ f, fuel = f + 1 := ⟨fuel - 1, by omega⟩
      rw [OutputsTo]
      simp only [Node.GetOutputs, Node.OutputsTo.outputs_single]
      rw [Node.OutputsTo.edges_closed _ n false (fun _ => false)]
      · simp [Node.routeEdges_eq]
      · intro e _ _ h
        cases h
    · rw [List.any_eq_true]
      simp

/-- Witness for C11: in the example diamond `A` (0) outputs to `D` (3) recursively, along
the path through `B`, and not directly. -/
theorem C11_OutputsTo_reachability_witness :
    OutputAcyclic Example.diamond (fun n => 3 - n) ∧
    OutputsTo Example.diamond 4 0 3 true = some true ∧
    OutputsTo Example.diamond 4 0 3 false = some false ∧
    (∃ b : Bool, (∀ fuel, 3 - 0 < fuel → OutputsTo Example.diamond fuel 0 3 true = some b) ∧
      (b = true ↔ ∃ p, IsPath Example.diamond 3 0 p)) :=
  ⟨Example.diamond_output_acyclic, by decide, by decide,
   (C11_OutputsTo_reachability Example.diamond (fun n => 3 - n)
      Example.diamond_output_acyclic 0 3).1⟩

end ReachabilityTheorems

/-! ### The parameter list (C12, C13) -/

section ParameterListTheorems

variable {QVariant : Type}

theorem Node.HasParamWithID_iff (params_ : List (ParamObject QVariant)) (id : String) :
    Node.HasParamWithID params_ id = true ↔ ∃ p ∈ params_, p.param.id = id := by
  induction params_ with
  | nil => simp [Node.HasParamWithID]
  | cons p rest ih =>
    unfold Node.HasParamWithID
    by_cases h : p.param.id = id
    · simp [h]
    · simp [h, ih]

theorem Node.HasParamWithID_false_iff (params_ : List (ParamObject QVariant)) (id : String) :
    Node.HasParamWithID params_ id = false ↔ ∀ p ∈ params_, p.param.id ≠ id := by
  rw [← Bool.not_eq_true, Node.HasParamWithID_iff]
  simp

theorem Node.AddParameter_fresh (debug : Bool) (params_ : List (ParamObject QVariant))
    (param : ParamObject QVariant)
    (hid : Node.HasParamWithID params_ param.param.id = false)
    (hobj : ∀ p ∈ params_, p.ptr = param.ptr → p.param.id = param.param.id) :
    Node.AddParameter debug params_ param =
      Except.ok (params_.take (params_.length - 1) ++ param ::
        params_.drop (params_.length - 1)) := by
  have hnot : (params_.any fun p => p.ptr == param.ptr) = false := by
    rw [← Bool.not_eq_true, List.any_eq_true]
    rintro ⟨p, hp, hpp⟩
    have hsame := hobj p hp (by simpa using hpp)
    exact (Node.HasParamWithID_false_iff params_ _).mp hid p hp hsame
  unfold Node.AddParameter
  simp only [hid, Bool.and_false, Bool.false_eq_true, if_false, hnot]
  cases params_ with
  | nil => simp
  | cons p rest => simp

theorem Node.AddParameter_before_last (debug : Bool) (front : List (ParamObject QVariant))
    (last param : ParamObject QVariant)
    (hid : Node.HasParamWithID (front ++ [last]) param.param.id = false)
    (hobj : ∀ p ∈ front ++ [last], p.ptr = param.ptr → p.param.id = param.param.id) :
    Node.AddParameter debug (front ++ [last]) param =
      Except.ok ((front ++ [param]) ++ [last]) := by
  rw [Node.AddParameter_fresh debug _ param hid hobj]
  simp

theorem Node.AddParameters_before_last (debug : Bool) (last : ParamObject QVariant) :
    ∀ (added front : List (ParamObject QVariant)),
      ((front ++ [last]).map (fun p => p.param.id) ++
        added.map (fun p => p.param.id)).Nodup →
      (∀ p ∈ front ++ [last] ++ added, ∀ q ∈ front ++ [last] ++ added,
        p.ptr = q.ptr → p.param.id = q.param.id) →
      Node.AddParameters debug (front ++ [last]) added =
        Except.ok ((front ++ added) ++ [last]) := by
  intro added
  induction added with
  | nil => intro front _ _; simp [Node.AddParameters]
  | cons param rest ih =>
    intro front hnodup hobj
    have hfresh : Node.HasParamWithID (front ++ [last]) param.param.id = false := by
      rw [Node.HasParamWithID_false_iff]
      intro p hp heq
      rw [List.nodup_append] at hnodup
      exact hnodup.2.2 (List.mem_map.mpr ⟨p, hp, heq⟩)
        (List.mem_map.mpr ⟨param, List.mem_cons_self _ _, rfl⟩)
    have hstep := Node.AddParameter_before_last debug front last param hfresh
      (fun p hp => hobj p (by simp at hp ⊢; tauto) param (by simp))
    unfold Node.AddParameters
    rw [hstep]
    simp only
    rw [ih (front ++ [param])]
    · simp
    · simp only [List.map_append, List.map_cons, List.map_nil, List.append_assoc,
        List.singleton_append, List.cons_append, List.nil_append] at hnodup ⊢
      exact hnodup.perm ((List.Perm.swap _ _ _).append_left _)
    · intro p hp q hq
      exact hobj p (by simp at hp ⊢; tauto) q (by simp at hq ⊢; tauto)

/-- C12 (parameter order). Right after construction the parameter list holds the primary
output `node_out` alone; after any sequence of `AddParameter`/`AddInput` calls on objects
whose ids are pairwise distinct and differ from `node_out` (one address holding one
object), in a debug or a release build, all calls return and the list holds the added
parameters in the order in which they were added, followed by the primary output as its
last element. -/
theorem C12_parameter_order (debug : Bool) (output_ptr : Nat)
    (added : List (ParamObject QVariant))
    (hids : ("node_out" :: added.map fun p => p.param.id).Nodup)
    (hobj : ∀ p ∈ ({ ptr := output_ptr, param := NodeParam.output ⟨"node_out", []⟩ } ::
        added : List (ParamObject QVariant)),
      ∀ q ∈ ({ ptr := output_ptr, param := NodeParam.output ⟨"node_out", []⟩ } ::
        added : List (ParamObject QVariant)),
      p.ptr = q.ptr → p.param.id = q.param.id) :
    (Node.construct debug output_ptr : Except Abort (List (ParamObject QVariant))) =
      Except.ok [{ ptr := output_ptr, param := NodeParam.output ⟨"node_out", []⟩ }] ∧
    Node.AddParameters debug
      [{ ptr := output_ptr, param := NodeParam.output ⟨"node_out", []⟩ }] added =
      Except.ok (added ++
        [{ ptr := output_ptr, param := NodeParam.output ⟨"node_out", []⟩ }]) ∧
    (∀ input : ParamObject QVariant, ∀ params_ : List (ParamObject QVariant),
      Node.AddInput debug params_ input = Node.AddParameter debug params_ input) := by
  refine ⟨?_, ?_, fun _ _ => rfl⟩
  · simp [Node.construct, Node.AddParameter, Node.HasParamWithID]
  · have h := Node.AddParameters_before_last debug
      { ptr := output_ptr, param := NodeParam.output ⟨"node_out", []⟩ } added []
      (by simpa [NodeParam.id] using hids)
      (by simpa using hobj)
    simpa using h

/-- Witness for C12: the inputs `x_in` and `y_in` are added, in this order, to a fresh node
whose output is at address 1. -/
theorem C12_parameter_order_witness :
    Node.AddParameters true Example.outputOnly [Example.inputX, Example.inputY] =
      Except.ok ([Example.inputX, Example.inputY] ++ Example.outputOnly) :=
  (C12_parameter_order true 1 [Example.inputX, Example.inputY] (by decide)
    (by
      intro p hp q hq hpq
      simp only [List.mem_cons, List.mem_singleton, List.not_mem_nil, or_false] at hp hq
      rcases hp with rfl | rfl | rfl <;> rcases hq with rfl | rfl | rfl <;>
        first | rfl | (exact absurd hpq (by decide)))).2.1

/-- C13 (duplicate ids, as amended). In a build in which `Q_ASSERT` is compiled in,
`AddParameter` called with a parameter whose id equals the id of a parameter of the list
fails its assertion, and no parameter is added. Called with an id not yet present (one
address holding one object), it succeeds in a debug and in a release build, and the list
grows by exactly that parameter, which is inserted before the last element. -/
theorem C13_AddParameter_duplicate_id (params_ : List (ParamObject QVariant))
    (param : ParamObject QVariant) :
    ((∃ p ∈ params_, p.param.id = param.param.id) →
      Node.AddParameter true params_ param = Except.error Abort.Q_ASSERT) ∧
    ((∀ p ∈ params_, p.param.id ≠ param.param.id) →
      (∀ p ∈ params_, p.ptr = param.ptr → p.param.id = param.param.id) →
      ∀ debug : Bool, ∃ result : List (ParamObject QVariant),
        Node.AddParameter debug params_ param = Except.ok result ∧
        result = params_.take (params_.length - 1) ++ param ::
          params_.drop (params_.length - 1) ∧
        result.length = params_.length + 1 ∧
        ∀ (same : ParamObject QVariant → Bool),
          result.countP same = params_.countP same + (if same param then 1 else 0)) := by
  constructor
  · intro h
    have := (Node.HasParamWithID_iff params_ param.param.id).mpr h
    simp [Node.AddParameter, this]
  · intro hid hobj debug
    refine ⟨_, Node.AddParameter_fresh debug params_ param
      ((Node.HasParamWithID_false_iff params_ _).mpr hid) hobj, rfl, ?_, ?_⟩
    · cases params_ with
      | nil => simp
      | cons p rest => simp
    · intro same
      have hsplit : params_.countP same =
          (params_.take (params_.length - 1)).countP same +
            (params_.drop (params_.length - 1)).countP same := by
        rw [← List.countP_append, List.take_append_drop]
      rw [List.countP_append, List.countP_cons, hsplit]
      omega

/-- Witness for C13: adding an input with the id `node_out` to a list that holds the
primary output fails the assertion; adding the input `x_in` succeeds. -/
theorem C13_AddParameter_duplicate_id_witness :
    Node.AddParameter true Example.outputOnly Example.duplicateId =
      Except.error Abort.Q_ASSERT ∧
    ∃ result : List (ParamObject Nat),
      Node.AddParameter true Example.outputOnly Example.inputX = Except.ok result ∧
      result.length = Example.outputOnly.length + 1 :=
  ⟨(C13_AddParameter_duplicate_id Example.outputOnly Example.duplicateId).1
      ⟨_, List.mem_singleton_self _, rfl⟩,
   by
    obtain ⟨result, h1, _, h3, _⟩ :=
      (C13_AddParameter_duplicate_id Example.outputOnly Example.inputX).2
        (by
          intro p hp
          simp only [Example.outputOnly, List.mem_singleton] at hp
          subst hp
          decide)
        (by
          intro p hp hpp
          simp only [Example.outputOnly, List.mem_singleton] at hp
          subst hp
          exact absurd hpp (by decide)) true
    exact ⟨result, h1, h3⟩⟩

/-- Counterexample to C13 as stated: in a release build (`Q_ASSERT` compiled out) an input
object whose id `node_out` equals the id of the primary output already in the list is
added to the list. -/
theorem C13_counterexample :
    Node.HasParamWithID Example.outputOnly Example.duplicateId.param.id = true ∧
    ∃ result : List (ParamObject Nat),
      Node.AddParameter false Example.outputOnly Example.duplicateId = Except.ok result ∧
      result.map (fun p => p.ptr) = [2, 1] ∧
      result.map (fun p => p.param.id) = ["node_out", "node_out"] :=
  ⟨by decide, _, rfl, rfl, rfl⟩

end ParameterListTheorems

/-! ### Lookup by id (C14) -/

section LookupTheorems

variable {QVariant : Type}

theorem GetInputsIncludingArraysInternal_eq (a : NodeInput QVariant) :
    GetInputsIncludingArraysInternal a = GetInputsIncludingArraysInternal.loop a.sub_params := by
  cases a
  simp [GetInputsIncludingArraysInternal, NodeInput.sub_params]

theorem GetInputsIncludingArraysInternal.loop_cons (b : NodeInput QVariant)
    (rest : List (NodeInput QVariant)) :
    GetInputsIncludingArraysInternal.loop (b :: rest) =
      b :: (GetInputsIncludingArraysInternal b ++ GetInputsIncludingArraysInternal.loop rest) := by
  simp [GetInputsIncludingArraysInternal.loop]

mutual
theorem GetInputsIncludingArraysInternal.sound (n : Node QVariant) :
    (a : NodeInput QVariant) → n.HasInput a → ∀ x ∈ GetInputsIncludingArraysInternal a,
      n.HasInput x
  | .mk ptr id ty v s e subs, ha, x, hx => by
    have hx2 : x ∈ GetInputsIncludingArraysInternal.loop subs := by
      simpa [GetInputsIncludingArraysInternal] using hx
    exact GetInputsIncludingArraysInternal.loop_sound n subs
      (fun b hb => Node.HasInput.sub _ b ha (by simpa [NodeInput.sub_params] using hb)) x hx2
theorem GetInputsIncludingArraysInternal.loop_sound (n : Node QVariant) :
    (l : List (NodeInput QVariant)) → (∀ b ∈ l, n.HasInput b) →
      ∀ x ∈ GetInputsIncludingArraysInternal.loop l, n.HasInput x
  | [], _, x, hx => by simp [GetInputsIncludingArraysInternal.loop] at hx
  | b :: rest, hl, x, hx => by
    rw [GetInputsIncludingArraysInternal.loop_cons] at hx
    rcases List.mem_cons.mp hx with rfl | hx
    · exact hl _ (List.mem_cons_self _ _)
    · rcases List.mem_append.mp hx with hx | hx
      · exact GetInputsIncludingArraysInternal.sound n b (hl b (List.mem_cons_self _ _)) x hx
      · exact GetInputsIncludingArraysInternal.loop_sound n rest
          (fun c hc => hl c (List.mem_cons_of_mem _ hc)) x hx
end

theorem GetInputsIncludingArraysInternal.mem_loop_of_mem (l : List (NodeInput QVariant))
    (b : NodeInput QVariant) (hb : b ∈ l) : b ∈ GetInputsIncludingArraysInternal.loop l := by
  induction l with
  | nil => simp at hb
  | cons c rest ih =>
    rw [GetInputsIncludingArraysInternal.loop_cons]
    rcases List.mem_cons.mp hb with rfl | hb
    · exact List.mem_cons_self _ _
    · exact List.mem_cons_of_mem _ (List.mem_append.mpr (Or.inr (ih hb)))

mutual
theorem GetInputsIncludingArraysInternal.closed :
    (top : NodeInput QVariant) → ∀ a ∈ GetInputsIncludingArraysInternal top,
      ∀ x ∈ a.sub_params, x ∈ GetInputsIncludingArraysInternal top
  | .mk ptr id ty v s e subs, a, ha, x, hx => by
    have ha2 : a ∈ GetInputsIncludingArraysInternal.loop subs := by
      simpa [GetInputsIncludingArraysInternal] using ha
    have := GetInputsIncludingArraysInternal.loop_closed subs a ha2 x hx
    simpa [GetInputsIncludingArraysInternal] using this
theorem GetInputsIncludingArraysInternal.loop_closed :
    (l : List (NodeInput QVariant)) → ∀ a ∈ GetInputsIncludingArraysInternal.loop l,
      ∀ x ∈ a.sub_params, x ∈ GetInputsIncludingArraysInternal.loop l
  | [], a, ha, _, _ => by simp [GetInputsIncludingArraysInternal.loop] at ha
  | b :: rest, a, ha, x, hx => by
    rw [GetInputsIncludingArraysInternal.loop_cons] at ha ⊢
    rcases List.mem_cons.mp ha with rfl | ha
    · refine List.mem_cons_of_mem _ (List.mem_append.mpr (Or.inl ?_))
      rw [GetInputsIncludingArraysInternal_eq]
      exact GetInputsIncludingArraysInternal.mem_loop_of_mem _ x hx
    · rcases List.mem_append.mp ha with ha | ha
      · exact List.mem_cons_of_mem _ (List.mem_append.mpr
          (Or.inl (GetInputsIncludingArraysInternal.closed b a ha x hx)))
      · exact List.mem_cons_of_mem _ (List.mem_append.mpr
          (Or.inr (GetInputsIncludingArraysInternal.loop_closed rest a ha x hx)))
end

theorem Node.mem_GetInputsIncludingArrays_iff (n : Node QVariant) (i : NodeInput QVariant) :
    i ∈ n.GetInputsIncludingArrays ↔ n.HasInput i := by
  constructor
  · intro h
    unfold Node.GetInputsIncludingArrays at h
    obtain ⟨param, hp, hi⟩ := List.mem_flatMap.mp h
    cases param with
    | output o => simp at hi
    | input top =>
      simp only at hi
      rcases List.mem_cons.mp hi with rfl | hi
      · exact Node.HasInput.param _ hp
      · exact GetInputsIncludingArraysInternal.sound n top (Node.HasInput.param _ hp) i hi
  · intro h
    induction h with
    | param i hp =>
      unfold Node.GetInputsIncludingArrays
      exact List.mem_flatMap.mpr ⟨NodeParam.input i, hp, List.mem_cons_self _ _⟩
    | sub a i _ hi ih =>
      unfold Node.GetInputsIncludingArrays at ih ⊢
      obtain ⟨param, hp, ha⟩ := List.mem_flatMap.mp ih
      cases param with
      | output o => simp at ha
      | input top =>
        simp only at ha
        refine List.mem_flatMap.mpr ⟨NodeParam.input top, hp, List.mem_cons_of_mem _ ?_⟩
        rcases List.mem_cons.mp ha with rfl | ha
        · rw [GetInputsIncludingArraysInternal_eq]
          exact GetInputsIncludingArraysInternal.mem_loop_of_mem _ i hi
        · exact GetInputsIncludingArraysInternal.closed top a ha i hi

theorem Node.GetInputWithID.input_loop_none (id : String) (l : List (NodeInput QVariant)) :
    Node.GetInputWithID.loop id l = none ↔ ∀ i ∈ l, i.id ≠ id := by
  induction l with
  | nil => simp [Node.GetInputWithID.loop]
  | cons i rest ih =>
    unfold Node.GetInputWithID.loop
    by_cases h : i.id = id
    · simp [h]
    · simp [h, ih]

theorem Node.GetInputWithID.input_loop_some (id : String) (l : List (NodeInput QVariant))
    (i : NodeInput QVariant) (h : Node.GetInputWithID.loop id l = some i) :
    i.id = id ∧ i ∈ l := by
  induction l with
  | nil => simp [Node.GetInputWithID.loop] at h
  | cons j rest ih =>
    unfold Node.GetInputWithID.loop at h
    by_cases hj : j.id = id
    · simp only [hj, if_true, Option.some.injEq] at h
      subst h
      exact ⟨hj, List.mem_cons_self _ _⟩
    · simp only [hj, if_false] at h
      exact ⟨(ih h).1, List.mem_cons_of_mem _ (ih h).2⟩

theorem Node.GetOutputWithID.output_loop_none (id : String) (l : List (NodeParam QVariant)) :
    Node.GetOutputWithID.loop id l = none ↔ ∀ o, NodeParam.output o ∈ l → o.id ≠ id := by
  induction l with
  | nil => simp [Node.GetOutputWithID.loop]
  | cons p rest ih =>
    unfold Node.GetOutputWithID.loop
    cases p with
    | input i => simp [ih]
    | output o =>
      by_cases h : o.id = id
      · simp only [h, if_true]
        constructor
        · intro h2; cases h2
        · intro h2
          exact absurd h (h2 o (List.mem_cons_self _ _))
      · simp only [h, if_false, ih]
        constructor
        · intro h2 o' ho'
          rcases List.mem_cons.mp ho' with heq | hmem
          · cases heq; exact h
          · exact h2 o' hmem
        · intro h2 o' ho'
          exact h2 o' (List.mem_cons_of_mem _ ho')

theorem Node.GetOutputWithID.output_loop_some (id : String) (l : List (NodeParam QVariant))
    (o : NodeOutput) (h : Node.GetOutputWithID.loop id l = some o) :
    o.id = id ∧ NodeParam.output o ∈ l := by
  induction l with
  | nil => simp [Node.GetOutputWithID.loop] at h
  | cons p rest ih =>
    unfold Node.GetOutputWithID.loop at h
    cases p with
    | input i => exact ⟨(ih h).1, List.mem_cons_of_mem _ (ih h).2⟩
    | output o' =>
      by_cases ho : o'.id = id
      · simp only [ho, if_true, Option.some.injEq] at h
        subst h
        exact ⟨ho, List.mem_cons_self _ _⟩
      · simp only [ho, if_false] at h
        exact ⟨(ih h).1, List.mem_cons_of_mem _ (ih h).2⟩

/-- C14 (lookup by id). `GetInputWithID(id)` returns `nullptr` exactly when no input of the
node, sub-inputs of array inputs included, has the id, and otherwise it returns an input
of the node whose id is `id`; `GetOutputWithID(id)` does the same over the outputs of the
parameter list. Both are total: they return for every node and every id. -/
theorem C14_lookup_by_id (n : Node QVariant) (id : String) :
    (n.GetInputWithID id = none ↔ ∀ i, n.HasInput i → i.id ≠ id) ∧
    (∀ i, n.GetInputWithID id = some i → i.id = id ∧ n.HasInput i) ∧
    ((∃ i, n.HasInput i ∧ i.id = id) → ∃ i, n.GetInputWithID id = some i) ∧
    (n.GetOutputWithID id = none ↔ ∀ o, NodeParam.output o ∈ n.params_ → o.id ≠ id) ∧
    (∀ o, n.GetOutputWithID id = some o → o.id = id ∧ NodeParam.output o ∈ n.params_) ∧
    ((∃ o, NodeParam.output o ∈ n.params_ ∧ o.id = id) →
      ∃ o, n.GetOutputWithID id = some o) := by
  have hin : n.GetInputWithID id = none ↔ ∀ i, n.HasInput i → i.id ≠ id := by
    unfold Node.GetInputWithID
    rw [Node.GetInputWithID.input_loop_none]
    exact ⟨fun h i hi => h i ((n.mem_GetInputsIncludingArrays_iff i).mpr hi),
      fun h i hi => h i ((n.mem_GetInputsIncludingArrays_iff i).mp hi)⟩
  have hout : n.GetOutputWithID id = none ↔
      ∀ o, NodeParam.output o ∈ n.params_ → o.id ≠ id :=
    Node.GetOutputWithID.output_loop_none id n.params_
  refine ⟨hin, ?_, ?_, hout, ?_, ?_⟩
  · intro i h
    have := Node.GetInputWithID.input_loop_some id _ i h
    exact ⟨this.1, (n.mem_GetInputsIncludingArrays_iff i).mp this.2⟩
  · rintro ⟨i, hi, hid⟩
    cases hr : n.GetInputWithID id with
    | some j => exact ⟨j, rfl⟩
    | none => exact absurd hid (hin.mp hr i hi)
  · intro o h
    exact Node.GetOutputWithID.output_loop_some id _ o h
  · rintro ⟨o, ho, hid⟩
    cases hr : n.GetOutputWithID id with
    | some j => exact ⟨j, rfl⟩
    | none => exact absurd hid (hout.mp hr o ho)

/-- Witness for C14: the node `D` of the example diamond has the input `d_in_2` and no
input `missing`; its output is found under `node_out`. -/
theorem C14_lookup_by_id_witness :
    (∃ i, (Example.diamond 3).GetInputWithID "d_in_2" = some i) ∧
    (Example.diamond 3).GetInputWithID "missing" = none ∧
    (∃ o, (Example.diamond 3).GetOutputWithID "node_out" = some o) :=
  ⟨(C14_lookup_by_id (Example.diamond 3) "d_in_2").2.2.1
      ⟨Example.connectedInput 32 "d_in_2" DataType.kNumber 2 3,
        Node.HasInput.param _ (by simp [Example.diamond]), rfl⟩,
   rfl,
   (C14_lookup_by_id (Example.diamond 3) "node_out").2.2.2.2.2
      ⟨⟨"node_out", []⟩, by simp [Example.diamond], rfl⟩⟩

end LookupTheorems

/-! ### Operations (C16) -/

section OperationTheorems

variable {QVariant : Type}

theorem Node.EndOperation.edges_eq_begin (call : NodePtr → Option (List NodePtr)) :
    ∀ es : List NodeEdge,
      Node.EndOperation.edges call es = Node.BeginOperation.edges call es := by
  intro es
  induction es with
  | nil => rfl
  | cons e rest ih => simp [Node.EndOperation.edges, Node.BeginOperation.edges, ih]

theorem Node.EndOperation.params_eq_begin (call : NodePtr → Option (List NodePtr)) :
    ∀ ps : List (NodeParam QVariant),
      Node.EndOperation.params call ps = Node.BeginOperation.params call ps := by
  intro ps
  induction ps with
  | nil => rfl
  | cons p rest ih =>
    cases p with
    | input i => simp [Node.EndOperation.params, Node.BeginOperation.params, ih]
    | output o =>
      simp [Node.EndOperation.params, Node.BeginOperation.params, ih,
        Node.EndOperation.edges_eq_begin]

theorem EndOperation_eq_BeginOperation (g : Heap QVariant) :
    ∀ (fuel : Nat) (n : NodePtr), EndOperation g fuel n = BeginOperation g fuel n := by
  intro fuel
  induction fuel with
  | zero => intro n; rfl
  | succ fuel ih =>
    intro n
    have hcall : (fun m => (EndOperation g fuel m).map fun made => m :: made) =
        (fun m => (BeginOperation g fuel m).map fun made => m :: made) := by
      funext m
      rw [ih m]
    simp only [EndOperation, BeginOperation, Node.EndOperation, Node.BeginOperation, hcall,
      Node.EndOperation.params_eq_begin]

theorem Node.BeginOperation.edges_flat (call : NodePtr → Option (List NodePtr))
    (R : NodePtr → List NodePtr) :
    ∀ (es : List NodeEdge),
      (∀ e ∈ es, call e.input_node = some (e.input_node :: R e.input_node)) →
      Node.BeginOperation.edges call es =
        some (es.flatMap fun e => e.input_node :: R e.input_node) := by
  intro es
  induction es with
  | nil => intro _; rfl
  | cons e rest ih =>
    intro h
    have h1 := h e (List.mem_cons_self _ _)
    have h2 := ih (fun e' he' => h e' (List.mem_cons_of_mem _ he'))
    simp [Node.BeginOperation.edges, h1, h2]

theorem Node.BeginOperation.params_flat (call : NodePtr → Option (List NodePtr))
    (R : NodePtr → List NodePtr) :
    ∀ (ps : List (NodeParam QVariant)),
      (∀ e ∈ (ps.flatMap fun param =>
          match param with
          | .output o => o.edges
          | .input _ => []),
        call e.input_node = some (e.input_node :: R e.input_node)) →
      Node.BeginOperation.params call ps =
        some ((ps.flatMap fun param =>
          match param with
          | .output o => o.edges
          | .input _ => []).flatMap fun e => e.input_node :: R e.input_node) := by
  intro ps
  induction ps with
  | nil => intro _; rfl
  | cons param rest ih =>
    intro h
    have h2 := ih (fun e he => h e (by
      simp only [List.flatMap_cons, List.mem_append]
      exact Or.inr he))
    cases param with
    | input i => simp [Node.BeginOperation.params, h2]
    | output o =>
      have h1 := Node.BeginOperation.edges_flat call R o.edges
        (fun e he => h e (by
          simp only [List.flatMap_cons, List.mem_append]
          exact Or.inl he))
      simp [Node.BeginOperation.params, h1, h2]

theorem BeginOperation_eq (g : Heap QVariant) (rank : NodePtr → Nat)
    (hacyc : RelayAcyclic g rank) :
    ∀ (r : Nat) (n : NodePtr), rank n = r →
      (∀ fuel, rank n < fuel → BeginOperation g fuel n = some (begun g rank n)) ∧
      begun g rank n = (g n).outputEdges.flatMap fun e =>
        e.input_node :: begun g rank e.input_node := by
  intro r
  induction r using Nat.strong_induction_on with
  | _ r ih =>
    intro n hn
    have key : ∀ f, rank n ≤ f → BeginOperation g (f + 1) n =
        some ((g n).outputEdges.flatMap fun e =>
          e.input_node :: begun g rank e.input_node) := by
      intro f hf
      rw [BeginOperation]
      unfold Node.BeginOperation
      apply Node.BeginOperation.params_flat
      intro e he
      have hlt := hacyc n e he
      rw [(ih (rank e.input_node) (by omega) e.input_node rfl).1 f (by omega)]
      rfl
    have hb : begun g rank n = (g n).outputEdges.flatMap fun e =>
        e.input_node :: begun g rank e.input_node := by
      show (BeginOperation g (rank n + 1) n).getD [] = _
      rw [key (rank n) (le_refl _)]
      rfl
    refine ⟨?_, hb⟩
    intro fuel hfuel
    obtain ⟨f, rfl⟩ : ∃ f, fuel = f + 1 := ⟨fuel - 1, by omega⟩
    rw [key f (by omega), hb]

theorem begun_of_path (g : Heap QVariant) (rank : NodePtr → Nat)
    (hacyc : RelayAcyclic g rank)
    (hout : ∀ n, NodeParam.output (g n).output_ ∈ (g n).params_)
    {N M : NodePtr} {p : List NodeEdge} (hp : IsPath g M N p) : M ∈ begun g rank N := by
  induction hp with
  | last a e he hn =>
    rw [(BeginOperation_eq g rank hacyc (rank a) a rfl).2]
    have hmem := (g a).mem_outputEdges _ (hout a) e (by rwa [Node.routeEdges_eq] at he)
    exact List.mem_flatMap.mpr ⟨e, hmem, by simp [hn]⟩
  | step a e rest he _ ih =>
    rw [(BeginOperation_eq g rank hacyc (rank a) a rfl).2]
    have hmem := (g a).mem_outputEdges _ (hout a) e (by rwa [Node.routeEdges_eq] at he)
    exact List.mem_flatMap.mpr ⟨e, hmem, List.mem_cons_of_mem _ ih⟩

/-- C16 (operation bracket). On a graph that is acyclic along the edges of the outputs,
`Node::BeginOperation` and `Node::EndOperation` called on the same node `N` both return;
the nodes on which they call `BeginOperation` and `EndOperation` in turn are the same, in
the same order (for every edge of every output, the node of the connected input followed
by the nodes that this node reaches), so each node receives as many `EndOperation` calls
as `BeginOperation` calls; and every node to which a directed path leads from the output
of `N` is among them. -/
theorem C16_operation_bracket (g : Heap QVariant) (rank : NodePtr → Nat)
    (hacyc : RelayAcyclic g rank)
    (hout : ∀ n, NodeParam.output (g n).output_ ∈ (g n).params_) (N : NodePtr) :
    ∃ begins ends : List NodePtr,
      (∀ fuel, rank N < fuel → BeginOperation g fuel N = some begins) ∧
      (∀ fuel, rank N < fuel → EndOperation g fuel N = some ends) ∧
      begins = ends ∧
      (∀ M : NodePtr, begins.count M = ends.count M) ∧
      (∀ (M : NodePtr) (p : List NodeEdge), IsPath g M N p → M ∈ begins ∧ M ∈ ends) ∧
      begins = (g N).outputEdges.flatMap fun e => e.input_node :: begun g rank e.input_node := by
  refine ⟨begun g rank N, begun g rank N, (BeginOperation_eq g rank hacyc (rank N) N rfl).1,
    ?_, rfl, fun _ => rfl, ?_, (BeginOperation_eq g rank hacyc (rank N) N rfl).2⟩
  · intro fuel hfuel
    rw [EndOperation_eq_BeginOperation]
    exact (BeginOperation_eq g rank hacyc (rank N) N rfl).1 fuel hfuel
  · intro M p hp
    exact ⟨begun_of_path g rank hacyc hout hp, begun_of_path g rank hacyc hout hp⟩

/-- Witness for C16: in the example diamond a call on `A` (0) reaches `B`, `D`, `C`, `D` in
this order, for `BeginOperation` and for `EndOperation`. -/
theorem C16_operation_bracket_witness :
    RelayAcyclic Example.diamond (fun n => 3 - n) ∧
    (∀ n, NodeParam.output (Example.diamond n).output_ ∈ (Example.diamond n).params_) ∧
    BeginOperation Example.diamond 4 0 = some [1, 3, 2, 3] ∧
    EndOperation Example.diamond 4 0 = some [1, 3, 2, 3] ∧
    ∃ begins ends : List NodePtr,
      (∀ fuel, 3 - 0 < fuel → BeginOperation Example.diamond fuel 0 = some begins) ∧
      (∀ fuel, 3 - 0 < fuel → EndOperation Example.diamond fuel 0 = some ends) ∧
      begins = ends ∧
      (∀ M : NodePtr, begins.count M = ends.count M) ∧
      (∀ (M : NodePtr) (p : List NodeEdge), IsPath Example.diamond M 0 p →
        M ∈ begins ∧ M ∈ ends) ∧
      begins = (Example.diamond 0).outputEdges.flatMap fun e =>
        e.input_node :: begun Example.diamond (fun n => 3 - n) e.input_node :=
  ⟨Example.diamond_relay_acyclic, Example.diamond_output, by decide, by decide,
   C16_operation_bracket Example.diamond (fun n => 3 - n) Example.diamond_relay_acyclic
     Example.diamond_output 0⟩

end OperationTheorems

/-! ### Saving a project (C17) -/

/-- A failed run that did not remove the project file leaves it as it was: this covers a
failed open of the temporary file, a writer error and a failed `remove`. -/
theorem ProjectSaveTask.Run_failure_before_remove (env : SaveOutcomes)
    (temp_save filename : String) (fs : FileSystem) (hne : filename ≠ temp_save)
    (hkept : env.open_ok = false ∨ env.writer_hasError = true ∨ env.remove_ok = false)
    (hfile : (fs filename).isSome = true) :
    (ProjectSaveTask.Run env temp_save filename fs).returned = false ∧
    (ProjectSaveTask.Run env temp_save filename fs).fs filename = fs filename := by
  unfold ProjectSaveTask.Run
  cases hopen : env.open_ok with
  | false => simp
  | true =>
    cases herr : env.writer_hasError with
    | true => simp [FileSystem.set, hne]
    | false =>
      have hrem : env.remove_ok = false := by
        rcases hkept with h | h | h
        · rw [hopen] at h; cases h
        · rw [herr] at h; cases h
        · exact h
      simp [QFile.exists_, QFile.remove, FileSystem.set, hne, hfile, hrem]

/-- A successful run leaves the written text under the project's file name. -/
theorem ProjectSaveTask.Run_success (env : SaveOutcomes) (temp_save filename : String)
    (fs : FileSystem) (hne : filename ≠ temp_save)
    (hret : (ProjectSaveTask.Run env temp_save filename fs).returned = true) :
    (ProjectSaveTask.Run env temp_save filename fs).fs filename = some env.written := by
  unfold ProjectSaveTask.Run at hret ⊢
  cases hopen : env.open_ok with
  | false => simp [hopen] at hret
  | true =>
    cases herr : env.writer_hasError with
    | true => simp [hopen, herr] at hret
    | false =>
      have hne2 : ¬ temp_save = filename := fun h => hne h.symm
      cases hfile : fs filename with
      | none =>
        cases hcopy : env.copy_ok with
        | false =>
          simp [hopen, herr, QFile.exists_, QFile.copy, FileSystem.set, hne, hfile, hcopy] at hret
        | true =>
          simp [QFile.exists_, QFile.copy, FileSystem.set, hne, hfile, hcopy]
      | some old =>
        cases hrem : env.remove_ok with
        | false =>
          simp [hopen, herr, QFile.exists_, QFile.remove, FileSystem.set, hne, hfile, hrem]
            at hret
        | true =>
          cases hcopy : env.copy_ok with
          | false =>
            simp [hopen, herr, QFile.exists_, QFile.remove, QFile.copy, FileSystem.set, hne,
              hne2, hfile, hrem, hcopy] at hret
          | true =>
            simp [QFile.exists_, QFile.remove, QFile.copy, FileSystem.set, hne, hne2, hfile,
              hrem, hcopy]

/-- C17 (save atomicity), evaluated where it fails: the project file "project.ove" holds
"old", the temporary file is written without error, `original.remove()` succeeds and
`QFile::copy` fails. `ProjectSaveTask::Run` returns false with the error "Failed to write
to", and no file exists under the project's file name any more; the new text is in the
temporary file only. -/
theorem C17_failed_save_removes_project_file :
    Example.savedProject "project.ove" = some "old" ∧
    (ProjectSaveTask.Run Example.copyFails "tempsv" "project.ove"
      Example.savedProject).returned = false ∧
    (ProjectSaveTask.Run Example.copyFails "tempsv" "project.ove"
      Example.savedProject).error = some 1 ∧
    (ProjectSaveTask.Run Example.copyFails "tempsv" "project.ove"
      Example.savedProject).fs "project.ove" = none ∧
    (ProjectSaveTask.Run Example.copyFails "tempsv" "project.ove"
      Example.savedProject).fs "tempsv" = some "new" := by
  refine ⟨by decide, by decide, by decide, by decide, by decide⟩

/-! ### Time ranges (C18, C19, C20) -/

theorem TimeRange.make_of_le {i o : rational} (h : i ≤ o) :
    TimeRange.make i o = { in_ := i, out_ := o } := by
  simp [TimeRange.make, not_lt.mpr h]

theorem TimeRange.make_normalized (i o : rational) :
    (TimeRange.make i o).in_ ≤ (TimeRange.make i o).out_ := by
  unfold TimeRange.make
  split
  · exact le_of_lt (by assumption)
  · exact not_lt.mp (by assumption)

/-- C18 (normalization). For all rationals `i` and `o`, the range constructed from them
has `in() <= out()`, and it is equal to the range constructed from `o` and `i`, as values
and for `operator==`; constructed reversed, the endpoints are swapped. -/
theorem C18_TimeRange_normalization (i o : rational) :
    (TimeRange.make i o).in_ ≤ (TimeRange.make i o).out_ ∧
    TimeRange.make i o = TimeRange.make o i ∧
    TimeRange.operator_eq (TimeRange.make i o) (TimeRange.make o i) = true ∧
    (TimeRange.make i o).in_ = min i o ∧ (TimeRange.make i o).out_ = max i o := by
  have hsymm : TimeRange.make i o = TimeRange.make o i := by
    unfold TimeRange.make
    rcases lt_trichotomy i o with h | h | h
    · simp [h, not_lt.mpr (le_of_lt h)]
    · subst h; simp
    · simp [h, not_lt.mpr (le_of_lt h)]
  refine ⟨TimeRange.make_normalized i o, hsymm, ?_, ?_, ?_⟩
  · rw [← hsymm]; simp [TimeRange.operator_eq]
  · unfold TimeRange.make
    split
    · exact (min_eq_right (le_of_lt (by assumption))).symm
    · exact (min_eq_left (not_lt.mp (by assumption))).symm
  · unfold TimeRange.make
    split
    · exact (max_eq_left (le_of_lt (by assumption))).symm
    · exact (max_eq_right (not_lt.mp (by assumption))).symm

theorem TimeRange.Combine_of_normalized (a b : TimeRange) (ha : a.in_ ≤ a.out_) :
    TimeRange.Combine a b = { in_ := min a.in_ b.in_, out_ := max a.out_ b.out_ } := by
  unfold TimeRange.Combine
  exact TimeRange.make_of_le (le_trans (min_le_left _ _) (le_trans ha (le_max_left _ _)))

/-- The coalesced range: folding `Combine` over entries, from a normalized range. -/
theorem TimeRange.foldl_Combine (es : List TimeRange) :
    ∀ acc : TimeRange, acc.in_ ≤ acc.out_ →
      (es.foldl TimeRange.Combine acc).in_ ≤ acc.in_ ∧
      acc.out_ ≤ (es.foldl TimeRange.Combine acc).out_ ∧
      (∀ e ∈ es, (es.foldl TimeRange.Combine acc).in_ ≤ e.in_ ∧
        e.out_ ≤ (es.foldl TimeRange.Combine acc).out_) ∧
      ((es.foldl TimeRange.Combine acc).in_ = acc.in_ ∨
        ∃ e ∈ es, (es.foldl TimeRange.Combine acc).in_ = e.in_) ∧
      ((es.foldl TimeRange.Combine acc).out_ = acc.out_ ∨
        ∃ e ∈ es, (es.foldl TimeRange.Combine acc).out_ = e.out_) := by
  induction es with
  | nil => intro acc _; simp
  | cons e rest ih =>
    intro acc hacc
    have hc := TimeRange.Combine_of_normalized acc e hacc
    have hnorm : (TimeRange.Combine acc e).in_ ≤ (TimeRange.Combine acc e).out_ := by
      rw [hc]; exact le_trans (min_le_left _ _) (le_trans hacc (le_max_left _ _))
    obtain ⟨h1, h2, h3, h4, h5⟩ := ih (TimeRange.Combine acc e) hnorm
    have hin : (TimeRange.Combine acc e).in_ = min acc.in_ e.in_ := by rw [hc]
    have hout : (TimeRange.Combine acc e).out_ = max acc.out_ e.out_ := by rw [hc]
    rw [hin] at h1 h4
    rw [hout] at h2 h5
    simp only [List.foldl_cons]
    refine ⟨le_trans h1 (min_le_left _ _), le_trans (le_max_left _ _) h2, ?_, ?_, ?_⟩
    · intro x hx
      rcases List.mem_cons.mp hx with rfl | hx
      · exact ⟨le_trans h1 (min_le_right _ _), le_trans (le_max_right _ _) h2⟩
      · exact h3 x hx
    · rcases h4 with h4 | ⟨x, hx, h4⟩
      · rcases min_choice acc.in_ e.in_ with hm | hm
        · left; rw [h4, hm]
        · right; exact ⟨e, List.mem_cons_self _ _, by rw [h4, hm]⟩
      · right; exact ⟨x, List.mem_cons_of_mem _ hx, h4⟩
    · rcases h5 with h5 | ⟨x, hx, h5⟩
      · rcases max_choice acc.out_ e.out_ with hm | hm
        · left; rw [h5, hm]
        · right; exact ⟨e, List.mem_cons_self _ _, by rw [h5, hm]⟩
      · right; exact ⟨x, List.mem_cons_of_mem _ hx, h5⟩

theorem TimeRangeList.mem_insertSorted (entry x : TimeRange) :
    ∀ l : TimeRangeList, x ∈ TimeRangeList.insertSorted entry l ↔ x = entry ∨ x ∈ l := by
  intro l
  induction l with
  | nil => simp [TimeRangeList.insertSorted]
  | cons e rest ih =>
    unfold TimeRangeList.insertSorted
    split
    · simp
    · simp only [List.mem_cons, ih]
      tauto

theorem TimeRangeList.filter_insertSorted_only (p : TimeRange → Bool) (entry : TimeRange)
    (hentry : p entry = true) :
    ∀ l : TimeRangeList, (∀ x ∈ l, p x = false) →
      (TimeRangeList.insertSorted entry l).filter p = [entry] := by
  intro l
  induction l with
  | nil => intro _; simp [TimeRangeList.insertSorted, hentry]
  | cons e rest ih =>
    intro h
    have he := h e (List.mem_cons_self _ _)
    have hrest : rest.filter p = [] :=
      List.filter_eq_nil_iff.mpr fun x hx => by simp [h x (List.mem_cons_of_mem _ hx)]
    unfold TimeRangeList.insertSorted
    split
    · simp [List.filter_cons, hentry, he, hrest]
    · simp [List.filter_cons, he, ih (fun x hx => h x (List.mem_cons_of_mem _ hx))]

theorem TimeRangeList.filter_insertSorted_rest (p : TimeRange → Bool) (entry : TimeRange)
    (hentry : p entry = false) :
    ∀ l : TimeRangeList, (∀ x ∈ l, p x = true) →
      (TimeRangeList.insertSorted entry l).filter p = l := by
  intro l
  induction l with
  | nil => intro _; simp [TimeRangeList.insertSorted, hentry]
  | cons e rest ih =>
    intro h
    have he := h e (List.mem_cons_self _ _)
    have hrest : rest.filter p = rest :=
      List.filter_eq_self.mpr fun x hx => h x (List.mem_cons_of_mem _ hx)
    unfold TimeRangeList.insertSorted
    split
    · simp [List.filter_cons, hentry, he, hrest]
    · simp [List.filter_cons, he, ih (fun x hx => h x (List.mem_cons_of_mem _ hx))]

/-- C19 (coalescing). `InsertTimeRange` of the range `TimeRange(i, o)` leaves a list made
of one coalesced entry and of the old entries that neither overlap nor touch the new
range; the coalesced entry covers exactly the union of the new range and of the old
entries that overlap or touch it; inserting the same range a second time leaves the list
unchanged; and inserting `[0,5)` and then `[5,10)` into an empty list yields the single
entry `[0,10)`. -/
theorem C19_InsertTimeRange_coalesces :
    (∀ (list : TimeRangeList) (i o : rational),
      ∃ coalesced : TimeRange,
        (∀ x, x ∈ TimeRangeList.InsertTimeRange list (TimeRange.make i o) ↔
          x = coalesced ∨
            (x ∈ list ∧ x.OverlapsWith (TimeRange.make i o) true true = false)) ∧
        (∀ t : rational, coalesced.Contains t = true ↔
          (TimeRange.make i o).Contains t = true ∨
            ∃ e ∈ list, e.OverlapsWith (TimeRange.make i o) true true = true ∧
              e.Contains t = true) ∧
        (TimeRangeList.InsertTimeRange list (TimeRange.make i o)).length =
          (list.filter fun e => !e.OverlapsWith (TimeRange.make i o) true true).length + 1 ∧
        TimeRangeList.InsertTimeRange
            (TimeRangeList.InsertTimeRange list (TimeRange.make i o)) (TimeRange.make i o) =
          TimeRangeList.InsertTimeRange list (TimeRange.make i o)) ∧
    TimeRangeList.InsertTimeRange (TimeRangeList.InsertTimeRange [] Example.range_0_5)
      Example.range_5_10 = [TimeRange.make 0 10] := by
  constructor
  · intro list i o
    have hr := TimeRange.make_normalized i o
    generalize TimeRange.make i o = range at hr
    obtain ⟨h1, h2, h3, h4, h5⟩ := TimeRange.foldl_Combine
      (list.filter fun e => e.OverlapsWith range true true) range hr
    refine ⟨(list.filter fun e => e.OverlapsWith range true true).foldl
      TimeRange.Combine range, ?_, ?_, ?_, ?_⟩
    · intro x
      unfold TimeRangeList.InsertTimeRange
      simp only [TimeRangeList.mem_insertSorted, List.mem_filter, Bool.not_eq_true']
    · intro t
      simp only [TimeRange.Contains, Bool.and_eq_true, decide_eq_true_eq]
      constructor
      · rintro ⟨hin, hout⟩
        by_cases hti : range.in_ ≤ t
        · by_cases hto : t < range.out_
          · exact Or.inl ⟨hti, hto⟩
          · right
            rcases h5 with h5 | ⟨e, he, h5⟩
            · rw [h5] at hout; exact absurd hout hto
            · have hov := (List.mem_filter.mp he).2
              simp only [TimeRange.OverlapsWith, if_true, Bool.and_eq_true,
                decide_eq_true_eq] at hov
              refine ⟨e, (List.mem_filter.mp he).1, (List.mem_filter.mp he).2, ?_, ?_⟩
              · exact le_trans hov.1 (not_lt.mp hto)
              · rw [← h5]; exact hout
        · right
          rcases h4 with h4 | ⟨e, he, h4⟩
          · rw [h4] at hin; exact absurd hin hti
          · have hov := (List.mem_filter.mp he).2
            simp only [TimeRange.OverlapsWith, if_true, Bool.and_eq_true,
              decide_eq_true_eq] at hov
            refine ⟨e, (List.mem_filter.mp he).1, (List.mem_filter.mp he).2, ?_, ?_⟩
            · rw [← h4]; exact hin
            · exact lt_of_lt_of_le (not_le.mp hti) hov.2
      · rintro (⟨hin, hout⟩ | ⟨e, he, hov, hin, hout⟩)
        · exact ⟨le_trans h1 hin, lt_of_lt_of_le hout h2⟩
        · have hmem := h3 e (List.mem_filter.mpr ⟨he, hov⟩)
          exact ⟨le_trans hmem.1 hin, lt_of_lt_of_le hout hmem.2⟩
    · unfold TimeRangeList.InsertTimeRange
      have hlen : ∀ (entry : TimeRange) (l : TimeRangeList),
          (TimeRangeList.insertSorted entry l).length = l.length + 1 := by
        intro entry l
        induction l with
        | nil => rfl
        | cons e rest ih =>
          unfold TimeRangeList.insertSorted
          split
          · simp
          · simp [ih]
      exact hlen _ _
    · have hself : ((list.filter fun e => e.OverlapsWith range true true).foldl
          TimeRange.Combine range).OverlapsWith range true true = true := by
        simp only [TimeRange.OverlapsWith, if_true, Bool.and_eq_true, decide_eq_true_eq]
        exact ⟨le_trans h1 hr, le_trans hr h2⟩
      have hnorm : ((list.filter fun e => e.OverlapsWith range true true).foldl
          TimeRange.Combine range).in_ ≤
          ((list.filter fun e => e.OverlapsWith range true true).foldl
          TimeRange.Combine range).out_ := le_trans h1 (le_trans hr h2)
      have hI : TimeRangeList.InsertTimeRange list range = TimeRangeList.insertSorted
          ((list.filter fun e => e.OverlapsWith range true true).foldl TimeRange.Combine range)
          (list.filter fun e => !e.OverlapsWith range true true) := rfl
      rw [hI]
      generalize (list.filter fun e => e.OverlapsWith range true true).foldl
          TimeRange.Combine range = m at h1 h2 hself hnorm
      show TimeRangeList.InsertTimeRange (TimeRangeList.insertSorted m
          (list.filter fun e => !e.OverlapsWith range true true)) range =
        TimeRangeList.insertSorted m (list.filter fun e => !e.OverlapsWith range true true)
      have hrest : ∀ x ∈ (list.filter fun e => !e.OverlapsWith range true true),
          x.OverlapsWith range true true = false := by
        intro x hx
        simpa using (List.mem_filter.mp hx).2
      unfold TimeRangeList.InsertTimeRange
      rw [TimeRangeList.filter_insertSorted_only _ m hself _ hrest,
        TimeRangeList.filter_insertSorted_rest _ m (by simp [hself]) _
          (fun x hx => by simp [hrest x hx])]
      have hm : TimeRange.Combine range m = m := by
        rw [TimeRange.Combine_of_normalized range m hr, min_eq_right h1, max_eq_right h2]
      simp only [List.foldl_cons, List.foldl_nil, hm]
  · simp only [TimeRangeList.InsertTimeRange, Example.range_0_5, Example.range_5_10,
      TimeRange.make, TimeRange.OverlapsWith, TimeRange.Combine, TimeRangeList.insertSorted]
    norm_num [TimeRangeList.insertSorted, TimeRange.make, TimeRange.Combine]

theorem TimeRangeList.RemoveTimeRange.pieces_disjoint (remove e : TimeRange)
    (h : e.OverlapsWith remove false false = false) :
    TimeRangeList.RemoveTimeRange.pieces remove e = [e] := by
  simp [TimeRangeList.RemoveTimeRange.pieces, h]

theorem TimeRangeList.RemoveTimeRange_disjoint (remove : TimeRange) :
    ∀ list : TimeRangeList, (∀ x ∈ list, x.OverlapsWith remove false false = false) →
      TimeRangeList.RemoveTimeRange list remove = list := by
  intro list
  induction list with
  | nil => intro _; rfl
  | cons e rest ih =>
    intro h
    have h1 := TimeRangeList.RemoveTimeRange.pieces_disjoint remove e
      (h e (List.mem_cons_self _ _))
    have h2 := ih fun x hx => h x (List.mem_cons_of_mem _ hx)
    unfold TimeRangeList.RemoveTimeRange at h2 ⊢
    rw [List.flatMap_cons, h1, h2]
    rfl

/-- C20 (split). `RemoveTimeRange` of a range that lies strictly inside an entry `e` of the
list, whose other entries do not overlap `e`, replaces `e` by the part before the removed
range and the part after it, and leaves the other entries as they are. -/
theorem C20_RemoveTimeRange_splits (before after : TimeRangeList) (e remove : TimeRange)
    (hin : e.in_ < remove.in_) (hremove : remove.in_ ≤ remove.out_)
    (hout : remove.out_ < e.out_)
    (hothers : ∀ x ∈ before ++ after, x.OverlapsWith e false false = false) :
    TimeRangeList.RemoveTimeRange (before ++ e :: after) remove =
      before ++ TimeRange.make e.in_ remove.in_ :: TimeRange.make remove.out_ e.out_ :: after ∧
    TimeRange.make e.in_ remove.in_ = { in_ := e.in_, out_ := remove.in_ } ∧
    TimeRange.make remove.out_ e.out_ = { in_ := remove.out_, out_ := e.out_ } := by
  have hdisj : ∀ x ∈ before ++ after, x.OverlapsWith remove false false = false := by
    intro x hx
    have h := hothers x hx
    simp only [TimeRange.OverlapsWith, Bool.false_eq_true, if_false, Bool.and_eq_false_iff,
      decide_eq_false_iff_not, not_lt] at h ⊢
    rcases h with h | h
    · exact Or.inl (le_trans (le_of_lt hout) h)
    · exact Or.inr (le_trans h (le_of_lt hin))
  have hb := TimeRangeList.RemoveTimeRange_disjoint remove before
    fun x hx => hdisj x (List.mem_append_left _ hx)
  have ha := TimeRangeList.RemoveTimeRange_disjoint remove after
    fun x hx => hdisj x (List.mem_append_right _ hx)
  have he : TimeRangeList.RemoveTimeRange.pieces remove e =
      [TimeRange.make e.in_ remove.in_, TimeRange.make remove.out_ e.out_] := by
    have hov : e.OverlapsWith remove false false = true := by
      simp only [TimeRange.OverlapsWith, Bool.false_eq_true, if_false, Bool.and_eq_true,
        decide_eq_true_eq]
      exact ⟨lt_of_lt_of_le hin hremove, lt_of_le_of_lt hremove hout⟩
    simp [TimeRangeList.RemoveTimeRange.pieces, hov, hin, hout]
  refine ⟨?_, TimeRange.make_of_le (le_of_lt hin), TimeRange.make_of_le (le_of_lt hout)⟩
  unfold TimeRangeList.RemoveTimeRange at hb ha ⊢
  rw [List.flatMap_append, List.flatMap_cons, hb, ha, he]
  rfl

/-- Witness for C20: `[3,6)` lies strictly inside `[0,10)`, and for the list `{[0,10)}`,
removing `[3,6)` yields exactly `{[0,3), [6,10)}`. -/
theorem C20_RemoveTimeRange_splits_witness :
    Example.range_0_10.in_ < Example.range_3_6.in_ ∧
    Example.range_3_6.in_ ≤ Example.range_3_6.out_ ∧
    Example.range_3_6.out_ < Example.range_0_10.out_ ∧
    TimeRangeList.RemoveTimeRange [Example.range_0_10] Example.range_3_6 =
      [TimeRange.make 0 3, TimeRange.make 6 10] ∧
    TimeRange.make 0 3 = { in_ := 0, out_ := 3 } ∧
    TimeRange.make 6 10 = { in_ := 6, out_ := 10 } := by
  have hin : Example.range_0_10.in_ < Example.range_3_6.in_ := by
    norm_num [Example.range_0_10, Example.range_3_6, TimeRange.make]
  have hremove : Example.range_3_6.in_ ≤ Example.range_3_6.out_ := by
    norm_num [Example.range_3_6, TimeRange.make]
  have hout : Example.range_3_6.out_ < Example.range_0_10.out_ := by
    norm_num [Example.range_0_10, Example.range_3_6, TimeRange.make]
  have h := C20_RemoveTimeRange_splits [] [] Example.range_0_10 Example.range_3_6 hin hremove
    hout (by simp)
  have e1 : Example.range_0_10.in_ = 0 := by norm_num [Example.range_0_10, TimeRange.make]
  have e2 : Example.range_0_10.out_ = 10 := by norm_num [Example.range_0_10, TimeRange.make]
  have e3 : Example.range_3_6.in_ = 3 := by norm_num [Example.range_3_6, TimeRange.make]
  have e4 : Example.range_3_6.out_ = 6 := by norm_num [Example.range_3_6, TimeRange.make]
  rw [e1, e2, e3, e4] at h
  exact ⟨hin, hremove, hout, h⟩

/-! ### Destruction of a node (C15) -/

section DisconnectTheorems

variable {QVariant : Type}

mutual
theorem NodeInput.mem_allEdges_RemoveEdge (edge x : NodeEdge) :
    ∀ i : NodeInput QVariant,
      x ∈ (NodeInput.RemoveEdge edge i).allEdges ↔ x ∈ i.allEdges ∧ x ≠ edge
  | .mk p i d v s edges subs => by
    rw [NodeInput.RemoveEdge, NodeInput.allEdges, NodeInput.allEdges, List.mem_append,
      List.mem_append, NodeInput.mem_allEdges_RemoveEdge_subs edge x subs, List.mem_filter]
    simp only [bne_iff_ne, ne_eq]
    tauto
theorem NodeInput.mem_allEdges_RemoveEdge_subs (edge x : NodeEdge) :
    ∀ l : List (NodeInput QVariant),
      x ∈ NodeInput.allEdges.subs (NodeInput.RemoveEdge.subs edge l) ↔
        x ∈ NodeInput.allEdges.subs l ∧ x ≠ edge
  | [] => by simp [NodeInput.RemoveEdge.subs, NodeInput.allEdges.subs]
  | i :: rest => by
    rw [NodeInput.RemoveEdge.subs, NodeInput.allEdges.subs, NodeInput.allEdges.subs,
      List.mem_append, List.mem_append, NodeInput.mem_allEdges_RemoveEdge edge x i,
      NodeInput.mem_allEdges_RemoveEdge_subs edge x rest]
    tauto
end

end DisconnectTheorems

section RoutesReachability

variable {QVariant : Type}

theorem routesTo_ne_nil_iff_path (g : Heap QVariant) (rank : NodePtr → Nat)
    (hacyc : OutputAcyclic g rank) (n a : NodePtr) (fuel : Nat) (hfuel : rank a < fuel) :
    0 < (routesTo g n fuel a).length ↔ ∃ p, IsPath g n a p := by
  constructor
  · intro h
    obtain ⟨r, hr⟩ := List.exists_mem_of_length_pos h
    obtain ⟨e, he⟩ := routesTo_sound g n fuel a r hr
    exact ⟨_, he⟩
  · rintro ⟨p, hp⟩
    have hne := hp.ne_nil
    rw [← List.dropLast_append_getLast hne] at hp
    exact List.length_pos_of_mem (routesTo_complete g rank hacyc n _ a _ hp fuel hfuel)

theorem Example.ladder_acyclic : OutputAcyclic Example.ladder (fun i => 32 - i) := by
  intro a o ho e he
  simp only [Node.GetOutputs, List.mem_singleton] at ho
  subst ho
  simp only [Example.ladder] at he
  split at he
  · rename_i hlt
    simp only [List.mem_cons, List.mem_singleton, List.not_mem_nil, or_false] at he
    have key : ∀ x : Nat, x < 32 → 32 - (x + 1) < 32 - x := by
      intro x hx
      omega
    rcases he with rfl | rfl
    · exact key a hlt
    · exact key a hlt
  · simp at he

theorem Example.ladder_step (f i : Nat) (hi : i < 31) :
    GetRoutesTo Example.ladder (f + 1) i 32 =
      (GetRoutesTo Example.ladder f (i + 1) 32).map fun r =>
        wrapInt32 (wrapInt32 (0 + r) + r) := by
  have h1 : i < 32 := by omega
  have h2 : ¬ i + 1 = 32 := by omega
  rw [GetRoutesTo]
  simp only [Example.ladder, Node.GetOutputs, h1, if_true, Node.GetRoutesTo.outputs,
    Node.GetRoutesTo.edges, h2, if_false]
  cases GetRoutesTo Example.ladder f (i + 1) 32 with
  | none => rfl
  | some r => rfl

theorem Example.ladder_last (f : Nat) : GetRoutesTo Example.ladder (f + 1) 31 32 = some 1 := by
  rw [GetRoutesTo]
  simp [Example.ladder, Node.GetOutputs, Node.GetRoutesTo.outputs, Node.GetRoutesTo.edges,
    wrapInt32]

theorem Example.ladder_routes (f : Nat) :
    ∀ k : Nat, k ≤ 30 →
      GetRoutesTo Example.ladder (f + k + 1) (31 - k) 32 = some ((2 ^ k : Nat) : Int) := by
  intro k
  induction k with
  | zero => intro _; exact Example.ladder_last f
  | succ k ih =>
    intro hk
    have hstep := Example.ladder_step (f + k + 1) (31 - (k + 1)) (by omega)
    have hidx : 31 - (k + 1) + 1 = 31 - k := by omega
    rw [hidx, ih (by omega)] at hstep
    rw [show f + (k + 1) + 1 = f + k + 1 + 1 from rfl, hstep]
    have hpow : 2 ^ k ≤ 2 ^ 29 := Nat.pow_le_pow_right (by norm_num) (by omega)
    simp only [Option.map_some', Option.some.injEq]
    rw [pow_succ]
    generalize 2 ^ k = x at hpow
    unfold wrapInt32
    push_cast
    omega

/-- C27 (routes and reachability, as amended). On a graph that is acyclic along the edges
of the outputs, for nodes `a` and `n` such that the number of routes from `a` to `n` is
below `2 ^ 31`, `a.GetRoutesTo(n)` and `a.OutputsTo(n, true)` both return, and the first
is positive if and only if the second is true. -/
theorem C27_GetRoutesTo_agrees_OutputsTo (g : Heap QVariant) (rank : NodePtr → Nat)
    (hacyc : OutputAcyclic g rank) (a n : NodePtr) (fuel : Nat) (hfuel : rank a < fuel)
    (hlen : (routesTo g n fuel a).length < 2147483648) :
    ∃ (routes : Int) (outputs : Bool),
      GetRoutesTo g fuel a n = some routes ∧
      OutputsTo g fuel a n true = some outputs ∧
      (0 < routes ↔ outputs = true) := by
  refine ⟨_, _, GetRoutesTo_eq g rank hacyc n fuel a hfuel hlen,
    (OutputsTo_recursive_eq g rank hacyc n (rank a) a rfl).1 fuel hfuel, ?_⟩
  rw [reaches_iff_path g rank hacyc n a, ← routesTo_ne_nil_iff_path g rank hacyc n a fuel hfuel]
  exact Int.natCast_pos

/-- Witness for C27: the example diamond, from `A` (0) to `D` (3): two routes, and
`OutputsTo` is true. -/
theorem C27_GetRoutesTo_agrees_OutputsTo_witness :
    OutputAcyclic Example.diamond (fun n => 3 - n) ∧
    (routesTo Example.diamond 3 4 0).length < 2147483648 ∧
    GetRoutesTo Example.diamond 4 0 3 = some 2 ∧
    OutputsTo Example.diamond 4 0 3 true = some true ∧
    ∃ (routes : Int) (outputs : Bool),
      GetRoutesTo Example.diamond 4 0 3 = some routes ∧
      OutputsTo Example.diamond 4 0 3 true = some outputs ∧
      (0 < routes ↔ outputs = true) :=
  ⟨Example.diamond_output_acyclic, by decide, by decide, by decide,
   C27_GetRoutesTo_agrees_OutputsTo Example.diamond (fun n => 3 - n)
     Example.diamond_output_acyclic 0 3 4 (by decide) (by decide)⟩

/-- Counterexample to C27 as stated: in the example ladder, acyclic, there are `2 ^ 31`
routes from node 0 to node 32; the `int` of `GetRoutesTo` wraps around to `-2147483648`,
which is not positive, while `OutputsTo` returns true. -/
theorem C27_counterexample :
    OutputAcyclic Example.ladder (fun i => 32 - i) ∧
    GetRoutesTo Example.ladder 33 0 32 = some (-2147483648) ∧
    ¬ (0 : Int) < -2147483648 ∧
    OutputsTo Example.ladder 33 0 32 true = some true := by
  refine ⟨Example.ladder_acyclic, ?_, by decide, by decide⟩
  have hstep := Example.ladder_step 32 0 (by decide)
  have h := Example.ladder_routes 1 30 (by decide)
  have hidx : (31 : Nat) - 30 = 0 + 1 := rfl
  rw [hidx] at h
  rw [hstep, h]
  simp only [Option.map_some', Option.some.injEq]
  unfold wrapInt32
  norm_num

end RoutesReachability

/-! ### Termination of hashing (C25) -/

section HashTermination

variable {QVariant : Type}

theorem HashAcyclic.transGen_rank_lt {g : Heap QVariant} {rank : NodePtr → Nat}
    (hacyc : HashAcyclic g rank) {c n : NodePtr}
    (h : Relation.TransGen (HashDescends g) c n) : rank c < rank n := by
  induction h with
  | single h =>
    obtain ⟨input, hin, hc⟩ := h
    exact hacyc _ input hin c hc
  | tail _ h ih =>
    obtain ⟨input, hin, hc⟩ := h
    exact lt_trans ih (hacyc _ input hin _ hc)

theorem HashAcyclic.cycleFree {g : Heap QVariant} {rank : NodePtr → Nat}
    (hacyc : HashAcyclic g rank) : HashCycleFree g :=
  fun _ h => lt_irrefl _ (hacyc.transGen_rank_lt h)

theorem HashDescends.wellFounded_of_finite (g : Heap QVariant) (size : Nat)
    (hfin : HashFinite g size) (hfree : HashCycleFree g) :
    WellFounded (HashDescends g) := by
  have wfFin : WellFounded
      (fun i j : Fin size => Relation.TransGen (HashDescends g) i.1 j.1) := by
    haveI : IsTrans (Fin size)
        (fun i j : Fin size => Relation.TransGen (HashDescends g) i.1 j.1) :=
      ⟨fun _ _ _ h1 h2 => Relation.TransGen.trans h1 h2⟩
    haveI : IsIrrefl (Fin size)
        (fun i j : Fin size => Relation.TransGen (HashDescends g) i.1 j.1) :=
      ⟨fun i h => hfree i.1 h⟩
    exact Finite.wellFounded_of_trans_of_irrefl _
  have hacc : ∀ i : Fin size, Acc (HashDescends g) i.1 := by
    intro i
    induction i using wfFin.induction with
    | _ i ih =>
      refine Acc.intro _ fun c hc => ?_
      exact ih ⟨c, (hfin _ _ hc).2⟩ (Relation.TransGen.single hc)
  refine ⟨fun n => ?_⟩
  by_cases hn : n < size
  · exact hacc ⟨n, hn⟩
  · exact Acc.intro _ fun c hc => absurd (hfin _ _ hc).1 hn

theorem le_foldr_max_of_mem {l : List Nat} {x : Nat} (h : x ∈ l) :
    x ≤ l.foldr max 0 := by
  induction l with
  | nil => simp at h
  | cons y rest ih =>
    rcases List.mem_cons.mp h with rfl | h
    · exact le_max_left _ _
    · exact le_trans (ih h) (le_max_right _ _)

theorem HashAcyclic.of_wellFounded (g : Heap QVariant)
    (hwf : WellFounded (HashDescends g)) : ∃ rank : NodePtr → Nat, HashAcyclic g rank := by
  -- the height of a node: one more than the heights of the nodes it descends into
  have hrank : ∃ rank : NodePtr → Nat, ∀ n c, HashDescends g c n → rank c < rank n := by
    classical
    refine ⟨hwf.fix fun n ih =>
      (((g n).hashedInputs.filterMap NodeInput.get_connected_node).attach.map fun c =>
        ih c.1 (by
          obtain ⟨input, hin, hc⟩ := List.mem_filterMap.mp c.2
          exact ⟨input, hin, hc⟩) + 1).foldr max 0, ?_⟩
    intro n c hc
    conv_rhs => rw [WellFounded.fix_eq]
    obtain ⟨input, hin, hc'⟩ := hc
    have hmem : c ∈ (g n).hashedInputs.filterMap NodeInput.get_connected_node :=
      List.mem_filterMap.mpr ⟨input, hin, hc'⟩
    apply Nat.lt_of_succ_le
    apply le_foldr_max_of_mem
    exact List.mem_map.mpr ⟨⟨c, hmem⟩, List.mem_attach _ _, rfl⟩
  obtain ⟨rank, hr⟩ := hrank
  exact ⟨rank, fun n input hin c hc => hr n c ⟨input, hin, hc⟩⟩

theorem Node.Hash.loop_returns (ValueToBytes : DataType → QVariant → Bytes)
    (HashOf : NodePtr → Bytes → rational → Option Bytes)
    (adjust : InputPtr → TimeRange → TimeRange) (time : rational) :
    ∀ (inputs : List (NodeInput QVariant)),
      (∀ input ∈ inputs, ∀ c, input.get_connected_node = some c →
        ∀ h t, ∃ out, HashOf c h t = some out) →
      ∀ hash, ∃ out, Node.Hash.loop ValueToBytes HashOf adjust time inputs hash = some out := by
  intro inputs
  induction inputs with
  | nil => intro _ hash; exact ⟨hash, rfl⟩
  | cons input rest ih =>
    intro h hash
    have hrest := ih fun i hi => h i (List.mem_cons_of_mem _ hi)
    unfold Node.Hash.loop
    cases hc : input.is_connected with
    | true =>
      obtain ⟨c, hcn⟩ := input.get_connected_node_of_is_connected hc
      obtain ⟨out, hout⟩ := h input (List.mem_cons_self _ _) c hcn hash
        (adjust input.ptr (TimeRange.make time time)).in_
      simp only [if_true, hcn, hout]
      exact hrest _
    | false =>
      simp only [Bool.false_eq_true, if_false]
      exact hrest _

theorem Hash_returns_of_descent (ValueToBytes : DataType → QVariant → Bytes)
    (g : Heap QVariant) (n : NodePtr) (f : Nat)
    (h : ∀ c, HashDescends g c n → ∀ acc t, ∃ out, Hash ValueToBytes g f c acc t = some out)
    (hash : Bytes) (time : rational) :
    ∃ out, Hash ValueToBytes g (f + 1) n hash time = some out := by
  unfold Hash
  cases hk : (g n).kind with
  | node =>
    simp only [Node.Hash]
    apply Node.Hash.loop_returns
    intro input hin c hc
    exact h c ⟨input, by simpa [Node.hashedInputs, hk] using hin, hc⟩
  | clip cb =>
    simp only [ClipBlock.Hash]
    cases hc : cb.texture_input_.is_connected with
    | true =>
      obtain ⟨m, hm⟩ := cb.texture_input_.get_connected_node_of_is_connected hc
      simp only [if_true, hm]
      exact h m ⟨cb.texture_input_, by simp [Node.hashedInputs, hk], hm⟩ _ _
    | false => exact ⟨hash, by simp⟩

/-- C25 (termination). On a finite graph without a cycle along the inputs that hashing
follows, a rank of the nodes exists that decreases along these inputs, and for every node
and time the call of `Hash` returns, for every bound on the depth of the recursion above
the rank of the node. The recursion descends only through connected inputs: a call returns
as soon as the calls on the nodes connected to the hashed inputs return, and at a node
whose hashed inputs are all unconnected it returns without any further call. -/
theorem C25_Hash_terminates (ValueToBytes : DataType → QVariant → Bytes)
    (g : Heap QVariant) (size : Nat) (hfin : HashFinite g size) (hfree : HashCycleFree g) :
    (∃ rank : NodePtr → Nat, HashAcyclic g rank ∧
      ∀ (n : NodePtr) (hash : Bytes) (time : rational), ∃ out : Bytes,
        ∀ fuel, rank n < fuel → Hash ValueToBytes g fuel n hash time = some out) ∧
    (∀ (n : NodePtr) (f : Nat),
      (∀ c, HashDescends g c n → ∀ acc t, ∃ out, Hash ValueToBytes g f c acc t = some out) →
      ∀ (hash : Bytes) (time : rational), ∃ out,
        Hash ValueToBytes g (f + 1) n hash time = some out) ∧
    (∀ n : NodePtr, (∀ input ∈ (g n).hashedInputs, input.is_connected = false) →
      ∀ (hash : Bytes) (time : rational), ∃ out,
        Hash ValueToBytes g 1 n hash time = some out) := by
  refine ⟨?_, fun n f h hash time => Hash_returns_of_descent ValueToBytes g n f h hash time,
    ?_⟩
  · obtain ⟨rank, hrank⟩ := HashAcyclic.of_wellFounded g
      (HashDescends.wellFounded_of_finite g size hfin hfree)
    exact ⟨rank, hrank, fun n hash time =>
      ⟨_, fun fuel hf => Hash_eq ValueToBytes g rank hrank (rank n) n rfl fuel hf hash time⟩⟩
  · intro n hleaf hash time
    apply Hash_returns_of_descent
    rintro c ⟨input, hin, hc⟩
    rw [input.get_connected_node_of_not_connected (hleaf input hin)] at hc
    cases hc

theorem Example.chain_finite (v : Nat) : HashFinite (Example.chain v) 3 := by
  rintro n c ⟨input, hin, hc⟩
  have hlt : c < n := Example.chain_acyclic v n input hin c hc
  have hn : n < 3 := by
    match n with
    | 0 => decide
    | 1 => decide
    | 2 => decide
    | k + 3 =>
      simp [Example.chain, Node.hashedInputs, Node.GetInputsToHash,
        Node.GetInputsIncludingArrays] at hin
  exact ⟨hn, lt_trans hlt hn⟩

/-- Witness for C25: the example chain of three nodes is finite and has no cycle; the
call on the plain node at its end (2), at time 4, returns the bytes of `viewer`, of
`solid` and the byte 7 with a depth of 3. -/
theorem C25_Hash_terminates_witness :
    HashFinite (Example.chain 7) 3 ∧ HashCycleFree (Example.chain 7) ∧
    Hash Example.ValueToBytes (Example.chain 7) 3 2 [] 4 =
      some (toUtf8 "viewer" ++ toUtf8 "solid" ++ [7]) ∧
    ((∃ rank : NodePtr → Nat, HashAcyclic (Example.chain 7) rank ∧
      ∀ (n : NodePtr) (hash : Bytes) (time : rational), ∃ out : Bytes,
        ∀ fuel, rank n < fuel →
          Hash Example.ValueToBytes (Example.chain 7) fuel n hash time = some out) ∧
    (∀ (n : NodePtr) (f : Nat),
      (∀ c, HashDescends (Example.chain 7) c n → ∀ acc t, ∃ out,
        Hash Example.ValueToBytes (Example.chain 7) f c acc t = some out) →
      ∀ (hash : Bytes) (time : rational), ∃ out,
        Hash Example.ValueToBytes (Example.chain 7) (f + 1) n hash time = some out) ∧
    (∀ n : NodePtr,
      (∀ input ∈ (Example.chain 7 n).hashedInputs, input.is_connected = false) →
      ∀ (hash : Bytes) (time : rational), ∃ out,
        Hash Example.ValueToBytes (Example.chain 7) 1 n hash time = some out)) :=
  ⟨Example.chain_finite 7, (Example.chain_acyclic 7).cycleFree, by decide,
   C25_Hash_terminates Example.ValueToBytes (Example.chain 7) 3 (Example.chain_finite 7)
     (Example.chain_acyclic 7).cycleFree⟩

end HashTermination

/-! ### The hash of a clip (C26) -/

section ClipHash

variable {QVariant : Type}

/-- C26 (hash of a clip). For a node `n` that is a `ClipBlock`: the time at which the
texture input is hashed, `InputTimeAdjustment(texture_input, TimeRange(t, t)).in()`, is
`SequenceToMediaTime(t)`, whatever the conversion is (increasing or decreasing); when the
texture input is connected to the node `m`, the call of `Hash` on `n` at `t` is the call of
`Hash` on `m` at that time, on the same accumulator, so that with the accumulator `hash` it
returns `hash` followed by exactly the bytes that `m` feeds, on an acyclic graph; when the
texture input is unconnected the call returns the accumulator unchanged. -/
theorem C26_ClipBlock_Hash (ValueToBytes : DataType → QVariant → Bytes)
    (g : Heap QVariant) (n : NodePtr) (c : ClipBlock QVariant)
    (hk : (g n).kind = NodeKind.clip c) (hash : Bytes) (time : rational) :
    (c.InputTimeAdjustment c.texture_input_.ptr (TimeRange.make time time)).in_ =
      c.SequenceToMediaTime time ∧
    (∀ m, c.texture_input_.get_connected_node = some m →
      c.texture_input_.is_connected = true ∧
      (∀ fuel, Hash ValueToBytes g (fuel + 1) n hash time =
        Hash ValueToBytes g fuel m hash (c.SequenceToMediaTime time)) ∧
      (∀ rank : NodePtr → Nat, HashAcyclic g rank → ∀ fuel, rank n < fuel →
        Hash ValueToBytes g fuel n hash time =
          some (hash ++ HashBytes ValueToBytes g (rank m + 1) m (c.SequenceToMediaTime time)) ∧
        ∀ (acc : Bytes) (fuel' : Nat), rank m < fuel' →
          Hash ValueToBytes g fuel' m acc (c.SequenceToMediaTime time) =
            some (acc ++
              HashBytes ValueToBytes g (rank m + 1) m (c.SequenceToMediaTime time)))) ∧
    (c.texture_input_.is_connected = false →
      ∀ fuel, Hash ValueToBytes g (fuel + 1) n hash time = some hash) := by
  have htime := ClipBlock.InputTimeAdjustment_texture_in c time
  refine ⟨htime, ?_, ?_⟩
  · intro m hm
    have hconn : c.texture_input_.is_connected = true := by
      cases hc : c.texture_input_.is_connected with
      | true => rfl
      | false =>
        rw [c.texture_input_.get_connected_node_of_not_connected hc] at hm
        cases hm
    have hstep : ∀ fuel, Hash ValueToBytes g (fuel + 1) n hash time =
        Hash ValueToBytes g fuel m hash (c.SequenceToMediaTime time) := by
      intro fuel
      rw [Hash]
      simp only [hk, ClipBlock.Hash, hconn, if_true, hm, htime]
    refine ⟨hconn, hstep, ?_⟩
    intro rank hacyc fuel hfuel
    have hlt : rank m < rank n :=
      hacyc n c.texture_input_ (by simp [Node.hashedInputs, hk]) m hm
    refine ⟨?_, fun acc fuel' hf' =>
      Hash_eq ValueToBytes g rank hacyc (rank m) m rfl fuel' hf' acc _⟩
    obtain ⟨f, rfl⟩ : ∃ f, fuel = f + 1 := ⟨fuel - 1, by omega⟩
    rw [hstep f]
    exact Hash_eq ValueToBytes g rank hacyc (rank m) m rfl f (by omega) hash _
  · intro hnc fuel
    rw [Hash]
    simp [hk, ClipBlock.Hash, hnc]

/-- Witness for C26: the clip (1) of the example chain, whose texture input is connected to
the generator (0); at time 4 the generator is hashed at media time `(4 - 2) * 3 + 5 = 11`
and the clip feeds the bytes of the generator, `solid` and the byte 7, and nothing else. -/
theorem C26_ClipBlock_Hash_witness :
    (Example.chain 7 1).kind = NodeKind.clip Example.clip ∧
    Example.clip.texture_input_.get_connected_node = some 0 ∧
    Example.clip.SequenceToMediaTime 4 = 11 ∧
    Hash Example.ValueToBytes (Example.chain 7) 2 1 [] 4 = some (toUtf8 "solid" ++ [7]) ∧
    Hash Example.ValueToBytes (Example.chain 7) 1 0 [] 11 = some (toUtf8 "solid" ++ [7]) ∧
    (∀ fuel, Hash Example.ValueToBytes (Example.chain 7) (fuel + 1) 1 [] 4 =
      Hash Example.ValueToBytes (Example.chain 7) fuel 0 [] (Example.clip.SequenceToMediaTime 4)) :=
  ⟨rfl, rfl, by norm_num [Example.clip], by decide, by decide,
   ((C26_ClipBlock_Hash Example.ValueToBytes (Example.chain 7) 1 Example.clip rfl [] 4).2.1
     0 rfl).2.1⟩

end ClipHash

/-! ### Reversing a block, and the length in the speed/duration dialog (C28) -/

/-- What `BlockReverseCommand` does to a block. `undo_internal` is a second
`redo_internal`, and each application sets the media in point to `media_out()` and negates
the speed. For every block, redo and then undo restores the speed, and leaves as media in
point the media out point of the reversed block. Whether this is the media in point before
redo is decided by `Block::media_out()` of `block.cpp` (absent): it is when `media_out()`
is the media in point plus the length played at the speed of the block, and then the whole
block is as it was. -/
theorem BlockReverseCommand.undo_after_redo (media_out : Block → rational) (block : Block) :
    BlockReverseCommand.undo_internal media_out block =
      BlockReverseCommand.redo_internal media_out block ∧
    (BlockReverseCommand.redo_internal media_out block).media_in = media_out block ∧
    (BlockReverseCommand.redo_internal media_out block).speed = -block.speed ∧
    (BlockReverseCommand.undo_internal media_out
      (BlockReverseCommand.redo_internal media_out block)).speed = block.speed ∧
    (BlockReverseCommand.undo_internal media_out
      (BlockReverseCommand.redo_internal media_out block)).media_in =
        media_out (BlockReverseCommand.redo_internal media_out block) ∧
    ((∀ b : Block, media_out b = b.media_in + b.length * b.speed) →
      (BlockReverseCommand.undo_internal media_out
        (BlockReverseCommand.redo_internal media_out block)).media_in = block.media_in ∧
      BlockReverseCommand.undo_internal media_out
        (BlockReverseCommand.redo_internal media_out block) = block) := by
  refine ⟨rfl, rfl, rfl, ?_, rfl, ?_⟩
  · simp [BlockReverseCommand.undo_internal, BlockReverseCommand.redo_internal,
      Block.set_media_in, Block.set_speed]
  · intro h
    have hin : (BlockReverseCommand.undo_internal media_out
        (BlockReverseCommand.redo_internal media_out block)).media_in = block.media_in := by
      simp only [BlockReverseCommand.undo_internal, BlockReverseCommand.redo_internal,
        Block.set_media_in, Block.set_speed, h]
      ring
    refine ⟨hin, ?_⟩
    cases block with
    | mk ptr type in_ out_ length media_in speed =>
      simp only [BlockReverseCommand.undo_internal, BlockReverseCommand.redo_internal,
        Block.set_media_in, Block.set_speed, h] at hin ⊢
      simp only [Block.mk.injEq, true_and, neg_neg, and_true]
      exact hin

/-- The example clip (media in 3, length 5, speed 2), reversed twice. With a media out point
that is the media in point plus the length played at the speed of the block, the clip is
reversed to media in 13 and speed -2, and back to media in 3 and speed 2. With a media out
point that is the media in point plus the length, whatever the speed, it is reversed to
media in 8 and back to media in 13. -/
theorem Example.reverse_twice :
    (BlockReverseCommand.redo_internal Example.linear_media_out Example.timelineClip).media_in
      = 13 ∧
    (BlockReverseCommand.redo_internal Example.linear_media_out Example.timelineClip).speed
      = -2 ∧
    BlockReverseCommand.undo_internal Example.linear_media_out
      (BlockReverseCommand.redo_internal Example.linear_media_out Example.timelineClip) =
        Example.timelineClip ∧
    (BlockReverseCommand.undo_internal Example.unscaled_media_out
      (BlockReverseCommand.redo_internal Example.unscaled_media_out
        Example.timelineClip)).media_in = 13 :=
  ⟨by norm_num [BlockReverseCommand.redo_internal, Block.set_media_in, Block.set_speed,
     Example.linear_media_out, Example.timelineClip],
   by norm_num [BlockReverseCommand.redo_internal, Block.set_media_in, Block.set_speed,
     Example.timelineClip],
   ((BlockReverseCommand.undo_after_redo Example.linear_media_out Example.timelineClip).2.2.2.2.2
     (fun _ => rfl)).2,
   by norm_num [BlockReverseCommand.undo_internal, BlockReverseCommand.redo_internal,
     Block.set_media_in, Block.set_speed, Example.unscaled_media_out, Example.timelineClip]⟩

/-- With "Ripple Clips" unchecked, a clip followed by a block that is not a gap is never
made longer: a trim command is created only with a length below the length of the clip. -/
theorem SpeedDurationDialog.accept.not_longer_before_non_gap
    (timestamp_to_time : Int → rational) (clip next_block : Block)
    (current_duration new_duration : Int) (hgap : next_block.type ≠ Block.Type_.kGap)
    (command : LengthCommand)
    (hc : command ∈ SpeedDurationDialog.accept.change_length timestamp_to_time false clip
      (some next_block) current_duration new_duration) :
    ∃ new_length, command = LengthCommand.BlockTrimCommand clip new_length
        Timeline.MovementMode.kTrimOut ∧ new_length < clip.length := by
  unfold SpeedDurationDialog.accept.change_length at hc
  simp only [Bool.false_eq_true, if_false, hgap] at hc
  split at hc
  · by_cases hlong : timestamp_to_time new_duration > clip.length
    · simp [hlong] at hc
    · simp only [hlong, if_false] at hc
      split at hc
      · rename_i hne
        simp only [List.mem_singleton] at hc
        exact ⟨_, hc, lt_of_le_of_ne (not_lt.mp hlong) hne⟩
      · simp at hc
  · simp at hc

/-- With "Ripple Clips" unchecked, for a clip that is made longer and is followed by a gap,
the length handed to the trim command is the smaller of the out point of the gap and of
the out point asked for, `clip.in() + new_clip_length`. -/
theorem SpeedDurationDialog.accept.length_before_gap
    (timestamp_to_time : Int → rational) (clip next_block : Block)
    (current_duration new_duration : Int) (hgap : next_block.type = Block.Type_.kGap)
    (hne : new_duration ≠ current_duration)
    (hlong : timestamp_to_time new_duration > clip.length)
    (command : LengthCommand)
    (hc : command ∈ SpeedDurationDialog.accept.change_length timestamp_to_time false clip
      (some next_block) current_duration new_duration) :
    command = LengthCommand.BlockTrimCommand clip
      (min next_block.out_ (clip.in_ + timestamp_to_time new_duration))
      Timeline.MovementMode.kTrimOut := by
  unfold SpeedDurationDialog.accept.change_length at hc
  simp only [Bool.false_eq_true, if_false, hgap, hne, ne_eq, not_false_eq_true, if_true,
    hlong] at hc
  split at hc
  · simpa using hc
  · simp at hc

/-- C28 (length of a clip before a gap), evaluated where it fails: the example clip runs
from 10 to 15 and is followed by a gap from 15 to 20; with "Ripple Clips" unchecked and a
new duration of 8 (time base 1), the trim command is handed the length 18, the out point
asked for, so that `clip.in() + new_clip_length` is 28, beyond the out point 20 of the
gap. -/
theorem C28_trim_length_exceeds_gap :
    Example.timelineGap.type = Block.Type_.kGap ∧
    Example.timelineClip.in_ + Example.timelineClip.length = Example.timelineGap.in_ ∧
    SpeedDurationDialog.accept.change_length (fun n => (n : rational)) false
      Example.timelineClip (some Example.timelineGap) 5 8 =
        [LengthCommand.BlockTrimCommand Example.timelineClip 18
          Timeline.MovementMode.kTrimOut] ∧
    ¬ (Example.timelineClip.in_ + 18 ≤ Example.timelineGap.out_) := by
  refine ⟨rfl, by norm_num [Example.timelineClip, Example.timelineGap], ?_,
    by norm_num [Example.timelineClip, Example.timelineGap]⟩
  norm_num [SpeedDurationDialog.accept.change_length, Example.timelineClip,
    Example.timelineGap]

/-! ### Splitting at the playhead (C29) -/

theorem TimelineWidget.SplitAtPlayhead.tracks_eq (playhead_time : rational)
    (selected_blocks : List TimelineViewBlockItem) :
    ∀ (tracks : List TrackOutput) (blocks : List Block) (flags : List Bool) (some_ : Bool),
      TimelineWidget.SplitAtPlayhead.tracks playhead_time selected_blocks tracks
          (blocks, flags, some_) =
        (blocks ++ TimelineWidget.clipsAtPlayhead tracks playhead_time,
         flags ++ (TimelineWidget.clipsAtPlayhead tracks playhead_time).map
           (fun b => TimelineWidget.SplitAtPlayhead.selected b selected_blocks),
         some_ || (TimelineWidget.clipsAtPlayhead tracks playhead_time).any
           (fun b => TimelineWidget.SplitAtPlayhead.selected b selected_blocks)) := by
  intro tracks
  induction tracks with
  | nil => intro blocks flags some_; simp [TimelineWidget.SplitAtPlayhead.tracks,
      TimelineWidget.clipsAtPlayhead]
  | cons track rest ih =>
    intro blocks flags some_
    unfold TimelineWidget.SplitAtPlayhead.tracks
    cases hb : track.BlockContainingTime playhead_time with
    | none =>
      simp only [ih]
      simp [TimelineWidget.clipsAtPlayhead, hb]
    | some b =>
      by_cases hk : b.type = Block.Type_.kClip
      · simp only [hk, if_true, ih]
        simp [TimelineWidget.clipsAtPlayhead, hb, hk, Option.filter, Bool.or_assoc]
      · simp only [hk, if_false, ih]
        simp [TimelineWidget.clipsAtPlayhead, hb, hk, Option.filter]

theorem TimelineWidget.SplitAtPlayhead.prune_eq :
    ∀ (rest : List (Block × Bool)) (kept : List Block) (fuel : Nat),
      rest.length ≤ fuel →
      TimelineWidget.SplitAtPlayhead.prune fuel kept.length
          (kept ++ rest.map Prod.fst) (kept.map (fun _ => true) ++ rest.map Prod.snd) =
        some (kept ++ (rest.filter Prod.snd).map Prod.fst,
          kept.map (fun _ => true) ++ (rest.filter Prod.snd).map Prod.snd) := by
  intro rest
  induction rest with
  | nil =>
    intro kept fuel _
    unfold TimelineWidget.SplitAtPlayhead.prune
    have hnone : (kept.map (fun _ => true) ++ ([] : List (Block × Bool)).map Prod.snd)[
        kept.length]? = none := List.getElem?_eq_none (by simp)
    simp only [hnone]
    simp
  | cons x rest ih =>
    intro kept fuel hfuel
    obtain ⟨f, rfl⟩ : ∃ f, fuel = f + 1 := ⟨fuel - 1, by simp at hfuel; omega⟩
    have hlen : (kept.map fun _ => true).length = kept.length := by simp
    unfold TimelineWidget.SplitAtPlayhead.prune
    have hget : (kept.map (fun _ => true) ++ (x :: rest).map Prod.snd)[kept.length]? =
        some x.2 := by
      rw [List.getElem?_append_right (by simp)]
      simp
    simp only [hget]
    cases hx : x.2 with
    | false =>
      simp only [Bool.not_false, if_true]
      have e1 : (kept ++ (x :: rest).map Prod.fst).eraseIdx kept.length =
          kept ++ rest.map Prod.fst := by
        rw [List.eraseIdx_append_of_length_le (le_refl _)]
        simp
      have e2 : (kept.map (fun _ => true) ++ (x :: rest).map Prod.snd).eraseIdx kept.length =
          kept.map (fun _ => true) ++ rest.map Prod.snd := by
        rw [List.eraseIdx_append_of_length_le (by simp)]
        simp
      rw [e1, e2, ih kept f (by simp at hfuel; omega)]
      simp [List.filter_cons, hx]
    | true =>
      simp only [Bool.not_true, Bool.false_eq_true, if_false]
      have h := ih (kept ++ [x.1]) f (by simp at hfuel; omega)
      simp only [List.length_append, List.length_singleton, List.map_append, List.map_cons,
        List.map_nil, List.append_assoc, List.singleton_append] at h
      simp only [List.map_cons, hx]
      rw [h]
      simp [List.filter_cons, hx]

/-- C29 (split at the playhead). `SplitAtPlayhead` always returns. Among the clip blocks
that contain the playhead time, one candidate at most per track, it splits exactly the
selected ones if one of them at least is selected, and all of them if none is; a block
that is not a clip is never split; no command is pushed when the list is empty, nor when
no node is connected; otherwise one command is pushed, with the playhead time. -/
theorem C29_SplitAtPlayhead (tracks : List TrackOutput) (playhead_time : rational)
    (selected_blocks : List TimelineViewBlockItem) :
    (∃ blocks_to_split : List Block,
      blocks_to_split =
        (if (TimelineWidget.clipsAtPlayhead tracks playhead_time).any
            (fun b => TimelineWidget.SplitAtPlayhead.selected b selected_blocks) then
          (TimelineWidget.clipsAtPlayhead tracks playhead_time).filter
            (fun b => TimelineWidget.SplitAtPlayhead.selected b selected_blocks)
        else TimelineWidget.clipsAtPlayhead tracks playhead_time) ∧
      TimelineWidget.SplitAtPlayhead (some tracks) playhead_time selected_blocks =
        some (if blocks_to_split = [] then []
          else [{ blocks := blocks_to_split, times := [playhead_time] }]) ∧
      (∀ b ∈ blocks_to_split, b.type = Block.Type_.kClip ∧
        ∃ track ∈ tracks, track.BlockContainingTime playhead_time = some b)) ∧
    (∀ b : Block, TimelineWidget.SplitAtPlayhead.selected b selected_blocks = true ↔
      ∃ item ∈ selected_blocks, item.block = b.ptr) ∧
    (∀ b : Block, b ∈ TimelineWidget.clipsAtPlayhead tracks playhead_time ↔
      b.type = Block.Type_.kClip ∧
        ∃ track ∈ tracks, track.BlockContainingTime playhead_time = some b) ∧
    TimelineWidget.SplitAtPlayhead none playhead_time selected_blocks = some [] := by
  have hmem : ∀ b : Block, b ∈ TimelineWidget.clipsAtPlayhead tracks playhead_time ↔
      b.type = Block.Type_.kClip ∧
        ∃ track ∈ tracks, track.BlockContainingTime playhead_time = some b := by
    intro b
    unfold TimelineWidget.clipsAtPlayhead
    rw [List.mem_filterMap]
    constructor
    · rintro ⟨track, ht, hb⟩
      cases hc : track.BlockContainingTime playhead_time with
      | none => simp [hc, Option.filter] at hb
      | some c =>
        simp only [hc, Option.filter] at hb
        split at hb
        · rename_i hk
          cases hb
          exact ⟨by simpa using hk, track, ht, hc⟩
        · cases hb
    · rintro ⟨hk, track, ht, hb⟩
      exact ⟨track, ht, by simp [hb, Option.filter, hk]⟩
  refine ⟨⟨_, rfl, ?_, ?_⟩, ?_, hmem, rfl⟩
  · unfold TimelineWidget.SplitAtPlayhead
    simp only [TimelineWidget.SplitAtPlayhead.tracks_eq, List.nil_append, Bool.false_or]
    generalize TimelineWidget.clipsAtPlayhead tracks playhead_time = cands
    cases hany : cands.any
        (fun b => TimelineWidget.SplitAtPlayhead.selected b selected_blocks) with
    | false =>
      simp only [Bool.false_eq_true, if_false]
      cases cands with
      | nil => simp
      | cons c cs => simp
    | true =>
      simp only [if_true]
      have h := TimelineWidget.SplitAtPlayhead.prune_eq
        (cands.map fun b => (b, TimelineWidget.SplitAtPlayhead.selected b selected_blocks))
        [] cands.length (by simp)
      simp only [List.length_nil, List.nil_append, List.map_nil, List.map_map] at h
      have e1 : (Prod.fst ∘ fun b : Block =>
          (b, TimelineWidget.SplitAtPlayhead.selected b selected_blocks)) = id := rfl
      have e2 : (Prod.snd ∘ fun b : Block =>
          (b, TimelineWidget.SplitAtPlayhead.selected b selected_blocks)) =
          fun b => TimelineWidget.SplitAtPlayhead.selected b selected_blocks := rfl
      rw [e1, e2, List.map_id] at h
      simp only [List.length_map, h]
      have e3 : ((cands.map fun b =>
          (b, TimelineWidget.SplitAtPlayhead.selected b selected_blocks)).filter
            Prod.snd).map Prod.fst =
          cands.filter fun b => TimelineWidget.SplitAtPlayhead.selected b selected_blocks := by
        rw [List.filter_map, List.map_map]
        exact List.map_id _
      rw [e3]
      cases cands.filter
          (fun b => TimelineWidget.SplitAtPlayhead.selected b selected_blocks) with
      | nil => simp
      | cons c cs => simp
  · intro b hb
    apply (hmem b).mp
    split at hb
    · exact (List.mem_filter.mp hb).1
    · exact hb
  · intro b
    induction selected_blocks with
    | nil => simp [TimelineWidget.SplitAtPlayhead.selected]
    | cons item rest ih =>
      unfold TimelineWidget.SplitAtPlayhead.selected
      by_cases h : item.block = b.ptr
      · simp [h]
      · simp [h, ih]

/-- The example tracks at time 12: with the second clip (address 3) selected only this clip
is split; with the gap (address 2) selected, which is no candidate, both clips are. -/
theorem Example.split_at_playhead :
    TimelineWidget.SplitAtPlayhead (some Example.tracks) 12 [⟨3⟩] =
      some [{ blocks := [{ Example.timelineClip with ptr := 3 }], times := [12] }] ∧
    TimelineWidget.SplitAtPlayhead (some Example.tracks) 12 [⟨2⟩] =
      some [{ blocks := [Example.timelineClip, { Example.timelineClip with ptr := 3 }],
              times := [12] }] := by
  constructor <;> rfl

/-! ### Copying the selected blocks (C30) -/

theorem TimelineWidget.CopySelected.deps_cons_of_mem {selected_nodes : List NodePtr}
    {d : NodePtr} (rest : List NodePtr) (hd : d ∈ selected_nodes) :
    TimelineWidget.CopySelected.deps selected_nodes (d :: rest) =
      TimelineWidget.CopySelected.deps selected_nodes rest := by
  simp only [TimelineWidget.CopySelected.deps]
  split
  · rename_i h
    simp [hd] at h
  · rfl

theorem TimelineWidget.CopySelected.deps_cons_of_not_mem {selected_nodes : List NodePtr}
    {d : NodePtr} (rest : List NodePtr) (hd : d ∉ selected_nodes) :
    TimelineWidget.CopySelected.deps selected_nodes (d :: rest) =
      TimelineWidget.CopySelected.deps (selected_nodes ++ [d]) rest := by
  simp only [TimelineWidget.CopySelected.deps]
  split
  · rfl
  · rename_i h
    simp [hd] at h

theorem TimelineWidget.CopySelected.mem_deps (x : NodePtr) :
    ∀ (ds selected_nodes : List NodePtr),
      x ∈ TimelineWidget.CopySelected.deps selected_nodes ds ↔ x ∈ selected_nodes ∨ x ∈ ds := by
  intro ds
  induction ds with
  | nil => intro s; simp [TimelineWidget.CopySelected.deps]
  | cons d rest ih =>
    intro s
    by_cases hd : d ∈ s
    · rw [TimelineWidget.CopySelected.deps_cons_of_mem rest hd, ih, List.mem_cons]
      constructor
      · rintro (h | h)
        · exact Or.inl h
        · exact Or.inr (Or.inr h)
      · rintro (h | h | h)
        · exact Or.inl h
        · exact Or.inl (h ▸ hd)
        · exact Or.inr h
    · rw [TimelineWidget.CopySelected.deps_cons_of_not_mem rest hd, ih, List.mem_append,
        List.mem_singleton, List.mem_cons]
      tauto

theorem TimelineWidget.CopySelected.nodup_deps :
    ∀ (ds selected_nodes : List NodePtr), selected_nodes.Nodup →
      (TimelineWidget.CopySelected.deps selected_nodes ds).Nodup := by
  intro ds
  induction ds with
  | nil => intro s hs; simpa [TimelineWidget.CopySelected.deps] using hs
  | cons d rest ih =>
    intro s hs
    by_cases hd : d ∈ s
    · rw [TimelineWidget.CopySelected.deps_cons_of_mem rest hd]
      exact ih s hs
    · rw [TimelineWidget.CopySelected.deps_cons_of_not_mem rest hd]
      apply ih
      rw [List.nodup_append]
      exact ⟨hs, List.nodup_singleton d, by
        intro a ha hb
        rw [List.mem_singleton] at hb
        exact hd (hb ▸ ha)⟩

theorem TimelineWidget.CopySelected.mem_items (GetDependencies : NodePtr → List NodePtr)
    (x : NodePtr) :
    ∀ (selected : List TimelineViewBlockItem) (selected_nodes : List NodePtr),
      x ∈ TimelineWidget.CopySelected.items GetDependencies selected selected_nodes ↔
        x ∈ selected_nodes ∨
          ∃ item ∈ selected, x = item.block ∨ x ∈ GetDependencies item.block := by
  intro selected
  induction selected with
  | nil => intro s; simp [TimelineWidget.CopySelected.items]
  | cons item rest ih =>
    intro s
    unfold TimelineWidget.CopySelected.items
    simp only [ih, TimelineWidget.CopySelected.mem_deps, List.mem_append, List.mem_singleton]
    constructor
    · rintro (((h | h) | h) | ⟨it, hit, h⟩)
      · exact Or.inl h
      · exact Or.inr ⟨item, List.mem_cons_self _ _, Or.inl h⟩
      · exact Or.inr ⟨item, List.mem_cons_self _ _, Or.inr h⟩
      · exact Or.inr ⟨it, List.mem_cons_of_mem _ hit, h⟩
    · rintro (h | ⟨it, hit, h⟩)
      · exact Or.inl (Or.inl (Or.inl h))
      · rcases List.mem_cons.mp hit with rfl | hit
        · rcases h with h | h
          · exact Or.inl (Or.inl (Or.inr h))
          · exact Or.inl (Or.inr h)
        · exact Or.inr ⟨it, hit, h⟩

/-- The list built by `CopySelected` has no node twice when no selected block is, or is a
dependency of, a selected block that comes before it in the selection. -/
theorem TimelineWidget.CopySelected.nodup_items (GetDependencies : NodePtr → List NodePtr) :
    ∀ (selected : List TimelineViewBlockItem) (selected_nodes : List NodePtr),
      selected_nodes.Nodup →
      (∀ item ∈ selected, item.block ∉ selected_nodes) →
      selected.Pairwise (fun earlier later =>
        later.block ≠ earlier.block ∧ later.block ∉ GetDependencies earlier.block) →
      (TimelineWidget.CopySelected.items GetDependencies selected selected_nodes).Nodup := by
  intro selected
  induction selected with
  | nil => intro s hs _ _; simpa [TimelineWidget.CopySelected.items] using hs
  | cons item rest ih =>
    intro s hs hfresh hpair
    unfold TimelineWidget.CopySelected.items
    rw [List.pairwise_cons] at hpair
    apply ih
    · apply TimelineWidget.CopySelected.nodup_deps
      rw [List.nodup_append]
      exact ⟨hs, List.nodup_singleton _, by
        intro a ha hb
        rw [List.mem_singleton] at hb
        exact hfresh item (List.mem_cons_self _ _) (hb ▸ ha)⟩
    · intro later hlater hmem
      rw [TimelineWidget.CopySelected.mem_deps, List.mem_append, List.mem_singleton] at hmem
      rcases hmem with (h | h) | h
      · exact hfresh later (List.mem_cons_of_mem _ hlater) h
      · exact (hpair.1 later hlater).1 h
      · exact (hpair.1 later hlater).2 h
    · exact hpair.2

/-- C30 (copy list), evaluated where it fails: a transition (1) and a clip (2) are
selected, in this order, and the clip is a dependency of the transition. The list handed to
`CopyNodesToClipboard` is `[1, 2, 2]`: the clip is there twice. Selected in the other
order, the list is `[2, 1]`. -/
theorem C30_copy_list_holds_block_twice :
    Example.transitionDependencies 1 = [2] ∧
    TimelineWidget.CopySelected true Example.transitionDependencies [⟨1⟩, ⟨2⟩] =
      some [1, 2, 2] ∧
    ¬ ([1, 2, 2] : List NodePtr).Nodup ∧
    TimelineWidget.CopySelected true Example.transitionDependencies [⟨2⟩, ⟨1⟩] =
      some [2, 1] := by
  refine ⟨rfl, by decide, by decide, by decide⟩

/-! ### Value tables (C21) -/

section ValueTableTheorems

variable {QVariant : Type}

theorem NodeValueTable.GetInternal_Push_match (table : NodeValueTable QVariant)
    (value : NodeValue QVariant) :
    (table.Push value).GetInternal value.type_ value.tag_ = some table.values_.length := by
  unfold NodeValueTable.GetInternal NodeValueTable.Push
  simp only [List.length_append, List.length_singleton]
  unfold NodeValueTable.GetInternal.scan
  simp

/-- C21 (last pushed wins). For every table and every two values `A` and `B` of the same
type and tag: after `Push(A)` then `Push(B)`, `Get(type, tag)` returns the data of `B`;
`Take(type, tag)` returns the data of `B` and leaves the table as it was after `Push(A)`,
so that a `Get(type, tag)` that follows returns the data of `A`. -/
theorem C21_NodeValueTable_precedence (null : QVariant) (table : NodeValueTable QVariant)
    (A B : NodeValue QVariant) (htype : B.type_ = A.type_) (htag : B.tag_ = A.tag_) :
    ((table.Push A).Push B).Get null A.type_ A.tag_ = B.data_ ∧
    (((table.Push A).Push B).Take null A.type_ A.tag_).1 = B.data_ ∧
    (((table.Push A).Push B).Take null A.type_ A.tag_).2 = table.Push A ∧
    (((table.Push A).Push B).Take null A.type_ A.tag_).2.Get null A.type_ A.tag_ =
      A.data_ := by
  have hB : ((table.Push A).Push B).GetInternal A.type_ A.tag_ =
      some (table.Push A).values_.length := by
    rw [← htype, ← htag]
    exact NodeValueTable.GetInternal_Push_match (table.Push A) B
  have hA : (table.Push A).GetInternal A.type_ A.tag_ = some table.values_.length :=
    NodeValueTable.GetInternal_Push_match table A
  have hlast : ∀ (l : List (NodeValue QVariant)) (v : NodeValue QVariant),
      (l ++ [v])[l.length]? = some v := by
    intro l v
    rw [List.getElem?_append_right (le_refl _)]
    simp
  have hgetB : ((table.Push A).Push B).values_[(table.Push A).values_.length]? = some B :=
    hlast _ B
  have hgetA : (table.Push A).values_[table.values_.length]? = some A := hlast _ A
  have htake : ((table.Push A).Push B).Take null A.type_ A.tag_ = (B.data_, table.Push A) := by
    unfold NodeValueTable.Take
    rw [hB]
    simp only [hgetB]
    congr 1
    show ({ values_ := ((table.Push A).values_ ++ [B]).eraseIdx (table.Push A).values_.length } :
      NodeValueTable QVariant) = table.Push A
    rw [List.eraseIdx_append_of_length_le (le_refl _)]
    simp
  refine ⟨?_, by rw [htake], by rw [htake], ?_⟩
  · unfold NodeValueTable.Get
    rw [hB]
    simp only [hgetB]
  · rw [htake]
    unfold NodeValueTable.Get
    rw [hA]
    simp only [hgetA]

/-- Witness for C21: the example table, the values `A` (data 1) and `B` (data 2) of type
buffer with the tag `tex`. -/
theorem C21_NodeValueTable_precedence_witness :
    Example.valueB.type_ = Example.valueA.type_ ∧
    Example.valueB.tag_ = Example.valueA.tag_ ∧
    ((Example.table.Push Example.valueA).Push Example.valueB).Get 0 DataType.kBuffer "tex" = 2 ∧
    (((Example.table.Push Example.valueA).Push Example.valueB).Take 0 DataType.kBuffer
      "tex").1 = 2 ∧
    (((Example.table.Push Example.valueA).Push Example.valueB).Take 0 DataType.kBuffer
      "tex").2.Get 0 DataType.kBuffer "tex" = 1 ∧
    (((Example.table.Push Example.valueA).Push Example.valueB).Take 0 DataType.kBuffer
      "tex").2.Get 0 DataType.kNumber "" = 5 ∧
    Example.table.Get 0 DataType.kBuffer "tex" = 0 :=
  ⟨rfl, rfl,
   (C21_NodeValueTable_precedence 0 Example.table Example.valueA Example.valueB rfl rfl).1,
   (C21_NodeValueTable_precedence 0 Example.table Example.valueA Example.valueB rfl rfl).2.1,
   (C21_NodeValueTable_precedence 0 Example.table Example.valueA Example.valueB rfl
     rfl).2.2.2,
   by decide, by decide⟩

end ValueTableTheorems

/-! ### Rational numbers (C22) -/

/-- C22 (exact addition). For all integers `a`, `b`, `c`, `d` with `b` and `d` non-zero,
`rational(a, b) + rational(c, d)` is the fraction `(a * d + c * b) / (b * d)` exactly, in
lowest terms and with a positive denominator: its numerator and denominator are those of
`(a * d + c * b) / (b * d)` divided by their greatest common divisor, the sign carried by
the numerator. -/
theorem C22_rational_addition_exact (a b c d : Int) (hb : b ≠ 0) (hd : d ≠ 0) :
    rational.operator_add (rational.make a b) (rational.make c d) =
      rational.make (a * d + c * b) (b * d) ∧
    0 < (rational.operator_add (rational.make a b) (rational.make c d)).denominator ∧
    Nat.Coprime
      (rational.operator_add (rational.make a b) (rational.make c d)).numerator.natAbs
      (rational.operator_add (rational.make a b) (rational.make c d)).denominator ∧
    (rational.operator_add (rational.make a b) (rational.make c d)).numerator * (b * d) =
      (a * d + c * b) *
        ((rational.operator_add (rational.make a b) (rational.make c d)).denominator : Int) ∧
    (rational.operator_add (rational.make a b) (rational.make c d)).numerator =
      (b * d).sign * (a * d + c * b) / ((a * d + c * b).gcd (b * d) : Int) ∧
    (rational.operator_add (rational.make a b) (rational.make c d)).denominator =
      (b * d).natAbs / (a * d + c * b).gcd (b * d) := by
  have hbd : b * d ≠ 0 := mul_ne_zero hb hd
  have hsum : rational.operator_add (rational.make a b) (rational.make c d) =
      rational.make (a * d + c * b) (b * d) := by
    unfold rational.operator_add rational.make
    exact Rat.divInt_add_divInt a c hb hd
  refine ⟨hsum, ?_, ?_, ?_, ?_, ?_⟩
  · exact Rat.den_pos _
  · exact Rat.reduced _
  · rw [hsum]
    unfold rational.make rational.numerator rational.denominator
    have h := Rat.num_divInt_den (Rat.divInt (a * d + c * b) (b * d))
    have hden : ((Rat.divInt (a * d + c * b) (b * d)).den : Int) ≠ 0 := by
      exact_mod_cast (Rat.den_pos _).ne'
    exact (Rat.divInt_eq_iff hden hbd).mp h
  · rw [hsum]
    exact Rat.num_mk _ _
  · rw [hsum]
    unfold rational.make rational.denominator
    rw [Rat.den_mk, if_neg hbd]

/-- Witness for C22: `1/(-2) + 1/3` is `-1/6`, with numerator -1 and denominator 6, and
`1/2 + 1/2` is `1/1`. -/
theorem C22_rational_addition_exact_witness :
    (-2 : Int) ≠ 0 ∧ (3 : Int) ≠ 0 ∧
    rational.operator_add (rational.make 1 (-2)) (rational.make 1 3) =
      rational.make (1 * 3 + 1 * (-2)) ((-2) * 3) ∧
    (rational.operator_add (rational.make 1 (-2)) (rational.make 1 3)).numerator = -1 ∧
    (rational.operator_add (rational.make 1 (-2)) (rational.make 1 3)).denominator = 6 ∧
    (rational.operator_add (rational.make 1 2) (rational.make 1 2)).numerator = 1 ∧
    (rational.operator_add (rational.make 1 2) (rational.make 1 2)).denominator = 1 := by
  have h := C22_rational_addition_exact 1 (-2) 1 3 (by decide) (by decide)
  have h2 := C22_rational_addition_exact 1 2 1 2 (by decide) (by decide)
  refine ⟨by decide, by decide, h.1, ?_, ?_, ?_, ?_⟩
  · rw [h.2.2.2.2.1]; decide
  · rw [h.2.2.2.2.2]; decide
  · rw [h2.2.2.2.2.1]; decide
  · rw [h2.2.2.2.2.2]; decide

/-! ### Ownership of nodes (C23) -/

theorem NodeGraph.ContainsNode_iff (graph : NodeGraph) (n : NodePtr) :
    graph.ContainsNode n = true ↔ n ∈ graph.nodes := by
  simp [NodeGraph.ContainsNode, NodeGraph.nodes]

theorem NodeGraph.run_destroyed (calls : List NodeGraph.Call) :
    ∀ graph : NodeGraph, (graph.run calls).destroyed = graph.destroyed := by
  induction calls with
  | nil => intro graph; rfl
  | cons call rest ih =>
    intro graph
    cases call with
    | AddNode node =>
      rw [NodeGraph.run, ih]
      unfold NodeGraph.AddNode
      split <;> rfl
    | TakeNode node =>
      rw [NodeGraph.run, ih]
      rfl

theorem NodeGraph.run_not_mem (n : NodePtr) (calls : List NodeGraph.Call)
    (hcalls : NodeGraph.Call.AddNode n ∉ calls) :
    ∀ graph : NodeGraph, n ∉ graph.nodes → n ∉ (graph.run calls).nodes := by
  induction calls with
  | nil => intro graph h; exact h
  | cons call rest ih =>
    intro graph h
    have hrest : NodeGraph.Call.AddNode n ∉ rest := fun hc => hcalls (List.mem_cons_of_mem _ hc)
    cases call with
    | AddNode node =>
      rw [NodeGraph.run]
      apply ih hrest
      have hne : n ≠ node := by
        rintro rfl
        exact hcalls (List.mem_cons_self _ _)
      unfold NodeGraph.AddNode
      split
      · exact h
      · simp only [NodeGraph.nodes, List.mem_append, List.mem_singleton] at h ⊢
        rintro (hm | hm)
        · exact h hm
        · exact hne hm
    | TakeNode node =>
      rw [NodeGraph.run]
      apply ih hrest
      simp only [NodeGraph.TakeNode, NodeGraph.nodes, List.mem_filter] at h ⊢
      exact fun hm => h hm.1

/-- C23 (graph ownership). After `AddNode(n)` the graph contains `n`. After `TakeNode(n)`
the graph does not contain `n` (`ContainsNode(n)` is false, `n` is not in `nodes()`), no
node was destroyed, and the other nodes of the graph are the same, in the same order. After
`TakeNode(n)` and any further calls of `AddNode` and `TakeNode` that do not add `n` again,
`Clear` and the deletion of the graph destroy exactly the nodes that the graph still owns,
and `n`, alive before, is not among the destroyed nodes. -/
theorem C23_graph_ownership (graph : NodeGraph) (n : NodePtr)
    (halive : n ∉ graph.destroyed) :
    (graph.AddNode n).ContainsNode n = true ∧ n ∈ (graph.AddNode n).nodes ∧
    (graph.AddNode n).destroyed = graph.destroyed ∧
    (graph.TakeNode n).ContainsNode n = false ∧ n ∉ (graph.TakeNode n).nodes ∧
    (graph.TakeNode n).destroyed = graph.destroyed ∧
    (graph.TakeNode n).nodes = graph.nodes.filter (fun m => m != n) ∧
    (∀ m, m ≠ n → (m ∈ (graph.TakeNode n).nodes ↔ m ∈ graph.nodes)) ∧
    (∀ calls : List NodeGraph.Call, NodeGraph.Call.AddNode n ∉ calls →
      ((graph.TakeNode n).run calls).Clear.destroyed =
        graph.destroyed ++ ((graph.TakeNode n).run calls).nodes ∧
      ((graph.TakeNode n).run calls).Clear.nodes = [] ∧
      ((graph.TakeNode n).run calls).destructor =
        graph.destroyed ++ ((graph.TakeNode n).run calls).nodes ∧
      n ∉ ((graph.TakeNode n).run calls).Clear.destroyed ∧
      n ∉ ((graph.TakeNode n).run calls).destructor) := by
  have htake : n ∉ (graph.TakeNode n).nodes := by
    simp [NodeGraph.TakeNode, NodeGraph.nodes]
  have hadd : n ∈ (graph.AddNode n).nodes := by
    unfold NodeGraph.AddNode
    split
    · rename_i h
      exact (NodeGraph.ContainsNode_iff graph n).mp h
    · simp [NodeGraph.nodes]
  refine ⟨(NodeGraph.ContainsNode_iff _ n).mpr hadd, hadd, ?_, ?_, htake, rfl, rfl, ?_, ?_⟩
  · unfold NodeGraph.AddNode
    split <;> rfl
  · cases h : (graph.TakeNode n).ContainsNode n with
    | false => rfl
    | true => exact absurd ((NodeGraph.ContainsNode_iff _ n).mp h) htake
  · intro m hm
    simp [NodeGraph.TakeNode, NodeGraph.nodes, hm]
  · intro calls hcalls
    have hd : ((graph.TakeNode n).run calls).destroyed = graph.destroyed := by
      rw [NodeGraph.run_destroyed]
      rfl
    have hn := NodeGraph.run_not_mem n calls hcalls (graph.TakeNode n) htake
    have hclear : ((graph.TakeNode n).run calls).Clear.destroyed =
        graph.destroyed ++ ((graph.TakeNode n).run calls).nodes := by
      simp [NodeGraph.Clear, NodeGraph.nodes, hd]
    have hdel : ((graph.TakeNode n).run calls).destructor =
        graph.destroyed ++ ((graph.TakeNode n).run calls).nodes := by
      simp [NodeGraph.destructor, NodeGraph.nodes, hd]
    refine ⟨hclear, rfl, hdel, ?_, ?_⟩
    · rw [hclear, List.mem_append]
      rintro (h | h)
      · exact halive h
      · exact hn h
    · rw [hdel, List.mem_append]
      rintro (h | h)
      · exact halive h
      · exact hn h

/-- Witness for C23: the example graph owns the nodes 1, 2 and 3; after `TakeNode(2)` it
owns 1 and 3, and after `AddNode(4)` and `Clear` the destroyed nodes are 9 (destroyed
before), 1, 3 and 4. -/
theorem C23_graph_ownership_witness :
    2 ∉ Example.graph.destroyed ∧
    (Example.graph.TakeNode 2).nodes = [1, 3] ∧
    (Example.graph.TakeNode 2).ContainsNode 2 = false ∧
    ((Example.graph.TakeNode 2).run [NodeGraph.Call.AddNode 4]).Clear.destroyed =
      [9, 1, 3, 4] ∧
    2 ∉ ((Example.graph.TakeNode 2).run [NodeGraph.Call.AddNode 4]).Clear.destroyed :=
  ⟨by decide, by decide, by decide, by decide,
   ((C23_graph_ownership Example.graph 2 (by decide)).2.2.2.2.2.2.2.2
     [NodeGraph.Call.AddNode 4] (by decide)).2.2.2.1⟩

end Olive
